import Mathlib

/-! Histogram equalization (`proyectofinal.c`): embedding and verified properties.

The C program computes a 256-bin histogram of an 8-bit pixel buffer, its cumulative
distribution, a rescaled lookup table and the transformed buffer, once with one OpenMP
thread and once with all processors.

Modelling conventions.

* `unsigned char` samples are `Fin 256`; an `int t[256]` array is a vector of 256 integers
  indexed by `Fin 256`.
* `int` arithmetic is performed in `Int` and wrapped to 32 bits by `wrap32`
  (two's-complement wraparound); theorems state the range in which no wraparound occurs.
  The image dimensions are natural numbers, as the decoder returns them.
* A pixel buffer is a `List UChar`; `image[i]` is `image.getD i 0`, and every theorem assumes
  that the buffer holds the samples that the loop reads.
* An OpenMP work-sharing loop is described by the number of threads and an `owner` function
  sending each iteration to the thread that executes it. Every thread runs its iterations in
  increasing order. The threads of one loop write disjoint locations (private tables, or one
  array cell per iteration), so replaying them one after another is one of the admissible
  executions, and the theorems show that the result does not depend on `owner`.
* `double` arithmetic is IEEE-754 binary64 with exact rational values; a conversion to `int`
  whose behaviour is undefined in C yields `none`, and `none` is kept by everything computed
  afterwards.
-/

namespace HistEq

/-- An `unsigned char` sample. -/
abbrev UChar := Fin 256

/-- An `int t[256]` array. -/
abbrev Table := Mathlib.Vector Int 256

/-- The constant `INT_MAX` of `<limits.h>` for a 32-bit `int`. -/
def INT_MAX : Int := 2147483647

/-- The constant `INT_MIN` of `<limits.h>` for a 32-bit `int`. -/
def INT_MIN : Int := -2147483648

/-- Two's-complement wraparound of an integer to the 32-bit `int` range. -/
def wrap32 (x : Int) : Int := (x + 2147483648) % 4294967296 - 2147483648

/-- The `int` expression `width * height * channels`. -/
def total_pixels (width height channels : Nat) : Int :=
  wrap32 (wrap32 ((width : Int) * (height : Int)) * (channels : Int))

/-- Number of iterations of `for (int i = 0; i < width * height * channels; i++)`: the bound
when it is positive, none otherwise. -/
def sample_count (width height channels : Nat) : Nat :=
  (total_pixels width height channels).toNat

/-- The zero-initialised table `int t[256] = {0}`. -/
def zero_table : Table := Mathlib.Vector.replicate 256 0

/-- The iterations `0 ≤ i < n` of a work-sharing loop that thread `t` executes, in increasing
order. -/
def thread_iterations (owner : Nat → Nat) (n t : Nat) : List Nat :=
  (List.range n).filter (fun i => decide (owner i = t))

/-- A work-sharing loop (`#pragma omp for`, `#pragma omp parallel for`) over `0 ≤ i < n` whose
iterations act on a common state: the threads `0 .. num_threads - 1` are replayed one after
another, each running the iterations it owns. -/
def omp_for {σ : Type} (num_threads : Nat) (owner : Nat → Nat) (n : Nat)
    (body : σ → Nat → σ) (s : σ) : σ :=
  (List.range num_threads).foldl (fun s t => (thread_iterations owner n t).foldl body s) s

/-! ### `calculate_histogram` -/

/-- Loop body `local_hist[image[i]]++` of `calculate_histogram`. -/
def tally_sample (image : List UChar) (local_hist : Table) (i : Nat) : Table :=
  local_hist.set (image.getD i 0) (wrap32 (local_hist.get (image.getD i 0) + 1))

/-- The private table of thread `t` after the `omp for nowait` loop of `calculate_histogram`:
it starts zeroed (`calloc`) and tallies the samples of the iterations the thread owns. -/
def local_histogram (owner : Nat → Nat) (image : List UChar) (n t : Nat) : Table :=
  (thread_iterations owner n t).foldl (tally_sample image) zero_table

/-- Inner merge loop `for (j = 0; j < 256; j++) histogram[j] += local_hists[i][j];`. -/
def merge_local (histogram local_hist : Table) : Table :=
  (List.finRange 256).foldl
    (fun h j => h.set j (wrap32 (h.get j + local_hist.get j))) histogram

/-- The function `calculate_histogram`: `num_threads` private tables are filled by the
work-sharing loop and then added, thread by thread, into `histogram`. -/
def calculate_histogram (num_threads : Nat) (owner : Nat → Nat) (image : List UChar)
    (width height channels : Nat) (histogram : Table) : Table :=
  (List.range num_threads).foldl
    (fun h t => merge_local h (local_histogram owner image (sample_count width height channels) t))
    histogram

/-! ### `calculate_cdf` and `calculate_cdf_min` -/

/-- The two arrays `calculate_cdf` is given: `histogram` (read through a `const` pointer) and
`cdf` (written). In `main` they are distinct arrays. -/
structure CdfArrays where
  /-- The array behind `const int *histogram`. -/
  histogram : Table
  /-- The array behind `int *cdf`. -/
  cdf : Table

/-- Loop body `cdf[i] = cdf[i - 1] + histogram[i]`. -/
def cdf_step (m : CdfArrays) (i : Fin 256) : CdfArrays :=
  { m with cdf := m.cdf.set i (wrap32 (m.cdf.get (i - 1) + m.histogram.get i)) }

/-- The function `calculate_cdf`: `cdf[0] = histogram[0]`, then the loop over `i = 1 .. 255`. -/
def calculate_cdf (m : CdfArrays) : CdfArrays :=
  (List.finRange 256).tail.foldl cdf_step { m with cdf := m.cdf.set 0 (m.histogram.get 0) }

/-- Loop body of `calculate_cdf_min`: `if (cdf[i] > 0 && cdf[i] < cdf_min) cdf_min = cdf[i];`. -/
def cdf_min_step (cdf : Table) (cdf_min : Int) (i : Nat) : Int :=
  if 0 < cdf.get (Fin.ofNat i) ∧ cdf.get (Fin.ofNat i) < cdf_min then cdf.get (Fin.ofNat i)
  else cdf_min

/-- The private copy of `cdf_min` of thread `t` under `reduction(min:cdf_min)`: initialised to
the identity of `min` for `int`, which is `INT_MAX`, and updated by the thread's iterations. -/
def private_cdf_min (owner : Nat → Nat) (cdf : Table) (t : Nat) : Int :=
  (thread_iterations owner 256 t).foldl (cdf_min_step cdf) INT_MAX

/-- The function `calculate_cdf_min`: the original value `INT_MAX` is combined by `min` with
the private copy of every thread. -/
def calculate_cdf_min (num_threads : Nat) (owner : Nat → Nat) (cdf : Table) : Int :=
  (List.range num_threads).foldl (fun m t => min m (private_cdf_min owner cdf t)) INT_MAX

/-! ### Binary64 arithmetic

The type `double` is IEEE-754 binary64 and every operation is rounded to nearest, ties to
even (`FLT_EVAL_METHOD` 0). Values are kept as exact rationals. The two zeros are identified:
the only zero divisor in the program is an `int` zero converted to `double`, which is `+0.0`,
and the integer conversions below send both zeros to `0`. -/

/-- Round a rational to the nearest integer, ties to the even one. -/
def round_nearest_even (x : ℚ) : ℤ :=
  if x - ⌊x⌋ < 1 / 2 then ⌊x⌋
  else if 1 / 2 < x - ⌊x⌋ then ⌊x⌋ + 1
  else if ⌊x⌋ % 2 = 0 then ⌊x⌋ else ⌊x⌋ + 1

/-- With enough fuel (`n ≤ fuel`), the position of the leading binary digit of `n ≥ 1`, that is
`⌊log₂ n⌋`. -/
def nat_log2 : Nat → Nat → Nat
  | 0, _ => 0
  | fuel + 1, n => if n < 2 then 0 else nat_log2 fuel (n / 2) + 1

/-- The binary exponent `⌊log₂ |x|⌋` of a non-zero rational: the difference of the leading digit
positions of numerator and denominator, lowered by one when that power of two exceeds `|x|`. -/
def binary_exponent (x : ℚ) : ℤ :=
  if (2 : ℚ) ^ ((nat_log2 x.num.natAbs x.num.natAbs : ℤ) - (nat_log2 x.den x.den : ℤ)) ≤ |x|
  then (nat_log2 x.num.natAbs x.num.natAbs : ℤ) - (nat_log2 x.den x.den : ℤ)
  else (nat_log2 x.num.natAbs x.num.natAbs : ℤ) - (nat_log2 x.den x.den : ℤ) - 1

/-- Exponent of the unit in the last place of the binary64 numbers around `x`: the significand
has 53 bits and the exponent of a normal number is at least `-1022` (below that the numbers are
subnormal and keep the spacing `2 ^ (-1074)`). -/
def ulp_exponent (x : ℚ) : ℤ := max (binary_exponent x) (-1022) - 52

/-- The multiple of the unit in the last place nearest to `x`, ties to even. -/
def round_to_binary64 (x : ℚ) : ℚ :=
  (round_nearest_even (x / 2 ^ ulp_exponent x) : ℚ) * 2 ^ ulp_exponent x

/-- A value of type `double`. -/
inductive Double where
  /-- A finite number. -/
  | finite (value : ℚ)
  /-- Plus infinity (`negative = false`) or minus infinity. -/
  | infinite (negative : Bool)
  /-- Not a number. -/
  | nan
  deriving DecidableEq

/-- Correctly rounded result of an operation whose exact value is `x`; it overflows to an
infinity when the rounded magnitude reaches `2 ^ 1024`. -/
def Double.of_real (x : ℚ) : Double :=
  if |round_to_binary64 x| < 2 ^ 1024 then Double.finite (round_to_binary64 x)
  else Double.infinite (decide (x < 0))

/-- Conversion `(double) n` of an `int`. -/
def Double.of_int (n : Int) : Double := Double.of_real n

/-- The operator `/` on `double`. -/
def Double.div : Double → Double → Double
  | Double.nan, _ => Double.nan
  | _, Double.nan => Double.nan
  | Double.infinite _, Double.infinite _ => Double.nan
  | Double.infinite s, Double.finite b => Double.infinite (xor s (decide (b < 0)))
  | Double.finite _, Double.infinite _ => Double.finite 0
  | Double.finite a, Double.finite b =>
    if b = 0 then (if a = 0 then Double.nan else Double.infinite (decide (a < 0)))
    else Double.of_real (a / b)

/-- The operator `*` on `double`. -/
def Double.mul : Double → Double → Double
  | Double.nan, _ => Double.nan
  | _, Double.nan => Double.nan
  | Double.infinite s, Double.infinite t => Double.infinite (xor s t)
  | Double.infinite s, Double.finite b =>
    if b = 0 then Double.nan else Double.infinite (xor s (decide (b < 0)))
  | Double.finite a, Double.infinite t =>
    if a = 0 then Double.nan else Double.infinite (xor (decide (a < 0)) t)
  | Double.finite a, Double.finite b => Double.of_real (a * b)

/-- Round a rational to the nearest integer, halfway cases away from zero. -/
def round_half_away (x : ℚ) : ℤ :=
  if 0 ≤ x then ⌊x + 1 / 2⌋ else -⌊-x + 1 / 2⌋

/-- The function `round` of `<math.h>`. -/
def Double.round : Double → Double
  | Double.finite a => Double.finite (round_half_away a)
  | d => d

/-- The conversion `(int) d`: truncation toward zero; the behaviour is undefined (`none`) when
the truncated value is not representable in `int`, in particular for infinities and NaN. -/
def Double.to_int : Double → Option Int
  | Double.finite a =>
    if INT_MIN ≤ (if 0 ≤ a then ⌊a⌋ else ⌈a⌉) ∧ (if 0 ≤ a then ⌊a⌋ else ⌈a⌉) ≤ INT_MAX
    then some (if 0 ≤ a then ⌊a⌋ else ⌈a⌉) else none
  | _ => none

/-! ### `calculate_equalized_cdf` -/

/-- The value stored in `equalized_cdf[i]` by one iteration of `calculate_equalized_cdf`, as a
function of `c = cdf[i]`:
`(int)round(((double)(c - cdf_min) / (total_pixels - cdf_min)) * 255.0)`, replaced by `0` when
negative; `none` when the conversion to `int` is undefined. -/
def equalized_value (c cdf_min total_pixels : Int) : Option Int :=
  (Double.to_int (Double.round (Double.mul
      (Double.div (Double.of_int (wrap32 (c - cdf_min)))
        (Double.of_int (wrap32 (total_pixels - cdf_min))))
      (Double.of_real 255)))).map (fun v => if v < 0 then 0 else v)

/-- Loop body of `calculate_equalized_cdf` on the array `equalized_cdf`; `none` records that an
earlier iteration had undefined behaviour. -/
def equalize_step (cdf : Table) (cdf_min total_pixels : Int) (s : Option Table) (i : Nat) :
    Option Table :=
  s.bind fun eq =>
    (equalized_value (cdf.get (Fin.ofNat i)) cdf_min total_pixels).map
      fun v => eq.set (Fin.ofNat i) v

/-- The function `calculate_equalized_cdf`, a `parallel for` over the 256 levels. -/
def calculate_equalized_cdf (num_threads : Nat) (owner : Nat → Nat) (cdf : Table)
    (cdf_min total_pixels : Int) (equalized_cdf : Table) : Option Table :=
  omp_for num_threads owner 256 (equalize_step cdf cdf_min total_pixels) (some equalized_cdf)

/-! ### `apply_equalization` -/

/-- The conversion `(unsigned char) x` of an `int`: reduction modulo 256. -/
def to_uchar (x : Int) : UChar := Fin.ofNat (x % 256).toNat

/-- The arrays `apply_equalization` is given: the input buffer and the lookup table (both read
through `const` pointers) and the output buffer. In `main` they are distinct objects. -/
structure PixelArrays where
  /-- The buffer behind `const unsigned char *input_image`. -/
  input_image : List UChar
  /-- The buffer behind `unsigned char *output_image`. -/
  output_image : List UChar
  /-- The array behind `const int *equalized_cdf`. -/
  equalized_cdf : Table

/-- Loop body `output_image[i] = (unsigned char)equalized_cdf[input_image[i]]`. -/
def apply_step (m : PixelArrays) (i : Nat) : PixelArrays :=
  { m with output_image :=
      m.output_image.set i (to_uchar (m.equalized_cdf.get (m.input_image.getD i 0))) }

/-- The function `apply_equalization`, a `parallel for` over the samples. -/
def apply_equalization (num_threads : Nat) (owner : Nat → Nat) (m : PixelArrays)
    (width height channels : Nat) : PixelArrays :=
  omp_for num_threads owner (sample_count width height channels) apply_step m

/-! ### The pipeline of `main` -/

/-- The thread count set by `omp_set_num_threads` and, for each work-sharing loop of the
pipeline, the assignment of its iterations to threads. -/
structure Schedule where
  /-- Value of `omp_get_max_threads()`. -/
  num_threads : Nat
  /-- Assignment for the loop of `calculate_histogram`. -/
  histogram_owner : Nat → Nat
  /-- Assignment for the loop of `calculate_cdf_min`. -/
  cdf_min_owner : Nat → Nat
  /-- Assignment for the loop of `calculate_equalized_cdf`. -/
  equalized_owner : Nat → Nat
  /-- Assignment for the loop of `apply_equalization`. -/
  apply_owner : Nat → Nat

/-- The schedule of the sequential run: one thread executes everything. -/
def sequential_schedule : Schedule :=
  { num_threads := 1, histogram_owner := fun _ => 0, cdf_min_owner := fun _ => 0,
    equalized_owner := fun _ => 0, apply_owner := fun _ => 0 }

/-- The channel count passed on by `main`: four channels are reduced to three. -/
def adjusted_channels (channels : Nat) : Nat := if channels = 4 then 3 else channels

/-- What one run of the pipeline leaves in `histogram`, `cdf`, `cdf_min`, `equalized_cdf` and
`equalized_image`; the last two are `none` when `calculate_equalized_cdf` has undefined
behaviour. -/
structure PipelineResult where
  /-- Contents of `histogram`. -/
  histogram : Table
  /-- Contents of `cdf`. -/
  cdf : Table
  /-- Value of `cdf_min`. -/
  cdf_min : Int
  /-- Contents of `equalized_cdf`. -/
  equalized_cdf : Option Table
  /-- Contents of `equalized_image`. -/
  equalized_image : Option (List UChar)

/-- One run of the pipeline of `main` (lines 99-107 and 153-161) on the decoded buffer `image`,
with zeroed `histogram`, `cdf` and `equalized_cdf` and with `equalized_image` holding
`output_image` beforehand. -/
def run_pipeline (S : Schedule) (image : List UChar) (width height channels : Nat)
    (output_image : List UChar) : PipelineResult :=
  let histogram := calculate_histogram S.num_threads S.histogram_owner image width height
    (adjusted_channels channels) zero_table
  let cdf := (calculate_cdf { histogram := histogram, cdf := zero_table }).cdf
  let cdf_min := calculate_cdf_min S.num_threads S.cdf_min_owner cdf
  let equalized_cdf := calculate_equalized_cdf S.num_threads S.equalized_owner cdf cdf_min
    (total_pixels width height (adjusted_channels channels)) zero_table
  { histogram := histogram, cdf := cdf, cdf_min := cdf_min, equalized_cdf := equalized_cdf,
    equalized_image := equalized_cdf.map fun eq =>
      (apply_equalization S.num_threads S.apply_owner
        { input_image := image, output_image := output_image, equalized_cdf := eq }
        width height (adjusted_channels channels)).output_image }

/-! ### The conversion to `int` on x86-64 -/

/-- The conversion `(int) d` as the compiled program performs it on x86-64 (instruction
`cvttsd2si`): truncation toward zero, and the "integer indefinite" value `INT_MIN` when the
truncated value is not representable in `int`, in particular for infinities and NaN. Where
`Double.to_int` is defined the two agree. -/
def Double.to_int_x86 : Double → Int
  | Double.finite a =>
    if INT_MIN ≤ (if 0 ≤ a then ⌊a⌋ else ⌈a⌉) ∧ (if 0 ≤ a then ⌊a⌋ else ⌈a⌉) ≤ INT_MAX
    then (if 0 ≤ a then ⌊a⌋ else ⌈a⌉) else INT_MIN
  | _ => INT_MIN

/-- The value stored in `equalized_cdf[i]` by one iteration of `calculate_equalized_cdf` on
x86-64, as a function of `c = cdf[i]`:
`(int)round(((double)(c - cdf_min) / (total_pixels - cdf_min)) * 255.0)`, replaced by `0` when
negative. -/
def equalized_value_x86 (c cdf_min total_pixels : Int) : Int :=
  if Double.to_int_x86 (Double.round (Double.mul
      (Double.div (Double.of_int (wrap32 (c - cdf_min)))
        (Double.of_int (wrap32 (total_pixels - cdf_min))))
      (Double.of_real 255))) < 0 then 0
  else Double.to_int_x86 (Double.round (Double.mul
      (Double.div (Double.of_int (wrap32 (c - cdf_min)))
        (Double.of_int (wrap32 (total_pixels - cdf_min))))
      (Double.of_real 255)))

/-- Loop body of `calculate_equalized_cdf` on the array `equalized_cdf`, on x86-64. -/
def equalize_step_x86 (cdf : Table) (cdf_min total_pixels : Int) (eq : Table) (i : Nat) :
    Table :=
  eq.set (Fin.ofNat i) (equalized_value_x86 (cdf.get (Fin.ofNat i)) cdf_min total_pixels)

/-- The function `calculate_equalized_cdf` on x86-64, a `parallel for` over the 256 levels. -/
def calculate_equalized_cdf_x86 (num_threads : Nat) (owner : Nat → Nat) (cdf : Table)
    (cdf_min total_pixels : Int) (equalized_cdf : Table) : Table :=
  omp_for num_threads owner 256 (equalize_step_x86 cdf cdf_min total_pixels) equalized_cdf

/-- Contents of `equalized_cdf` and `equalized_image` after one run of the pipeline of `main` on
x86-64. -/
structure CompiledRun where
  /-- Contents of `equalized_cdf`. -/
  equalized_cdf : Table
  /-- Contents of `equalized_image`. -/
  equalized_image : List UChar

/-- One run of the pipeline of `main` (lines 99-107 and 153-161) on x86-64. The stages before
`calculate_equalized_cdf` convert no `double`, so they are those of `run_pipeline`. -/
def run_pipeline_x86 (S : Schedule) (image : List UChar) (width height channels : Nat)
    (output_image : List UChar) : CompiledRun :=
  let histogram := calculate_histogram S.num_threads S.histogram_owner image width height
    (adjusted_channels channels) zero_table
  let cdf := (calculate_cdf { histogram := histogram, cdf := zero_table }).cdf
  let cdf_min := calculate_cdf_min S.num_threads S.cdf_min_owner cdf
  let equalized_cdf := calculate_equalized_cdf_x86 S.num_threads S.equalized_owner cdf cdf_min
    (total_pixels width height (adjusted_channels channels)) zero_table
  { equalized_cdf := equalized_cdf,
    equalized_image :=
      (apply_equalization S.num_threads S.apply_owner
        { input_image := image, output_image := output_image, equalized_cdf := equalized_cdf }
        width height (adjusted_channels channels)).output_image }

/-! ### `generate_histogram_image` -/

/-- Body of the loop that searches the largest entry:
`if (histogram[i] > max_value) max_value = histogram[i]`. -/
def max_value_step (histogram : Table) (max_value : Int) (i : Nat) : Int :=
  if histogram.get (Fin.ofNat i) > max_value then histogram.get (Fin.ofNat i) else max_value

/-- The variable `max_value` of `generate_histogram_image` after the search loop, which starts
from `0`, and after the guard `if (max_value == 0) max_value = 1`. -/
def max_value (histogram : Table) : Int :=
  if (List.range 256).foldl (max_value_step histogram) 0 = 0 then 1
  else (List.range 256).foldl (max_value_step histogram) 0

/-- The variable `bar_height = (int)(((double)value / max_value) * (height - 1))` with
`height = 200`; `none` when the conversion to `int` is undefined. -/
def bar_height (value max_value : Int) : Option Int :=
  Double.to_int (Double.mul (Double.div (Double.of_int value) (Double.of_int max_value))
    (Double.of_int (200 - 1)))

/-- The store `image[(height - y - 1) * width + x] = 255` with `width = 256`, `height = 200`. -/
def draw_pixel (x : Nat) (image : List UChar) (y : Nat) : List UChar :=
  image.set ((200 - y - 1) * 256 + x) 255

/-- Body of the loop over the columns `x`: the bar is drawn by the inner loop
`for (y = 0; y <= bar_height; y++)`. A `bar_height` of 200 or more makes the inner loop store
before the start of `image`, which is undefined (`none`). -/
def draw_bar (histogram : Table) (max_value : Int) (s : Option (List UChar)) (x : Nat) :
    Option (List UChar) :=
  s.bind fun image =>
    (bar_height (histogram.get (Fin.ofNat x)) max_value).bind fun b =>
      if 200 ≤ b then none
      else some ((List.range (b + 1).toNat).foldl (draw_pixel x) image)

/-- Body of the loop that copies the gray sample `image[i]` to the three channels
`rgb_image[i * 3]`, `rgb_image[i * 3 + 1]`, `rgb_image[i * 3 + 2]`. -/
def replicate_channels (image : List UChar) (rgb_image : List UChar) (i : Nat) : List UChar :=
  ((rgb_image.set (i * 3) (image.getD i 0)).set (i * 3 + 1) (image.getD i 0)).set (i * 3 + 2)
    (image.getD i 0)

/-- The two rasters built by `generate_histogram_image`. -/
structure HistogramImage where
  /-- The 256x200 gray raster `image`, row by row from the top. -/
  image : List UChar
  /-- The 3-channel raster `rgb_image` handed to the JPG encoder. -/
  rgb_image : List UChar

/-- The function `generate_histogram_image`, up to the call of the encoder: `image` comes zeroed
from `calloc`, and `rgb_image` holds the argument `rgb_image` beforehand (`malloc`). -/
def generate_histogram_image (histogram : Table) (rgb_image : List UChar) :
    Option HistogramImage :=
  ((List.range 256).foldl (draw_bar histogram (max_value histogram))
      (some (List.replicate (256 * 200) 0))).map fun image =>
    { image := image,
      rgb_image := (List.range (256 * 200)).foldl (replicate_channels image) rgb_image }

/-! ### Reference quantities used in the statements -/

/-- The sum of the entries `0 .. i` of a table. -/
def cumulative_sum (histogram : Table) (i : Fin 256) : Int :=
  ∑ j ∈ Finset.univ.filter (fun j : Fin 256 => j ≤ i), histogram.get j

/-- The sequential single-pass tally of a buffer: entry `v` counts the samples equal to `v`. -/
@[irreducible]
def tally (image : List UChar) : Table :=
  Mathlib.Vector.ofFn fun v => ((image.count v : Nat) : Int)

/-- The value the specification gives for `map[i]` from `c = CDF[i]`: the exact quotient
`(c - cdf_min) / (total_samples - cdf_min)` times 255, rounded half away from zero, and not
below 0. -/
def exact_equalized (c cdf_min total_samples : Int) : Int :=
  max 0 (round_half_away
    (((c - cdf_min : Int) : ℚ) / ((total_samples - cdf_min : Int) : ℚ) * 255))

/-- A schedule is admissible for a run on `n` samples when every iteration of every
work-sharing loop is given to one of the `num_threads` threads. -/
def Schedule.valid (S : Schedule) (n : Nat) : Prop :=
  (∀ i, i < n → S.histogram_owner i < S.num_threads) ∧
  (∀ i, i < 256 → S.cdf_min_owner i < S.num_threads) ∧
  (∀ i, i < 256 → S.equalized_owner i < S.num_threads) ∧
  (∀ i, i < n → S.apply_owner i < S.num_threads)

/-- The samples a run of the pipeline reads: the first `width * height * adjusted_channels`
samples of the decoded buffer. -/
def processed_samples (image : List UChar) (width height channels : Nat) : List UChar :=
  image.take (width * height * adjusted_channels channels)

/-- The double-precision value of `round(((double)a / b) * 255.0)`, before the conversion to
`int`. -/
def rounded_scaled_quotient (a b : ℤ) : ℤ :=
  round_half_away (round_to_binary64 (round_to_binary64 ((a : ℚ) / (b : ℚ)) * 255))

/-- The colour samples of an interleaved R,G,B,A buffer: the samples R, G and B of each pixel,
in order, without the alpha samples. -/
def rgb_samples : List UChar → List UChar
  | r :: g :: b :: _ :: rest => r :: g :: b :: rgb_samples rest
  | _ => []

/-- The bar height the specification gives for a column: `round((value / max) * 199)`, with the
exact quotient and rounding half away from zero. -/
def specified_bar_height (value max : Int) : Int :=
  round_half_away ((value : ℚ) / (max : ℚ) * 199)

/-- The pixel the specification gives at row `r` (from the top) of a column whose bar has height
`bar`: the `bar` pixels counted upward from the bottom row 199 are 255, the others 0. -/
def specified_pixel (bar : Int) (r : Nat) : UChar :=
  if 199 - (r : Int) < bar then 255 else 0

/-- A CDF table used in the examples: the CDF of an image with 3 samples of level 10, 2 of
level 100 and 4 of level 200. -/
def example_cdf : Table :=
  Mathlib.Vector.ofFn fun i : Fin 256 =>
    if i.val < 10 then 0 else if i.val < 100 then 3 else if i.val < 200 then 5 else 9

theorem wrap32_of_range {x : Int} (h1 : -2147483648 ≤ x) (h2 : x ≤ 2147483647) :
    wrap32 x = x := by
  unfold wrap32
  omega

theorem total_pixels_eq (w h c : Nat) (hmax : w * h * c ≤ 2147483647) :
    total_pixels w h c = ((w * h * c : Nat) : Int) := by
  unfold total_pixels
  rcases Nat.eq_zero_or_pos c with hc | hc
  · subst hc
    rw [Nat.mul_zero, Nat.cast_zero, Int.mul_zero]
    rfl
  · have hwh : w * h ≤ w * h * c := Nat.le_mul_of_pos_right _ hc
    have h1 : wrap32 ((w : Int) * (h : Int)) = ((w * h : Nat) : Int) := by
      rw [← Nat.cast_mul]
      exact wrap32_of_range (by omega) (by omega)
    rw [h1, ← Nat.cast_mul]
    exact wrap32_of_range (by omega) (by omega)

theorem sample_count_eq (w h c : Nat) (hmax : w * h * c ≤ 2147483647) :
    sample_count w h c = w * h * c := by
  unfold sample_count
  rw [total_pixels_eq w h c hmax, Int.toNat_natCast]

theorem zero_table_get (v : Fin 256) : zero_table.get v = 0 := by
  unfold zero_table
  exact Mathlib.Vector.get_replicate 0 v

theorem thread_iterations_length_le (owner : Nat → Nat) (n t : Nat) :
    (thread_iterations owner n t).length ≤ n := by
  unfold thread_iterations
  exact (List.length_filter_le _ _).trans (by simp)

theorem tally_sample_get (image : List UChar) (h0 : Table) (i : Nat) (v : Fin 256) :
    (tally_sample image h0 i).get v
      = if image.getD i 0 = v then wrap32 (h0.get v + 1) else h0.get v := by
  unfold tally_sample
  rw [Mathlib.Vector.get_set_eq_if]
  split_ifs with h
  · rw [h]
  · rfl

theorem foldl_tally_get (image : List UChar) (L : List Nat) (v : Fin 256) :
    ∀ h0 : Table, 0 ≤ h0.get v → h0.get v + L.length ≤ 2147483647 →
      (L.foldl (tally_sample image) h0).get v
        = h0.get v + L.countP (fun i => decide (image.getD i 0 = v)) := by
  induction L with
  | nil => intro h0 _ _; simp
  | cons i L ih =>
    intro h0 hlo hhi
    simp only [List.length_cons, Nat.cast_add, Nat.cast_one] at hhi
    rw [List.foldl_cons, List.countP_cons]
    by_cases hv : image.getD i 0 = v
    · have hstep : (tally_sample image h0 i).get v = h0.get v + 1 := by
        rw [tally_sample_get, if_pos hv, wrap32_of_range] <;> omega
      rw [ih _ (by omega) (by omega), hstep, if_pos (decide_eq_true hv)]
      push_cast
      ring
    · have hstep : (tally_sample image h0 i).get v = h0.get v := by
        rw [tally_sample_get, if_neg hv]
      have hd : ¬ (decide (image.getD i 0 = v) = true) := by
        intro h
        exact hv (of_decide_eq_true h)
      rw [ih _ (by omega) (by omega), hstep, if_neg hd]
      rfl

theorem foldl_set_get (f : Fin 256 → Int → Int) (L : List (Fin 256)) (j : Fin 256) :
    L.Nodup → ∀ h0 : Table,
      (L.foldl (fun h k => h.set k (f k (h.get k))) h0).get j
        = if j ∈ L then f j (h0.get j) else h0.get j := by
  induction L with
  | nil => intro _ h0; simp
  | cons a L ih =>
    intro hnd h0
    rw [List.nodup_cons] at hnd
    rw [List.foldl_cons, ih hnd.2]
    by_cases hja : j = a
    · subst hja
      simp [hnd.1, Mathlib.Vector.get_set_same]
    · have hne : a ≠ j := fun h => hja h.symm
      simp [hja, Mathlib.Vector.get_set_of_ne hne]

theorem merge_local_get (h l : Table) (j : Fin 256) :
    (merge_local h l).get j = wrap32 (h.get j + l.get j) := by
  unfold merge_local
  rw [foldl_set_get (fun k x => wrap32 (x + l.get k)) _ j (List.nodup_finRange 256)]
  simp

/-! ## `calculate_histogram` -/

theorem local_histogram_get (owner : Nat → Nat) (image : List UChar) (n t : Nat)
    (v : Fin 256) (hn : n ≤ 2147483647) :
    (local_histogram owner image n t).get v
      = (((List.range n).countP
          (fun i => decide (image.getD i 0 = v) && decide (owner i = t)) : Nat) : Int) := by
  unfold local_histogram
  have hlen := thread_iterations_length_le owner n t
  rw [foldl_tally_get image _ v zero_table (by rw [zero_table_get])
    (by rw [zero_table_get]; omega), zero_table_get, zero_add]
  unfold thread_iterations
  rw [List.countP_filter]

theorem countP_owner_succ (owner : Nat → Nat) (p : Nat → Bool) (k : Nat) (L : List Nat) :
    L.countP (fun i => p i && decide (owner i < k + 1))
      = L.countP (fun i => p i && decide (owner i < k))
        + L.countP (fun i => p i && decide (owner i = k)) := by
  induction L with
  | nil => rfl
  | cons a L ih =>
    simp only [List.countP_cons, ih]
    rcases Nat.lt_trichotomy (owner a) k with h | h | h
    · have h1 : owner a < k + 1 := by omega
      have h2 : owner a ≠ k := by omega
      cases p a <;> simp [h, h1, h2]
      omega
    · have h1 : owner a < k + 1 := by omega
      have h2 : ¬ owner a < k := by omega
      cases p a <;> simp [h, h1, h2]
      omega
    · have h1 : ¬ owner a < k + 1 := by omega
      have h2 : ¬ owner a < k := by omega
      have h3 : owner a ≠ k := by omega
      cases p a <;> simp [h1, h2, h3]

theorem foldl_merge_get (owner : Nat → Nat) (image : List UChar) (n : Nat) (v : Fin 256)
    (hn : n ≤ 2147483647) (k : Nat) :
    ((List.range k).foldl
        (fun h t => merge_local h (local_histogram owner image n t)) zero_table).get v
      = (((List.range n).countP
          (fun i => decide (image.getD i 0 = v) && decide (owner i < k)) : Nat) : Int) := by
  induction k with
  | zero =>
    simp only [List.range_zero, List.foldl_nil, zero_table_get, Nat.not_lt_zero, decide_False,
      Bool.and_false]
    rw [List.countP_false]
    rfl
  | succ k ih =>
    rw [List.range_succ, List.foldl_append, List.foldl_cons, List.foldl_nil, merge_local_get,
      ih, local_histogram_get owner image n k v hn, countP_owner_succ]
    have hb : (List.range n).countP
        (fun i => decide (image.getD i 0 = v) && decide (owner i < k + 1)) ≤ n := by
      have := List.countP_le_length
        (fun i => decide (image.getD i 0 = v) && decide (owner i < k + 1)) (l := List.range n)
      simpa using this
    rw [countP_owner_succ] at hb
    rw [wrap32_of_range (by omega) (by omega)]
    push_cast
    rfl

theorem countP_range_getD (image : List UChar) (v : Fin 256) (n : Nat)
    (hn : n ≤ image.length) :
    (List.range n).countP (fun i => decide (image.getD i 0 = v)) = (image.take n).count v := by
  induction n with
  | zero => simp
  | succ n ih =>
    have hlt : n < image.length := hn
    rw [List.range_succ, List.countP_append, ih (by omega), List.take_succ, List.count_append,
      List.countP_singleton, List.getD_eq_getElem?_getD, List.getElem?_eq_getElem hlt]
    simp [List.count_singleton]

theorem sum_count_eq_length (l : List UChar) :
    ∑ v : Fin 256, ((l.count v : Nat) : Int) = ((l.length : Nat) : Int) := by
  induction l with
  | nil => simp
  | cons b l ih =>
    have hone : (∑ x : Fin 256, ((if (b == x) = true then 1 else 0 : Nat) : Int)) = 1 := by
      simp only [beq_iff_eq, Nat.cast_ite, Nat.cast_one, Nat.cast_zero]
      rw [Finset.sum_ite_eq, if_pos (Finset.mem_univ b)]
    simp only [List.count_cons, List.length_cons, Nat.cast_add, Finset.sum_add_distrib, ih, hone,
      Nat.cast_one]

/-- The table left by `calculate_histogram`, started on zeros, when the buffer holds at least
the `n = width * height * channels` samples that are read: entry `v` is the number of positions
`i < n` holding `v`. -/
theorem calculate_histogram_get (num_threads : Nat) (owner : Nat → Nat) (image : List UChar)
    (w h c : Nat) (v : Fin 256) (hmax : w * h * c ≤ 2147483647)
    (hlen : w * h * c ≤ image.length) (hown : ∀ i, i < w * h * c → owner i < num_threads) :
    (calculate_histogram num_threads owner image w h c zero_table).get v
      = (((image.take (w * h * c)).count v : Nat) : Int) := by
  unfold calculate_histogram
  rw [sample_count_eq w h c hmax, foldl_merge_get owner image _ v hmax,
    ← countP_range_getD image v _ hlen]
  congr 1
  apply List.countP_congr
  intro i hi
  rw [List.mem_range] at hi
  simp [hown i hi]

/-- C1: for every pixel buffer of `n = width * height * channels` samples (an `int`, so at most
`INT_MAX`), every number of threads and every assignment of the loop iterations to the threads,
`calculate_histogram` started on an all-zero table leaves in `histogram[v]` the number of
positions of the buffer that hold `v`; this is also what the single-threaded run leaves there:
the private tables add up to the sequential tally. -/
theorem calculate_histogram_exact_tally (num_threads : Nat) (owner : Nat → Nat)
    (image : List UChar) (w h c : Nat) (v : Fin 256) (hmax : w * h * c ≤ 2147483647)
    (hlen : image.length = w * h * c) (hown : ∀ i, i < w * h * c → owner i < num_threads) :
    (calculate_histogram num_threads owner image w h c zero_table).get v
        = ((image.count v : Nat) : Int) ∧
      (calculate_histogram num_threads owner image w h c zero_table).get v
        = (calculate_histogram 1 (fun _ => 0) image w h c zero_table).get v := by
  rw [calculate_histogram_get num_threads owner image w h c v hmax (by omega) hown,
    calculate_histogram_get 1 (fun _ => 0) image w h c v hmax (by omega)
      (fun _ _ => Nat.zero_lt_one), ← hlen, List.take_length]
  exact ⟨rfl, rfl⟩

theorem calculate_histogram_exact_tally_witness :
    1 * 1 * 1 ≤ 2147483647 ∧ ([7] : List UChar).length = 1 * 1 * 1 ∧
      (∀ i, i < 1 * 1 * 1 → (fun _ : Nat => 2) i < 4) ∧
      (calculate_histogram 4 (fun _ => 2) [7] 1 1 1 zero_table).get 7
        = ((([7] : List UChar).count 7 : Nat) : Int) :=
  ⟨by decide, rfl, fun _ _ => (by decide : (2 : Nat) < 4),
    (calculate_histogram_exact_tally 4 (fun _ => 2) [7] 1 1 1 7 (by decide) rfl
      (fun _ _ => (by decide : (2 : Nat) < 4))).1⟩

/-- C3: for every image of `width * height * channels` samples, the 256 entries of the table
produced by `calculate_histogram` from an all-zero table add up to the number of samples. -/
theorem calculate_histogram_sum (num_threads : Nat) (owner : Nat → Nat) (image : List UChar)
    (w h c : Nat) (hmax : w * h * c ≤ 2147483647) (hlen : image.length = w * h * c)
    (hown : ∀ i, i < w * h * c → owner i < num_threads) :
    ∑ v : Fin 256, (calculate_histogram num_threads owner image w h c zero_table).get v
      = ((w * h * c : Nat) : Int) := by
  have hget : ∀ v : Fin 256,
      (calculate_histogram num_threads owner image w h c zero_table).get v
        = ((image.count v : Nat) : Int) := by
    intro v
    rw [calculate_histogram_get num_threads owner image w h c v hmax (by omega) hown, ← hlen,
      List.take_length]
  simp only [hget]
  rw [sum_count_eq_length, hlen]

theorem calculate_histogram_sum_witness :
    2 * 1 * 1 ≤ 2147483647 ∧ ([7, 9] : List UChar).length = 2 * 1 * 1 ∧
      (∀ i, i < 2 * 1 * 1 → (fun i : Nat => i % 3) i < 3) ∧
      ∑ v : Fin 256, (calculate_histogram 3 (fun i => i % 3) [7, 9] 2 1 1 zero_table).get v
        = ((2 * 1 * 1 : Nat) : Int) :=
  ⟨by decide, rfl, fun i _ => Nat.mod_lt i (by decide),
    calculate_histogram_sum 3 (fun i => i % 3) [7, 9] 2 1 1 (by decide) rfl
      (fun i _ => Nat.mod_lt i (by decide))⟩

/-! ## `calculate_cdf` -/

theorem cumulative_sum_zero (hist : Table) : cumulative_sum hist 0 = hist.get 0 := by
  unfold cumulative_sum
  have hset : Finset.univ.filter (fun j : Fin 256 => j ≤ 0) = {0} := by
    ext j
    simp only [Finset.mem_filter, Finset.mem_univ, true_and, Finset.mem_singleton, Fin.le_def,
      Fin.ext_iff]
    change j.val ≤ 0 ↔ j.val = 0
    omega
  rw [hset, Finset.sum_singleton]

theorem cumulative_sum_succ (hist : Table) (a b : Fin 256) (hab : b.val = a.val + 1) :
    cumulative_sum hist b = cumulative_sum hist a + hist.get b := by
  unfold cumulative_sum
  have hset : Finset.univ.filter (fun j : Fin 256 => j ≤ b)
      = insert b (Finset.univ.filter (fun j : Fin 256 => j ≤ a)) := by
    ext j
    simp only [Finset.mem_filter, Finset.mem_univ, true_and, Finset.mem_insert, Fin.le_def,
      Fin.ext_iff]
    omega
  have hnot : b ∉ Finset.univ.filter (fun j : Fin 256 => j ≤ a) := by
    simp only [Finset.mem_filter, Finset.mem_univ, true_and, Fin.le_def]
    omega
  rw [hset, Finset.sum_insert hnot, add_comm]

theorem cdf_step_get (m : CdfArrays) (b i : Fin 256) :
    (cdf_step m b).cdf.get i
      = if b = i then wrap32 (m.cdf.get (b - 1) + m.histogram.get b) else m.cdf.get i := by
  unfold cdf_step
  exact Mathlib.Vector.get_set_eq_if _

theorem foldl_cdf_step (L : List (Fin 256)) :
    ∀ (m : CdfArrays) (a : Fin 256),
      L.map Fin.val = List.range' (a.val + 1) L.length →
      (∀ i : Fin 256, -2147483648 ≤ cumulative_sum m.histogram i
        ∧ cumulative_sum m.histogram i ≤ 2147483647) →
      (∀ i : Fin 256, i.val ≤ a.val → m.cdf.get i = cumulative_sum m.histogram i) →
      (L.foldl cdf_step m).histogram = m.histogram ∧
        ∀ i : Fin 256, i.val ≤ a.val + L.length →
          (L.foldl cdf_step m).cdf.get i = cumulative_sum m.histogram i := by
  induction L with
  | nil =>
    intro m a _ _ hinv
    exact ⟨rfl, fun i hi => hinv i (by simpa using hi)⟩
  | cons b L ih =>
    intro m a hmap hrange hinv
    rw [List.map_cons, List.length_cons, List.range'_succ, List.cons.injEq] at hmap
    obtain ⟨hb, hmap⟩ := hmap
    have hpred : b - 1 = a := by
      apply Fin.ext
      rw [Fin.coe_sub_one]
      have hb0 : b ≠ 0 := by
        intro h0
        rw [h0] at hb
        simp at hb
      rw [if_neg hb0]
      omega
    have hhist : (cdf_step m b).histogram = m.histogram := rfl
    have hinv1 : ∀ i : Fin 256, i.val ≤ b.val →
        (cdf_step m b).cdf.get i = cumulative_sum (cdf_step m b).histogram i := by
      intro i hi
      rw [cdf_step_get, hhist]
      by_cases hbi : b = i
      · rw [if_pos hbi, hpred, hinv a (le_refl _), ← cumulative_sum_succ m.histogram a b hb,
          wrap32_of_range (hrange b).1 (hrange b).2, hbi]
      · rw [if_neg hbi]
        apply hinv
        have : b.val ≠ i.val := fun h => hbi (Fin.ext h)
        omega
    have hmap1 : L.map Fin.val = List.range' (b.val + 1) L.length := by
      rw [hmap, hb]
    obtain ⟨h1, h2⟩ := ih (cdf_step m b) b hmap1 (by rw [hhist]; exact hrange) hinv1
    rw [List.foldl_cons]
    refine ⟨h1.trans hhist, fun i hi => ?_⟩
    rw [h2 i (by rw [List.length_cons] at hi; omega), hhist]

theorem tail_finRange_val : ((List.finRange 256).tail).map Fin.val = List.range' 1 255 := by
  rw [List.finRange_succ_eq_map 255, List.tail_cons, List.map_map]
  have hfun : (Fin.val ∘ Fin.succ : Fin 255 → Nat) = (fun i => 1 + i) ∘ Fin.val := by
    funext i
    simp [Nat.add_comm]
  rw [hfun, ← List.map_map, List.map_coe_finRange, List.range'_eq_map_range]

/-- What `calculate_cdf` leaves in memory when every partial sum of the histogram is
representable as `int`: the histogram is untouched and `cdf[i]` is the sum of the histogram
entries `0 .. i`. -/
theorem calculate_cdf_spec (m : CdfArrays)
    (hrange : ∀ i : Fin 256, -2147483648 ≤ cumulative_sum m.histogram i
      ∧ cumulative_sum m.histogram i ≤ 2147483647) :
    (calculate_cdf m).histogram = m.histogram ∧
      ∀ i : Fin 256, (calculate_cdf m).cdf.get i = cumulative_sum m.histogram i := by
  unfold calculate_cdf
  have hlen : ((List.finRange 256).tail).length = 255 := by simp
  have h := foldl_cdf_step (List.finRange 256).tail
    { m with cdf := m.cdf.set 0 (m.histogram.get 0) } 0
    (by rw [hlen]; exact tail_finRange_val) hrange
    (by
      intro i hi
      have hi0 : i = 0 := Fin.ext (by simpa using hi)
      rw [hi0, cumulative_sum_zero]
      exact Mathlib.Vector.get_set_same _ _ _)
  refine ⟨h.1, fun i => h.2 i ?_⟩
  rw [hlen]
  have := i.isLt
  simp only [Fin.val_zero]
  omega

theorem calculate_cdf_fields (hist cdf0 : Table)
    (hrange : ∀ i : Fin 256, -2147483648 ≤ cumulative_sum hist i
      ∧ cumulative_sum hist i ≤ 2147483647) :
    (calculate_cdf { histogram := hist, cdf := cdf0 }).histogram = hist ∧
      ∀ i : Fin 256, (calculate_cdf { histogram := hist, cdf := cdf0 }).cdf.get i
        = cumulative_sum hist i :=
  calculate_cdf_spec { histogram := hist, cdf := cdf0 } hrange

/-- C4: for every 256-entry histogram whose partial sums are representable as `int`,
`calculate_cdf` writes `cdf[0] = histogram[0]` and `cdf[i] = cdf[i-1] + histogram[i]` for
`i = 1 .. 255`; equivalently `cdf[i]` is the sum of `histogram[0 .. i]`; and the histogram is
left unchanged. -/
theorem calculate_cdf_recurrence (m : CdfArrays)
    (hrange : ∀ i : Fin 256, -2147483648 ≤ cumulative_sum m.histogram i
      ∧ cumulative_sum m.histogram i ≤ 2147483647) :
    (calculate_cdf m).cdf.get 0 = m.histogram.get 0 ∧
      (∀ i : Fin 256, i ≠ 0 →
        (calculate_cdf m).cdf.get i = (calculate_cdf m).cdf.get (i - 1) + m.histogram.get i) ∧
      (∀ i : Fin 256, (calculate_cdf m).cdf.get i
        = ∑ j ∈ Finset.univ.filter (fun j : Fin 256 => j ≤ i), m.histogram.get j) ∧
      (calculate_cdf m).histogram = m.histogram := by
  obtain ⟨hh, hc⟩ := calculate_cdf_spec m hrange
  refine ⟨?_, ?_, ?_, hh⟩
  · rw [hc, cumulative_sum_zero]
  · intro i hi
    rw [hc, hc]
    apply cumulative_sum_succ
    rw [Fin.coe_sub_one, if_neg hi]
    have : i.val ≠ 0 := fun h => hi (Fin.ext h)
    omega
  · intro i
    rw [hc]
    rfl

/-! ## The histogram and the CDF of an image -/

theorem tally_get (image : List UChar) (v : Fin 256) :
    (tally image).get v = ((image.count v : Nat) : Int) := by
  unfold tally
  exact Mathlib.Vector.get_ofFn _ v

theorem calculate_histogram_eq_tally (num_threads : Nat) (owner : Nat → Nat)
    (image : List UChar) (w h c : Nat) (hmax : w * h * c ≤ 2147483647)
    (hlen : image.length = w * h * c) (hown : ∀ i, i < w * h * c → owner i < num_threads) :
    calculate_histogram num_threads owner image w h c zero_table = tally image := by
  apply Mathlib.Vector.ext
  intro v
  rw [calculate_histogram_get num_threads owner image w h c v hmax (by omega) hown, ← hlen,
    List.take_length, tally_get]

theorem cumulative_sum_last (hist : Table) :
    cumulative_sum hist 255 = ∑ v : Fin 256, hist.get v := by
  unfold cumulative_sum
  have hset : Finset.univ.filter (fun j : Fin 256 => j ≤ 255) = Finset.univ := by
    ext j
    simp only [Finset.mem_filter, Finset.mem_univ, true_and, Fin.le_def, iff_true]
    have := j.isLt
    change j.val ≤ 255
    omega
  rw [hset]

theorem cumulative_sum_mono (hist : Table) (hnn : ∀ v, 0 ≤ hist.get v) (i j : Fin 256)
    (hij : i ≤ j) : cumulative_sum hist i ≤ cumulative_sum hist j := by
  unfold cumulative_sum
  apply Finset.sum_le_sum_of_subset_of_nonneg
  · intro k hk
    simp only [Finset.mem_filter, Finset.mem_univ, true_and] at hk ⊢
    exact hk.trans hij
  · intro k _ _
    exact hnn k

theorem cumulative_sum_nonneg (hist : Table) (hnn : ∀ v, 0 ≤ hist.get v) (i : Fin 256) :
    0 ≤ cumulative_sum hist i := by
  unfold cumulative_sum
  exact Finset.sum_nonneg fun k _ => hnn k

theorem cumulative_sum_le_last (hist : Table) (hnn : ∀ v, 0 ≤ hist.get v) (i : Fin 256) :
    cumulative_sum hist i ≤ cumulative_sum hist 255 := by
  apply cumulative_sum_mono hist hnn
  have := i.isLt
  rw [Fin.le_def]
  change i.val ≤ 255
  omega

theorem tally_nonneg (image : List UChar) (v : Fin 256) : 0 ≤ (tally image).get v := by
  rw [tally_get]
  exact Int.natCast_nonneg _

theorem cumulative_sum_tally_last (image : List UChar) :
    cumulative_sum (tally image) 255 = ((image.length : Nat) : Int) := by
  rw [cumulative_sum_last]
  simp only [tally_get]
  exact sum_count_eq_length image

theorem cumulative_sum_tally_range (image : List UChar) (hmax : image.length ≤ 2147483647)
    (i : Fin 256) :
    -2147483648 ≤ cumulative_sum (tally image) i
      ∧ cumulative_sum (tally image) i ≤ 2147483647 := by
  have h0 := cumulative_sum_nonneg (tally image) (tally_nonneg image) i
  have h1 := cumulative_sum_le_last (tally image) (tally_nonneg image) i
  rw [cumulative_sum_tally_last] at h1
  constructor <;> omega

/-- The CDF that `calculate_cdf` computes from the tally of an image of at most `INT_MAX`
samples. -/
theorem calculate_cdf_tally (image : List UChar) (cdf0 : Table)
    (hmax : image.length ≤ 2147483647) (i : Fin 256) :
    (calculate_cdf { histogram := tally image, cdf := cdf0 }).cdf.get i
      = cumulative_sum (tally image) i :=
  (calculate_cdf_fields (tally image) cdf0 (cumulative_sum_tally_range image hmax)).2 i

theorem calculate_cdf_recurrence_witness :
    (∀ i : Fin 256, -2147483648 ≤ cumulative_sum (tally [3, 3, 200]) i
        ∧ cumulative_sum (tally [3, 3, 200]) i ≤ 2147483647) ∧
      (calculate_cdf { histogram := tally [3, 3, 200], cdf := zero_table }).histogram
        = tally [3, 3, 200] :=
  ⟨cumulative_sum_tally_range [3, 3, 200] (by decide),
    (calculate_cdf_recurrence { histogram := tally [3, 3, 200], cdf := zero_table }
      (cumulative_sum_tally_range [3, 3, 200] (by decide))).2.2.2⟩

/-- C5: for every image, the CDF computed by `calculate_cdf` from the image's histogram has
only non-negative entries, is non-decreasing, and its last entry equals the sum of the
histogram, which is the number of samples. -/
theorem calculate_cdf_monotone_total (num_threads : Nat) (owner : Nat → Nat)
    (image : List UChar) (w h c : Nat) (cdf0 : Table) (hmax : w * h * c ≤ 2147483647)
    (hlen : image.length = w * h * c) (hown : ∀ i, i < w * h * c → owner i < num_threads) :
    (∀ i : Fin 256, 0 ≤ (calculate_cdf
        { histogram := calculate_histogram num_threads owner image w h c zero_table,
          cdf := cdf0 }).cdf.get i) ∧
      (∀ i j : Fin 256, i ≤ j →
        (calculate_cdf
          { histogram := calculate_histogram num_threads owner image w h c zero_table,
            cdf := cdf0 }).cdf.get i
        ≤ (calculate_cdf
          { histogram := calculate_histogram num_threads owner image w h c zero_table,
            cdf := cdf0 }).cdf.get j) ∧
      (calculate_cdf
          { histogram := calculate_histogram num_threads owner image w h c zero_table,
            cdf := cdf0 }).cdf.get 255
        = ∑ v : Fin 256, (calculate_histogram num_threads owner image w h c zero_table).get v ∧
      (calculate_cdf
          { histogram := calculate_histogram num_threads owner image w h c zero_table,
            cdf := cdf0 }).cdf.get 255
        = ((w * h * c : Nat) : Int) := by
  rw [calculate_histogram_eq_tally num_threads owner image w h c hmax hlen hown]
  have hm : image.length ≤ 2147483647 := by omega
  refine ⟨fun i => ?_, fun i j hij => ?_, ?_, ?_⟩
  · rw [calculate_cdf_tally image cdf0 hm]
    exact cumulative_sum_nonneg _ (tally_nonneg image) i
  · rw [calculate_cdf_tally image cdf0 hm, calculate_cdf_tally image cdf0 hm]
    exact cumulative_sum_mono _ (tally_nonneg image) i j hij
  · rw [calculate_cdf_tally image cdf0 hm, cumulative_sum_last]
  · rw [calculate_cdf_tally image cdf0 hm, cumulative_sum_tally_last, hlen]

theorem calculate_cdf_monotone_total_witness :
    3 * 1 * 1 ≤ 2147483647 ∧ ([3, 3, 200] : List UChar).length = 3 * 1 * 1 ∧
      (∀ i, i < 3 * 1 * 1 → (fun i : Nat => i % 2) i < 2) ∧
      (calculate_cdf
          { histogram := calculate_histogram 2 (fun i => i % 2) [3, 3, 200] 3 1 1 zero_table,
            cdf := zero_table }).cdf.get 255
        = ((3 * 1 * 1 : Nat) : Int) :=
  ⟨by decide, rfl, fun i _ => Nat.mod_lt i (by decide),
    (calculate_cdf_monotone_total 2 (fun i => i % 2) [3, 3, 200] 3 1 1 zero_table (by decide) rfl
      (fun i _ => Nat.mod_lt i (by decide))).2.2.2⟩

/-! ## Work-sharing loops -/

theorem thread_schedule_perm (owner : Nat → Nat) (n k : Nat) :
    ((List.range n).filter (fun i => decide (owner i < k)) ++ thread_iterations owner n k).Perm
      ((List.range n).filter (fun i => decide (owner i < k + 1))) := by
  have hperm := List.filter_append_perm (fun i => decide (owner i < k))
    ((List.range n).filter (fun i => decide (owner i < k + 1)))
  have h1 : List.filter (fun i => decide (owner i < k))
      ((List.range n).filter (fun i => decide (owner i < k + 1)))
      = (List.range n).filter (fun i => decide (owner i < k)) := by
    rw [List.filter_filter]
    apply List.filter_congr
    intro i _
    by_cases h : owner i < k
    · have h' : owner i < k + 1 := by omega
      simp [h, h']
    · simp [h]
  have h2 : List.filter (fun i => !decide (owner i < k))
      ((List.range n).filter (fun i => decide (owner i < k + 1)))
      = thread_iterations owner n k := by
    unfold thread_iterations
    rw [List.filter_filter]
    apply List.filter_congr
    intro i _
    rcases Nat.lt_trichotomy (owner i) k with h | h | h
    · have h' : owner i ≠ k := by omega
      simp [h, h']
    · simp [h]
    · have h' : owner i ≠ k := by omega
      have h'' : ¬ owner i < k := by omega
      have h3 : ¬ owner i < k + 1 := by omega
      simp [h', h'', h3]
  rw [h1, h2] at hperm
  exact hperm

theorem omp_for_first_threads {σ : Type} (owner : Nat → Nat) (n : Nat) (body : σ → Nat → σ)
    (hcomm : ∀ s i j, body (body s i) j = body (body s j) i) (s : σ) (k : Nat) :
    omp_for k owner n body s
      = ((List.range n).filter (fun i => decide (owner i < k))).foldl body s := by
  haveI : RightCommutative body := ⟨hcomm⟩
  unfold omp_for
  induction k with
  | zero => simp
  | succ k ih =>
    rw [List.range_succ, List.foldl_append, List.foldl_cons, List.foldl_nil, ih,
      ← List.foldl_append]
    exact List.Perm.foldl_eq (thread_schedule_perm owner n k) s

/-- A work-sharing loop whose iterations commute computes what the sequential loop computes,
whatever the number of threads and the assignment of iterations to threads. -/
theorem omp_for_eq_foldl {σ : Type} (num_threads : Nat) (owner : Nat → Nat) (n : Nat)
    (body : σ → Nat → σ) (hcomm : ∀ s i j, body (body s i) j = body (body s j) i)
    (hown : ∀ i, i < n → owner i < num_threads) (s : σ) :
    omp_for num_threads owner n body s = (List.range n).foldl body s := by
  rw [omp_for_first_threads owner n body hcomm s num_threads]
  congr 1
  rw [List.filter_eq_self]
  intro i hi
  rw [List.mem_range] at hi
  simp [hown i hi]

/-! ## `calculate_cdf_min` -/

theorem cdf_min_step_comm (cdf : Table) (m : Int) (i j : Nat) :
    cdf_min_step cdf (cdf_min_step cdf m i) j = cdf_min_step cdf (cdf_min_step cdf m j) i := by
  unfold cdf_min_step
  split_ifs <;> omega

theorem cdf_min_step_min (cdf : Table) (a b : Int) (i : Nat) :
    cdf_min_step cdf (min a b) i = min a (cdf_min_step cdf b i) := by
  unfold cdf_min_step
  split_ifs <;> omega

theorem foldl_cdf_min_step_min (cdf : Table) (L : List Nat) :
    ∀ a b : Int, L.foldl (cdf_min_step cdf) (min a b) = min a (L.foldl (cdf_min_step cdf) b) := by
  induction L with
  | nil => intro a b; rfl
  | cons i L ih =>
    intro a b
    rw [List.foldl_cons, List.foldl_cons, cdf_min_step_min, ih]

theorem cdf_min_reduction_first_threads (owner : Nat → Nat) (cdf : Table) (k : Nat) :
    (List.range k).foldl (fun m t => min m (private_cdf_min owner cdf t)) INT_MAX
        = omp_for k owner 256 (cdf_min_step cdf) INT_MAX
      ∧ omp_for k owner 256 (cdf_min_step cdf) INT_MAX ≤ INT_MAX := by
  unfold omp_for
  induction k with
  | zero => exact ⟨rfl, le_refl _⟩
  | succ k ih =>
    rw [List.range_succ, List.foldl_append, List.foldl_append, List.foldl_cons, List.foldl_nil,
      List.foldl_cons, List.foldl_nil, ih.1]
    have hkey : min ((List.range k).foldl
          (fun s t => (thread_iterations owner 256 t).foldl (cdf_min_step cdf) s) INT_MAX)
        (private_cdf_min owner cdf k)
        = (thread_iterations owner 256 k).foldl (cdf_min_step cdf)
          ((List.range k).foldl
            (fun s t => (thread_iterations owner 256 t).foldl (cdf_min_step cdf) s) INT_MAX) := by
      unfold private_cdf_min
      rw [← foldl_cdf_min_step_min, min_eq_left ih.2]
    refine ⟨hkey, ?_⟩
    rw [← hkey]
    exact (min_le_left _ _).trans ih.2

/-- The reduction of `calculate_cdf_min` computes what the sequential loop computes, whatever
the number of threads and the assignment of iterations to threads. -/
theorem calculate_cdf_min_eq_foldl (num_threads : Nat) (owner : Nat → Nat) (cdf : Table)
    (hown : ∀ i, i < 256 → owner i < num_threads) :
    calculate_cdf_min num_threads owner cdf
      = (List.range 256).foldl (cdf_min_step cdf) INT_MAX := by
  unfold calculate_cdf_min
  rw [(cdf_min_reduction_first_threads owner cdf num_threads).1]
  exact omp_for_eq_foldl num_threads owner 256 _ (cdf_min_step_comm cdf) hown INT_MAX

theorem foldl_cdf_min_step_spec (cdf : Table) (L : List Nat) :
    ∀ a : Int,
      L.foldl (cdf_min_step cdf) a ≤ a ∧
      (L.foldl (cdf_min_step cdf) a = a ∨
        ∃ i ∈ L, cdf.get (Fin.ofNat i) = L.foldl (cdf_min_step cdf) a
          ∧ 0 < L.foldl (cdf_min_step cdf) a) ∧
      ∀ i ∈ L, 0 < cdf.get (Fin.ofNat i) → L.foldl (cdf_min_step cdf) a ≤ cdf.get (Fin.ofNat i) := by
  induction L with
  | nil =>
    intro a
    exact ⟨le_refl _, Or.inl rfl, fun i hi => absurd hi (List.not_mem_nil i)⟩
  | cons b L ih =>
    intro a
    rw [List.foldl_cons]
    obtain ⟨h1, h2, h3⟩ := ih (cdf_min_step cdf a b)
    have hstep : cdf_min_step cdf a b ≤ a := by
      unfold cdf_min_step
      split_ifs <;> omega
    have hstep' : cdf_min_step cdf a b = a ∨
        (cdf.get (Fin.ofNat b) = cdf_min_step cdf a b ∧ 0 < cdf_min_step cdf a b) := by
      unfold cdf_min_step
      split_ifs with h
      · exact Or.inr ⟨rfl, h.1⟩
      · exact Or.inl rfl
    have hstep'' : 0 < cdf.get (Fin.ofNat b) → cdf_min_step cdf a b ≤ cdf.get (Fin.ofNat b) := by
      unfold cdf_min_step
      split_ifs <;> omega
    refine ⟨h1.trans hstep, ?_, ?_⟩
    · rcases h2 with h2 | ⟨i, hi, h2⟩
      · rcases hstep' with h | h
        · exact Or.inl (h2.trans h)
        · refine Or.inr ⟨b, List.mem_cons_self _ _, ?_⟩
          rw [h2]
          exact h
      · exact Or.inr ⟨i, List.mem_cons_of_mem _ hi, h2⟩
    · intro i hi hpos
      rcases List.mem_cons.mp hi with h | h
      · rw [h]
        exact h1.trans (hstep'' (h ▸ hpos))
      · exact h3 i h hpos

/-- The value returned by `calculate_cdf_min`: it is at most `INT_MAX`; it is `INT_MAX` or a
strictly positive entry of the table; and it is at most every strictly positive entry. -/
theorem calculate_cdf_min_spec (num_threads : Nat) (owner : Nat → Nat) (cdf : Table)
    (hown : ∀ i, i < 256 → owner i < num_threads) :
    calculate_cdf_min num_threads owner cdf ≤ INT_MAX ∧
      (calculate_cdf_min num_threads owner cdf = INT_MAX ∨
        ∃ i : Fin 256, cdf.get i = calculate_cdf_min num_threads owner cdf
          ∧ 0 < calculate_cdf_min num_threads owner cdf) ∧
      ∀ i : Fin 256, 0 < cdf.get i → calculate_cdf_min num_threads owner cdf ≤ cdf.get i := by
  rw [calculate_cdf_min_eq_foldl num_threads owner cdf hown]
  obtain ⟨h1, h2, h3⟩ := foldl_cdf_min_step_spec cdf (List.range 256) INT_MAX
  refine ⟨h1, ?_, ?_⟩
  · rcases h2 with h2 | ⟨i, _, h2⟩
    · exact Or.inl h2
    · exact Or.inr ⟨Fin.ofNat i, h2⟩
  · intro i hpos
    have hi : (Fin.ofNat i.val : Fin 256) = i := by
      apply Fin.ext
      change i.val % 256 = i.val
      exact Nat.mod_eq_of_lt i.isLt
    have := h3 i.val (List.mem_range.mpr i.isLt)
    rw [hi] at this
    exact this hpos

/-- C6, as amended: for every table of `int` entries, every number of threads and every split
of the 256 iterations among them, `calculate_cdf_min` returns the least strictly positive entry
when there is one (the result is an entry, is positive and is at most every positive entry); it
returns `INT_MAX` exactly when no entry lies strictly between `0` and `INT_MAX`; and any two
splits of the reduction give the same value. -/
theorem calculate_cdf_min_least_positive (num_threads : Nat) (owner : Nat → Nat) (cdf : Table)
    (hown : ∀ i, i < 256 → owner i < num_threads)
    (hint : ∀ i : Fin 256, cdf.get i ≤ 2147483647) :
    ((∃ i : Fin 256, 0 < cdf.get i) →
        (∃ i : Fin 256, cdf.get i = calculate_cdf_min num_threads owner cdf) ∧
        0 < calculate_cdf_min num_threads owner cdf ∧
        ∀ i : Fin 256, 0 < cdf.get i → calculate_cdf_min num_threads owner cdf ≤ cdf.get i) ∧
      (calculate_cdf_min num_threads owner cdf = INT_MAX ↔
        ¬ ∃ i : Fin 256, 0 < cdf.get i ∧ cdf.get i < INT_MAX) ∧
      (∀ (num_threads' : Nat) (owner' : Nat → Nat), (∀ i, i < 256 → owner' i < num_threads') →
        calculate_cdf_min num_threads' owner' cdf = calculate_cdf_min num_threads owner cdf) := by
  obtain ⟨h1, h2, h3⟩ := calculate_cdf_min_spec num_threads owner cdf hown
  have hmax : INT_MAX = 2147483647 := rfl
  refine ⟨?_, ?_, ?_⟩
  · rintro ⟨i, hi⟩
    refine ⟨?_, ?_, h3⟩
    · rcases h2 with h2 | ⟨j, hj, _⟩
      · refine ⟨i, ?_⟩
        have := h3 i hi
        have := hint i
        omega
      · exact ⟨j, hj⟩
    · rcases h2 with h2 | ⟨_, _, hj⟩
      · omega
      · exact hj
  · constructor
    · rintro hr ⟨i, hi, hlt⟩
      have := h3 i hi
      omega
    · intro hno
      rcases h2 with h2 | ⟨j, hj, hpos⟩
      · exact h2
      · by_contra hne
        apply hno
        refine ⟨j, ?_, ?_⟩
        · rw [hj]
          exact hpos
        · rw [hj]
          omega
  · intro T' owner' hown'
    rw [calculate_cdf_min_eq_foldl T' owner' cdf hown',
      calculate_cdf_min_eq_foldl num_threads owner cdf hown]

theorem calculate_cdf_min_least_positive_witness :
    (∀ i, i < 256 → (fun i : Nat => i % 2) i < 2) ∧
      (∀ i : Fin 256, zero_table.get i ≤ 2147483647) ∧
      calculate_cdf_min 2 (fun i => i % 2) zero_table = INT_MAX :=
  ⟨fun i _ => Nat.mod_lt i (by decide),
    fun i => by rw [zero_table_get]; decide,
    (calculate_cdf_min_least_positive 2 (fun i => i % 2) zero_table
      (fun i _ => Nat.mod_lt i (by decide))
      (fun i => by rw [zero_table_get]; decide)).2.1.mpr
      (by
        rintro ⟨i, hi, _⟩
        rw [zero_table_get] at hi
        exact absurd hi (by decide))⟩

/-- C6, counterexample: on the table whose 256 entries all equal `INT_MAX`, the sequential run
of `calculate_cdf_min` returns `INT_MAX` although every entry is strictly positive, so
"returns `INT_MAX` exactly when no entry is strictly positive" fails. -/
theorem calculate_cdf_min_sentinel_is_an_entry :
    ¬ (calculate_cdf_min 1 (fun _ => 0) (Mathlib.Vector.replicate 256 2147483647) = INT_MAX ↔
        ¬ ∃ i : Fin 256, 0 < (Mathlib.Vector.replicate 256 (2147483647 : Int)).get i) := by
  intro hiff
  have hown : ∀ i, i < 256 → (fun _ : Nat => 0) i < 1 := fun _ _ => Nat.zero_lt_one
  obtain ⟨_, h2, _⟩ := calculate_cdf_min_spec 1 (fun _ => 0)
    (Mathlib.Vector.replicate 256 2147483647) hown
  have hr : calculate_cdf_min 1 (fun _ => 0) (Mathlib.Vector.replicate 256 2147483647)
      = INT_MAX := by
    rcases h2 with h2 | ⟨i, hi, _⟩
    · exact h2
    · rw [← hi, Mathlib.Vector.get_replicate]
      rfl
  apply hiff.mp hr
  refine ⟨0, ?_⟩
  rw [Mathlib.Vector.get_replicate]
  decide

/-! ## `apply_equalization` -/

theorem apply_step_comm (m : PixelArrays) (i j : Nat) :
    apply_step (apply_step m i) j = apply_step (apply_step m j) i := by
  by_cases h : i = j
  · rw [h]
  · unfold apply_step
    dsimp only
    rw [List.set_comm _ _ _ h]

theorem foldl_apply_step (L : List Nat) :
    ∀ m : PixelArrays,
      (L.foldl apply_step m).input_image = m.input_image ∧
      (L.foldl apply_step m).equalized_cdf = m.equalized_cdf ∧
      (L.foldl apply_step m).output_image.length = m.output_image.length ∧
      ∀ j : Nat, (L.foldl apply_step m).output_image[j]?
        = if j ∈ L ∧ j < m.output_image.length
          then some (to_uchar (m.equalized_cdf.get (m.input_image.getD j 0)))
          else m.output_image[j]? := by
  induction L with
  | nil =>
    intro m
    exact ⟨rfl, rfl, rfl, fun j => by simp⟩
  | cons a L ih =>
    intro m
    obtain ⟨h1, h2, h3, h4⟩ := ih (apply_step m a)
    have e1 : (apply_step m a).input_image = m.input_image := rfl
    have e2 : (apply_step m a).equalized_cdf = m.equalized_cdf := rfl
    have e3 : (apply_step m a).output_image
        = m.output_image.set a (to_uchar (m.equalized_cdf.get (m.input_image.getD a 0))) := rfl
    have e4 : (apply_step m a).output_image.length = m.output_image.length := by
      rw [e3, List.length_set]
    rw [List.foldl_cons]
    refine ⟨h1.trans e1, h2.trans e2, h3.trans e4, fun j => ?_⟩
    rw [h4 j, e1, e2, e4, e3, List.getElem?_set]
    by_cases hjL : j ∈ L
    · by_cases hlt : j < m.output_image.length
      · rw [if_pos ⟨hjL, hlt⟩, if_pos ⟨List.mem_cons_of_mem _ hjL, hlt⟩]
      · have hn1 : ¬ (j ∈ L ∧ j < m.output_image.length) := fun h => hlt h.2
        have hn2 : ¬ (j ∈ a :: L ∧ j < m.output_image.length) := fun h => hlt h.2
        rw [if_neg hn1, if_neg hn2]
        by_cases haj : a = j
        · rw [if_pos haj, if_neg (haj ▸ hlt)]
          exact (List.getElem?_eq_none (by omega)).symm
        · rw [if_neg haj]
    · have hn1 : ¬ (j ∈ L ∧ j < m.output_image.length) := fun h => hjL h.1
      rw [if_neg hn1]
      by_cases haj : a = j
      · rw [if_pos haj]
        by_cases hlt : j < m.output_image.length
        · rw [if_pos (haj ▸ hlt), if_pos ⟨haj ▸ List.mem_cons_self _ _, hlt⟩, haj]
        · have hn2 : ¬ (j ∈ a :: L ∧ j < m.output_image.length) := fun h => hlt h.2
          rw [if_neg (haj ▸ hlt), if_neg hn2]
          exact (List.getElem?_eq_none (by omega)).symm
      · have hn2 : ¬ (j ∈ a :: L ∧ j < m.output_image.length) := by
          rintro ⟨hmem, _⟩
          rcases List.mem_cons.mp hmem with h | h
          · exact haj h.symm
          · exact hjL h
        rw [if_neg haj, if_neg hn2]

/-- What `apply_equalization` leaves in memory when the output buffer has room for the
`n = width * height * channels` samples: the input buffer and the table are untouched and the
output buffer holds, at every position `i < n`, the table entry selected by `input_image[i]`
converted to `unsigned char`; whatever the number of threads and the split. -/
theorem apply_equalization_spec (num_threads : Nat) (owner : Nat → Nat) (m : PixelArrays)
    (w h c : Nat) (hmax : w * h * c ≤ 2147483647) (hout : m.output_image.length = w * h * c)
    (hown : ∀ i, i < w * h * c → owner i < num_threads) :
    (apply_equalization num_threads owner m w h c).input_image = m.input_image ∧
      (apply_equalization num_threads owner m w h c).equalized_cdf = m.equalized_cdf ∧
      (apply_equalization num_threads owner m w h c).output_image
        = (List.range (w * h * c)).map
            (fun i => to_uchar (m.equalized_cdf.get (m.input_image.getD i 0))) := by
  unfold apply_equalization
  rw [sample_count_eq w h c hmax,
    omp_for_eq_foldl num_threads owner (w * h * c) apply_step apply_step_comm hown m]
  obtain ⟨h1, h2, h3, h4⟩ := foldl_apply_step (List.range (w * h * c)) m
  refine ⟨h1, h2, ?_⟩
  apply List.ext_getElem?
  intro j
  rw [h4 j, List.getElem?_map]
  by_cases hj : j < w * h * c
  · rw [if_pos ⟨List.mem_range.mpr hj, by omega⟩, List.getElem?_range hj]
    rfl
  · have hlen : (List.range (w * h * c)).length ≤ j := by
      rw [List.length_range]
      omega
    rw [if_neg (fun hh => hj (List.mem_range.mp hh.1)), List.getElem?_eq_none hlen,
      List.getElem?_eq_none (by omega)]
    rfl

theorem to_uchar_of_range (x : Int) (h0 : 0 ≤ x) (h1 : x ≤ 255) :
    (((to_uchar x).val : Nat) : Int) = x := by
  unfold to_uchar
  change (((x % 256).toNat % 256 : Nat) : Int) = x
  omega

/-- C9: for every input buffer of `n = width * height * channels` samples and every
equalization map (entries in `[0,255]`), `apply_equalization` produces an output buffer of the
same length `n` with `output[i] = map[input[i]]` at every index `i < n`, and leaves the input
buffer and the map unchanged. -/
theorem apply_equalization_lookup (num_threads : Nat) (owner : Nat → Nat) (m : PixelArrays)
    (w h c : Nat) (hmax : w * h * c ≤ 2147483647) (hin : m.input_image.length = w * h * c)
    (hout : m.output_image.length = w * h * c)
    (hown : ∀ i, i < w * h * c → owner i < num_threads)
    (hmap : ∀ v : Fin 256, 0 ≤ m.equalized_cdf.get v ∧ m.equalized_cdf.get v ≤ 255) :
    (apply_equalization num_threads owner m w h c).output_image.length = w * h * c ∧
      (∀ (i : Nat) (hi : i < w * h * c),
        ((((apply_equalization num_threads owner m w h c).output_image.getD i 0).val : Nat) : Int)
          = m.equalized_cdf.get (m.input_image.get ⟨i, by omega⟩)) ∧
      (apply_equalization num_threads owner m w h c).input_image = m.input_image ∧
      (apply_equalization num_threads owner m w h c).equalized_cdf = m.equalized_cdf := by
  obtain ⟨h1, h2, h3⟩ := apply_equalization_spec num_threads owner m w h c hmax hout hown
  refine ⟨?_, ?_, h1, h2⟩
  · rw [h3, List.length_map, List.length_range]
  · intro i hi
    have hi' : i < m.input_image.length := by omega
    rw [h3, List.getD_eq_getElem?_getD, List.getElem?_map, List.getElem?_range hi,
      Option.map_some', Option.getD_some, List.getD_eq_getElem _ _ hi', List.get_eq_getElem]
    exact to_uchar_of_range _ (hmap _).1 (hmap _).2

theorem apply_equalization_lookup_witness :
    1 * 1 * 1 ≤ 2147483647 ∧ ([3] : List UChar).length = 1 * 1 * 1 ∧
      ([0] : List UChar).length = 1 * 1 * 1 ∧
      (∀ i, i < 1 * 1 * 1 → (fun _ : Nat => 1) i < 2) ∧
      (∀ v : Fin 256, 0 ≤ zero_table.get v ∧ zero_table.get v ≤ 255) ∧
      (apply_equalization 2 (fun _ => 1)
        { input_image := [3], output_image := [0], equalized_cdf := zero_table }
        1 1 1).output_image.length = 1 * 1 * 1 :=
  ⟨by decide, rfl, rfl, fun _ _ => (by decide : (1 : Nat) < 2),
    fun v => by rw [zero_table_get]; decide,
    (apply_equalization_lookup 2 (fun _ => 1)
      { input_image := [3], output_image := [0], equalized_cdf := zero_table } 1 1 1
      (by decide) rfl rfl (fun _ _ => (by decide : (1 : Nat) < 2))
      (fun v => by rw [zero_table_get]; decide)).1⟩

/-! ## `calculate_equalized_cdf` as a loop -/

theorem vector_set_comm (t : Table) (i j : Fin 256) (a b : Int) (h : i ≠ j) :
    (t.set i a).set j b = (t.set j b).set i a := by
  apply Mathlib.Vector.ext
  intro k
  simp only [Mathlib.Vector.get_set_eq_if]
  by_cases hik : i = k
  · have hjk : j ≠ k := fun hh => h (hik.trans hh.symm)
    rw [if_pos hik, if_neg hjk, if_pos hik]
  · rw [if_neg hik, if_neg hik]

theorem set_step_comm (g : Fin 256 → Option Int) (s : Option Table) (i j : Fin 256) :
    ((s.bind fun eq => (g i).map fun v => eq.set i v).bind
        fun eq => (g j).map fun v => eq.set j v)
      = ((s.bind fun eq => (g j).map fun v => eq.set j v).bind
        fun eq => (g i).map fun v => eq.set i v) := by
  cases s with
  | none => rfl
  | some eq =>
    by_cases hij : i = j
    · rw [hij]
    · rcases ha : g i with _ | a <;> rcases hb : g j with _ | b <;> simp [ha, hb]
      exact vector_set_comm eq _ _ a b hij

theorem equalize_step_comm (cdf : Table) (cdf_min total : Int) (s : Option Table) (i j : Nat) :
    equalize_step cdf cdf_min total (equalize_step cdf cdf_min total s i) j
      = equalize_step cdf cdf_min total (equalize_step cdf cdf_min total s j) i :=
  set_step_comm (fun k => equalized_value (cdf.get k) cdf_min total) s (Fin.ofNat i) (Fin.ofNat j)

theorem foldl_equalize_step_none (cdf : Table) (cdf_min total : Int) (L : List Nat) :
    L.foldl (equalize_step cdf cdf_min total) none = none := by
  induction L with
  | nil => rfl
  | cons a L ih => exact ih

theorem foldl_equalize_step_some (cdf : Table) (cdf_min total : Int) (f : Fin 256 → Int)
    (hf : ∀ i : Fin 256, equalized_value (cdf.get i) cdf_min total = some (f i))
    (L : List Nat) :
    (∀ a ∈ L, a < 256) → ∀ eq : Table, ∃ eq' : Table,
      L.foldl (equalize_step cdf cdf_min total) (some eq) = some eq' ∧
      ∀ j : Fin 256, eq'.get j = if j.val ∈ L then f j else eq.get j := by
  induction L with
  | nil =>
    intro _ eq
    exact ⟨eq, rfl, fun j => by simp⟩
  | cons a L ih =>
    intro hL eq
    have ha : a < 256 := hL a (List.mem_cons_self _ _)
    have hstep : equalize_step cdf cdf_min total (some eq) a
        = some (eq.set (Fin.ofNat a) (f (Fin.ofNat a))) := by
      unfold equalize_step
      rw [hf]
      rfl
    obtain ⟨eq', h1, h2⟩ := ih (fun b hb => hL b (List.mem_cons_of_mem _ hb))
      (eq.set (Fin.ofNat a) (f (Fin.ofNat a)))
    have hval : ((Fin.ofNat a : Fin 256)).val = a := Nat.mod_eq_of_lt ha
    refine ⟨eq', ?_, fun j => ?_⟩
    · rw [List.foldl_cons, hstep, h1]
    · rw [h2 j, Mathlib.Vector.get_set_eq_if]
      by_cases hjL : j.val ∈ L
      · rw [if_pos hjL, if_pos (List.mem_cons_of_mem _ hjL)]
      · rw [if_neg hjL]
        by_cases haj : (Fin.ofNat a : Fin 256) = j
        · have hmem : j.val ∈ a :: L := by
            rw [← haj, hval]
            exact List.mem_cons_self _ _
          rw [if_pos haj, if_pos hmem, haj]
        · have hmem : ¬ j.val ∈ a :: L := by
            intro hh
            rcases List.mem_cons.mp hh with h | h
            · exact haj (Fin.ext (hval.trans h.symm))
            · exact hjL h
          rw [if_neg haj, if_neg hmem]

/-- The table written by `calculate_equalized_cdf` when every one of the 256 conversions is
defined, whatever the number of threads and the split. -/
theorem calculate_equalized_cdf_some (num_threads : Nat) (owner : Nat → Nat) (cdf : Table)
    (cdf_min total : Int) (eq0 : Table) (f : Fin 256 → Int)
    (hown : ∀ i, i < 256 → owner i < num_threads)
    (hf : ∀ i : Fin 256, equalized_value (cdf.get i) cdf_min total = some (f i)) :
    calculate_equalized_cdf num_threads owner cdf cdf_min total eq0
      = some (Mathlib.Vector.ofFn f) := by
  unfold calculate_equalized_cdf
  rw [omp_for_eq_foldl num_threads owner 256 _ (equalize_step_comm cdf cdf_min total) hown]
  obtain ⟨eq', h1, h2⟩ := foldl_equalize_step_some cdf cdf_min total f hf (List.range 256)
    (fun a ha => List.mem_range.mp ha) eq0
  rw [h1]
  refine congrArg some (Mathlib.Vector.ext fun j => ?_)
  rw [h2 j, if_pos (List.mem_range.mpr j.isLt), Mathlib.Vector.get_ofFn]

theorem foldl_equalize_step_undefined (cdf : Table) (cdf_min total : Int) (k : Nat)
    (hk : equalized_value (cdf.get (Fin.ofNat k)) cdf_min total = none) (L : List Nat) :
    k ∈ L → ∀ s : Option Table, L.foldl (equalize_step cdf cdf_min total) s = none := by
  induction L with
  | nil => intro h; exact absurd h (List.not_mem_nil k)
  | cons a L ih =>
    intro hmem s
    rw [List.foldl_cons]
    rcases List.mem_cons.mp hmem with h | h
    · have hnone : equalize_step cdf cdf_min total s a = none := by
        unfold equalize_step
        rw [← h, hk]
        cases s <;> rfl
      rw [hnone]
      exact foldl_equalize_step_none cdf cdf_min total L
    · exact ih h _

/-- The function `calculate_equalized_cdf` has undefined behaviour as soon as one of the 256
conversions to `int` is undefined, whatever the number of threads and the split. -/
theorem calculate_equalized_cdf_none (num_threads : Nat) (owner : Nat → Nat) (cdf : Table)
    (cdf_min total : Int) (eq0 : Table) (k : Fin 256)
    (hown : ∀ i, i < 256 → owner i < num_threads)
    (hk : equalized_value (cdf.get k) cdf_min total = none) :
    calculate_equalized_cdf num_threads owner cdf cdf_min total eq0 = none := by
  unfold calculate_equalized_cdf
  rw [omp_for_eq_foldl num_threads owner 256 _ (equalize_step_comm cdf cdf_min total) hown]
  have hk' : equalized_value (cdf.get (Fin.ofNat k.val)) cdf_min total = none := by
    have : (Fin.ofNat k.val : Fin 256) = k := Fin.ext (Nat.mod_eq_of_lt k.isLt)
    rw [this]
    exact hk
  exact foldl_equalize_step_undefined cdf cdf_min total k.val hk' (List.range 256)
    (List.mem_range.mpr k.isLt) _

/-! ## The pipeline does not depend on the schedule -/

theorem calculate_equalized_cdf_eq_foldl (num_threads : Nat) (owner : Nat → Nat) (cdf : Table)
    (cdf_min total : Int) (eq0 : Table) (hown : ∀ i, i < 256 → owner i < num_threads) :
    calculate_equalized_cdf num_threads owner cdf cdf_min total eq0
      = (List.range 256).foldl (equalize_step cdf cdf_min total) (some eq0) := by
  unfold calculate_equalized_cdf
  exact omp_for_eq_foldl num_threads owner 256 _ (equalize_step_comm cdf cdf_min total) hown _

theorem adjusted_channels_le (ch : Nat) : adjusted_channels ch ≤ ch := by
  unfold adjusted_channels
  split_ifs <;> omega

theorem calculate_histogram_schedule (T1 T2 : Nat) (o1 o2 : Nat → Nat) (image : List UChar)
    (w h c : Nat) (hmax : w * h * c ≤ 2147483647) (hlen : w * h * c ≤ image.length)
    (h1 : ∀ i, i < w * h * c → o1 i < T1) (h2 : ∀ i, i < w * h * c → o2 i < T2) :
    calculate_histogram T1 o1 image w h c zero_table
      = calculate_histogram T2 o2 image w h c zero_table := by
  apply Mathlib.Vector.ext
  intro v
  rw [calculate_histogram_get T1 o1 image w h c v hmax hlen h1,
    calculate_histogram_get T2 o2 image w h c v hmax hlen h2]

theorem apply_equalization_schedule (T1 T2 : Nat) (o1 o2 : Nat → Nat)
    (image out1 out2 : List UChar) (eq : Table) (w h c : Nat) (hmax : w * h * c ≤ 2147483647)
    (hout1 : out1.length = w * h * c) (hout2 : out2.length = w * h * c)
    (h1 : ∀ i, i < w * h * c → o1 i < T1) (h2 : ∀ i, i < w * h * c → o2 i < T2) :
    (apply_equalization T1 o1
        { input_image := image, output_image := out1, equalized_cdf := eq } w h c).output_image
      = (apply_equalization T2 o2
        { input_image := image, output_image := out2, equalized_cdf := eq } w h c).output_image := by
  rw [(apply_equalization_spec T1 o1 _ w h c hmax hout1 h1).2.2,
    (apply_equalization_spec T2 o2 _ w h c hmax hout2 h2).2.2]

theorem run_pipeline_histogram (S : Schedule) (image : List UChar) (w h ch : Nat)
    (out : List UChar) :
    (run_pipeline S image w h ch out).histogram
      = calculate_histogram S.num_threads S.histogram_owner image w h (adjusted_channels ch)
          zero_table := rfl

theorem run_pipeline_cdf (S : Schedule) (image : List UChar) (w h ch : Nat)
    (out : List UChar) :
    (run_pipeline S image w h ch out).cdf
      = (calculate_cdf
          { histogram := calculate_histogram S.num_threads S.histogram_owner image w h
              (adjusted_channels ch) zero_table,
            cdf := zero_table }).cdf := by
  unfold run_pipeline
  dsimp only

theorem run_pipeline_cdf_min (S : Schedule) (image : List UChar) (w h ch : Nat)
    (out : List UChar) :
    (run_pipeline S image w h ch out).cdf_min
      = calculate_cdf_min S.num_threads S.cdf_min_owner
          (calculate_cdf
            { histogram := calculate_histogram S.num_threads S.histogram_owner image w h
                (adjusted_channels ch) zero_table,
              cdf := zero_table }).cdf := by
  unfold run_pipeline
  dsimp only

theorem run_pipeline_equalized_cdf (S : Schedule) (image : List UChar) (w h ch : Nat)
    (out : List UChar) :
    (run_pipeline S image w h ch out).equalized_cdf
      = calculate_equalized_cdf S.num_threads S.equalized_owner
          (calculate_cdf
            { histogram := calculate_histogram S.num_threads S.histogram_owner image w h
                (adjusted_channels ch) zero_table,
              cdf := zero_table }).cdf
          (calculate_cdf_min S.num_threads S.cdf_min_owner
            (calculate_cdf
              { histogram := calculate_histogram S.num_threads S.histogram_owner image w h
                  (adjusted_channels ch) zero_table,
                cdf := zero_table }).cdf)
          (total_pixels w h (adjusted_channels ch)) zero_table := by
  unfold run_pipeline
  dsimp only

theorem run_pipeline_equalized_image (S : Schedule) (image : List UChar) (w h ch : Nat)
    (out : List UChar) :
    (run_pipeline S image w h ch out).equalized_image
      = (calculate_equalized_cdf S.num_threads S.equalized_owner
          (calculate_cdf
            { histogram := calculate_histogram S.num_threads S.histogram_owner image w h
                (adjusted_channels ch) zero_table,
              cdf := zero_table }).cdf
          (calculate_cdf_min S.num_threads S.cdf_min_owner
            (calculate_cdf
              { histogram := calculate_histogram S.num_threads S.histogram_owner image w h
                  (adjusted_channels ch) zero_table,
                cdf := zero_table }).cdf)
          (total_pixels w h (adjusted_channels ch)) zero_table).map fun eq =>
          (apply_equalization S.num_threads S.apply_owner
            { input_image := image, output_image := out, equalized_cdf := eq }
            w h (adjusted_channels ch)).output_image := by
  unfold run_pipeline
  dsimp only

/-- C2: for every decoded pixel buffer and any two admissible schedules (thread counts
`T1, T2 ≥ 1` with any split of every work-sharing loop), the pipeline of `main` run from zeroed
tables produces the same histogram, the same CDF, the same equalization map and the same
equalized buffer, whatever the output buffer held beforehand. -/
theorem run_pipeline_schedule_independent (S1 S2 : Schedule) (image : List UChar)
    (w h ch : Nat) (out1 out2 : List UChar)
    (hmax : w * h * adjusted_channels ch ≤ 2147483647)
    (hlen : image.length = w * h * ch)
    (hout1 : out1.length = w * h * adjusted_channels ch)
    (hout2 : out2.length = w * h * adjusted_channels ch)
    (hS1 : S1.valid (w * h * adjusted_channels ch))
    (hS2 : S2.valid (w * h * adjusted_channels ch)) :
    (run_pipeline S1 image w h ch out1).histogram = (run_pipeline S2 image w h ch out2).histogram ∧
      (run_pipeline S1 image w h ch out1).cdf = (run_pipeline S2 image w h ch out2).cdf ∧
      (run_pipeline S1 image w h ch out1).equalized_cdf
        = (run_pipeline S2 image w h ch out2).equalized_cdf ∧
      (run_pipeline S1 image w h ch out1).equalized_image
        = (run_pipeline S2 image w h ch out2).equalized_image := by
  obtain ⟨a1, b1, c1, d1⟩ := hS1
  obtain ⟨a2, b2, c2, d2⟩ := hS2
  have hbuf : w * h * adjusted_channels ch ≤ image.length := by
    rw [hlen]
    exact Nat.mul_le_mul_left _ (adjusted_channels_le ch)
  have hH := calculate_histogram_schedule S1.num_threads S2.num_threads S1.histogram_owner
    S2.histogram_owner image w h (adjusted_channels ch) hmax hbuf a1 a2
  rw [run_pipeline_histogram, run_pipeline_histogram, run_pipeline_cdf, run_pipeline_cdf,
    run_pipeline_equalized_cdf, run_pipeline_equalized_cdf, run_pipeline_equalized_image,
    run_pipeline_equalized_image, hH]
  generalize (calculate_cdf
    { histogram := calculate_histogram S2.num_threads S2.histogram_owner image w h
        (adjusted_channels ch) zero_table,
      cdf := zero_table }).cdf = cdf
  rw [calculate_cdf_min_eq_foldl _ _ cdf b1, calculate_cdf_min_eq_foldl _ _ cdf b2,
    calculate_equalized_cdf_eq_foldl _ _ cdf _ _ _ c1,
    calculate_equalized_cdf_eq_foldl _ _ cdf _ _ _ c2]
  refine ⟨Eq.refl _, Eq.refl _, Eq.refl _, ?_⟩
  cases (List.range 256).foldl
      (equalize_step cdf ((List.range 256).foldl (cdf_min_step cdf) INT_MAX)
        (total_pixels w h (adjusted_channels ch))) (some zero_table) with
  | none => rw [Option.map_none', Option.map_none']
  | some eq =>
    rw [Option.map_some', Option.map_some']
    exact congrArg some (apply_equalization_schedule _ _ _ _ image out1 out2 eq w h
      (adjusted_channels ch) hmax hout1 hout2 d1 d2)

theorem sequential_schedule_valid (n : Nat) : sequential_schedule.valid n :=
  ⟨fun _ _ => Nat.zero_lt_one, fun _ _ => Nat.zero_lt_one, fun _ _ => Nat.zero_lt_one,
    fun _ _ => Nat.zero_lt_one⟩

theorem run_pipeline_schedule_independent_witness :
    2 * 2 * adjusted_channels 1 ≤ 2147483647 ∧
      ([0, 0, 0, 255] : List UChar).length = 2 * 2 * 1 ∧
      ([9, 9, 9, 9] : List UChar).length = 2 * 2 * adjusted_channels 1 ∧
      ([1, 2, 3, 4] : List UChar).length = 2 * 2 * adjusted_channels 1 ∧
      sequential_schedule.valid (2 * 2 * adjusted_channels 1) ∧
      Schedule.valid
        { num_threads := 3, histogram_owner := fun i => i % 3, cdf_min_owner := fun i => i % 2,
          equalized_owner := fun _ => 2, apply_owner := fun i => i % 3 }
        (2 * 2 * adjusted_channels 1) ∧
      (run_pipeline sequential_schedule [0, 0, 0, 255] 2 2 1 [9, 9, 9, 9]).equalized_image
        = (run_pipeline
            { num_threads := 3, histogram_owner := fun i => i % 3,
              cdf_min_owner := fun i => i % 2, equalized_owner := fun _ => 2,
              apply_owner := fun i => i % 3 }
            [0, 0, 0, 255] 2 2 1 [1, 2, 3, 4]).equalized_image :=
  ⟨by decide, rfl, rfl, rfl, sequential_schedule_valid _,
    ⟨fun i _ => Nat.mod_lt i (by decide), fun i _ => Nat.lt_of_lt_of_le (Nat.mod_lt i (by decide))
        (by decide), fun _ _ => (by decide : (2 : Nat) < 3), fun i _ => Nat.mod_lt i (by decide)⟩,
    (run_pipeline_schedule_independent sequential_schedule
      { num_threads := 3, histogram_owner := fun i => i % 3, cdf_min_owner := fun i => i % 2,
        equalized_owner := fun _ => 2, apply_owner := fun i => i % 3 }
      [0, 0, 0, 255] 2 2 1 [9, 9, 9, 9] [1, 2, 3, 4] (by decide) rfl rfl rfl
      (sequential_schedule_valid _)
      ⟨fun i _ => Nat.mod_lt i (by decide),
        fun i _ => Nat.lt_of_lt_of_le (Nat.mod_lt i (by decide)) (by decide),
        fun _ _ => (by decide : (2 : Nat) < 3), fun i _ => Nat.mod_lt i (by decide)⟩).2.2.2⟩

/-! ## Binary64 rounding -/

theorem nat_log2_spec (fuel : Nat) :
    ∀ n : Nat, 0 < n → n ≤ fuel →
      2 ^ nat_log2 fuel n ≤ n ∧ n < 2 ^ (nat_log2 fuel n + 1) := by
  induction fuel with
  | zero => intro n h0 h1; omega
  | succ fuel ih =>
    intro n h0 h1
    unfold nat_log2
    by_cases h2 : n < 2
    · rw [if_pos h2]
      have : n = 1 := by omega
      subst this
      exact ⟨le_refl _, by norm_num⟩
    · rw [if_neg h2]
      obtain ⟨ha, hb⟩ := ih (n / 2) (by omega) (by omega)
      have e1 : 2 ^ (nat_log2 fuel (n / 2) + 1) = 2 ^ nat_log2 fuel (n / 2) * 2 := pow_succ _ _
      have e2 : 2 ^ (nat_log2 fuel (n / 2) + 1 + 1) = 2 ^ nat_log2 fuel (n / 2) * 2 * 2 := by
        rw [pow_succ, pow_succ]
      rw [e1] at hb
      rw [e1, e2]
      constructor <;> omega

theorem rat_abs_eq (x : ℚ) : |x| = (x.num.natAbs : ℚ) / (x.den : ℚ) := by
  have hq : (0 : ℚ) < (x.den : ℚ) := by exact_mod_cast x.den_pos
  conv_lhs => rw [← Rat.num_div_den x]
  rw [abs_div, abs_of_pos hq, Nat.cast_natAbs, Int.cast_abs]

theorem binary_exponent_spec (x : ℚ) (hx : x ≠ 0) :
    (2 : ℚ) ^ binary_exponent x ≤ |x| ∧ |x| < (2 : ℚ) ^ (binary_exponent x + 1) := by
  have hnum : 0 < x.num.natAbs := Int.natAbs_pos.mpr (Rat.num_ne_zero.mpr hx)
  have hden : 0 < x.den := x.den_pos
  obtain ⟨pa, pb⟩ := nat_log2_spec x.num.natAbs x.num.natAbs hnum (le_refl _)
  obtain ⟨qa, qb⟩ := nat_log2_spec x.den x.den hden (le_refl _)
  have habs := rat_abs_eq x
  have hq : (0 : ℚ) < (x.den : ℚ) := by exact_mod_cast hden
  have pa' : ((2 : ℚ) ^ nat_log2 x.num.natAbs x.num.natAbs) ≤ (x.num.natAbs : ℚ) := by
    exact_mod_cast pa
  have pb' : (x.num.natAbs : ℚ) < (2 : ℚ) ^ (nat_log2 x.num.natAbs x.num.natAbs + 1) := by
    exact_mod_cast pb
  have qa' : ((2 : ℚ) ^ nat_log2 x.den x.den) ≤ (x.den : ℚ) := by exact_mod_cast qa
  have qb' : (x.den : ℚ) < (2 : ℚ) ^ (nat_log2 x.den x.den + 1) := by exact_mod_cast qb
  unfold binary_exponent
  generalize nat_log2 x.num.natAbs x.num.natAbs = a at *
  generalize nat_log2 x.den x.den = b at *
  have h2 : (2 : ℚ) ≠ 0 := by norm_num
  have hpowa : (0 : ℚ) < 2 ^ a := by positivity
  have hpowb : (0 : ℚ) < 2 ^ b := by positivity
  have hd : (2 : ℚ) ^ ((a : ℤ) - (b : ℤ)) = 2 ^ a / 2 ^ b := by
    rw [zpow_sub₀ h2, zpow_natCast, zpow_natCast]
  have hupper : |x| < (2 : ℚ) ^ ((a : ℤ) - (b : ℤ) + 1) := by
    rw [zpow_add₀ h2, hd, zpow_one, habs, div_lt_iff₀ hq]
    rw [pow_succ] at pb'
    calc (x.num.natAbs : ℚ) < 2 ^ a * 2 := pb'
      _ = 2 ^ a / 2 ^ b * 2 * 2 ^ b := by field_simp
      _ ≤ 2 ^ a / 2 ^ b * 2 * (x.den : ℚ) := by
        apply mul_le_mul_of_nonneg_left qa'
        positivity
  have hlower : (2 : ℚ) ^ ((a : ℤ) - (b : ℤ) - 1) ≤ |x| := by
    rw [zpow_sub₀ h2, hd, zpow_one, habs, le_div_iff₀ hq]
    rw [pow_succ] at qb'
    calc 2 ^ a / 2 ^ b / 2 * (x.den : ℚ) ≤ 2 ^ a / 2 ^ b / 2 * (2 ^ b * 2) := by
          apply mul_le_mul_of_nonneg_left (le_of_lt qb')
          positivity
      _ = 2 ^ a := by field_simp
      _ ≤ (x.num.natAbs : ℚ) := pa'
  split_ifs with h
  · exact ⟨h, hupper⟩
  · refine ⟨hlower, ?_⟩
    rw [sub_add_cancel]
    exact lt_of_not_le h

/-- The exponent computed by `binary_exponent` is the integer logarithm in base 2. -/
theorem binary_exponent_eq_log (x : ℚ) (hx : x ≠ 0) : binary_exponent x = Int.log 2 |x| := by
  obtain ⟨h1, h2⟩ := binary_exponent_spec x hx
  have hpos : 0 < |x| := abs_pos.mpr hx
  have hc : ((2 : ℕ) : ℚ) = 2 := by norm_num
  have a1 : binary_exponent x ≤ Int.log 2 |x| := by
    rw [← Int.zpow_le_iff_le_log (by norm_num) hpos, hc]
    exact h1
  have a2 : Int.log 2 |x| < binary_exponent x + 1 := by
    rw [← Int.lt_zpow_iff_log_lt (by norm_num) hpos, hc]
    exact h2
  omega

theorem round_nearest_even_error (z : ℚ) :
    (round_nearest_even z : ℚ) - z ≤ 1 / 2 ∧ z - (round_nearest_even z : ℚ) ≤ 1 / 2 := by
  have h1 := Int.floor_le z
  have h2 := Int.lt_floor_add_one z
  unfold round_nearest_even
  split_ifs <;> push_cast <;> constructor <;> linarith

theorem round_nearest_even_le (z : ℚ) (N : ℤ) (h : z ≤ N) : round_nearest_even z ≤ N := by
  have h1 := (round_nearest_even_error z).1
  have h2 : (round_nearest_even z : ℚ) < ((N + 1 : ℤ) : ℚ) := by
    push_cast
    linarith
  have := Int.cast_lt.mp h2
  omega

theorem le_round_nearest_even (z : ℚ) (N : ℤ) (h : (N : ℚ) ≤ z) : N ≤ round_nearest_even z := by
  have h1 := (round_nearest_even_error z).2
  have h2 : ((N - 1 : ℤ) : ℚ) < (round_nearest_even z : ℚ) := by
    push_cast
    linarith
  have := Int.cast_lt.mp h2
  omega

theorem ulp_pos (x : ℚ) : (0 : ℚ) < 2 ^ ulp_exponent x := zpow_pos (by norm_num) _

theorem round_to_binary64_le (x c : ℚ) (N : ℤ) (hc : c = N * 2 ^ ulp_exponent x) (h : x ≤ c) :
    round_to_binary64 x ≤ c := by
  unfold round_to_binary64
  rw [hc]
  apply mul_le_mul_of_nonneg_right _ (le_of_lt (ulp_pos x))
  have hz : x / 2 ^ ulp_exponent x ≤ N := by
    rw [div_le_iff₀ (ulp_pos x), ← hc]
    exact h
  exact_mod_cast round_nearest_even_le _ N hz

theorem le_round_to_binary64 (x c : ℚ) (N : ℤ) (hc : c = N * 2 ^ ulp_exponent x) (h : c ≤ x) :
    c ≤ round_to_binary64 x := by
  unfold round_to_binary64
  rw [hc]
  apply mul_le_mul_of_nonneg_right _ (le_of_lt (ulp_pos x))
  have hz : (N : ℚ) ≤ x / 2 ^ ulp_exponent x := by
    rw [le_div_iff₀ (ulp_pos x), ← hc]
    exact h
  exact_mod_cast le_round_nearest_even _ N hz

theorem round_to_binary64_error (x : ℚ) :
    |round_to_binary64 x - x| ≤ 2 ^ ulp_exponent x / 2 := by
  have hpos := ulp_pos x
  obtain ⟨h1, h2⟩ := round_nearest_even_error (x / 2 ^ ulp_exponent x)
  have hx : x = x / 2 ^ ulp_exponent x * 2 ^ ulp_exponent x := by
    field_simp
  unfold round_to_binary64
  rw [abs_sub_le_iff]
  constructor
  · calc (round_nearest_even (x / 2 ^ ulp_exponent x) : ℚ) * 2 ^ ulp_exponent x - x
        = ((round_nearest_even (x / 2 ^ ulp_exponent x) : ℚ) - x / 2 ^ ulp_exponent x)
            * 2 ^ ulp_exponent x := by
          rw [sub_mul, ← hx]
      _ ≤ 1 / 2 * 2 ^ ulp_exponent x := mul_le_mul_of_nonneg_right h1 (le_of_lt hpos)
      _ = 2 ^ ulp_exponent x / 2 := by ring
  · calc x - (round_nearest_even (x / 2 ^ ulp_exponent x) : ℚ) * 2 ^ ulp_exponent x
        = (x / 2 ^ ulp_exponent x - (round_nearest_even (x / 2 ^ ulp_exponent x) : ℚ))
            * 2 ^ ulp_exponent x := by
          rw [sub_mul, ← hx]
      _ ≤ 1 / 2 * 2 ^ ulp_exponent x := mul_le_mul_of_nonneg_right h2 (le_of_lt hpos)
      _ = 2 ^ ulp_exponent x / 2 := by ring

theorem binary_exponent_zero : binary_exponent 0 = -1 := by decide!

theorem binary_exponent_lt (x : ℚ) (k : ℤ) (hk : 0 ≤ k) (h : |x| < 2 ^ k) :
    binary_exponent x < k := by
  by_cases hx : x = 0
  · rw [hx, binary_exponent_zero]
    omega
  · have h1 := (binary_exponent_spec x hx).1
    exact (zpow_lt_zpow_iff_right₀ (by norm_num : (1 : ℚ) < 2)).mp (lt_of_le_of_lt h1 h)

theorem ulp_exponent_le (x : ℚ) (k : ℤ) (hk : 0 ≤ k) (h : |x| < 2 ^ k) :
    ulp_exponent x ≤ k - 53 := by
  have := binary_exponent_lt x k hk h
  unfold ulp_exponent
  have hm : max (binary_exponent x) (-1022) ≤ k - 1 := max_le (by omega) (by omega)
  omega

theorem ulp_exponent_normal (x : ℚ) (h : (2 : ℚ) ^ (-1022 : ℤ) ≤ |x|) :
    ulp_exponent x = binary_exponent x - 52 := by
  have hx : x ≠ 0 := by
    intro h0
    rw [h0, abs_zero] at h
    exact absurd h (not_le.mpr (zpow_pos (by norm_num) _))
  have h2 := (binary_exponent_spec x hx).2
  have := (zpow_lt_zpow_iff_right₀ (by norm_num : (1 : ℚ) < 2)).mp (lt_of_le_of_lt h h2)
  unfold ulp_exponent
  rw [max_eq_left (by omega)]

theorem int_representable (C u : ℤ) (hu : u ≤ 0) : ∃ N : ℤ, (C : ℚ) = N * 2 ^ u := by
  refine ⟨C * 2 ^ (-u).toNat, ?_⟩
  have h2 : (2 : ℚ) ≠ 0 := by norm_num
  push_cast
  rw [← zpow_natCast, Int.toNat_of_nonneg (by omega), mul_assoc, ← zpow_add₀ h2]
  simp

theorem round_to_binary64_le_int (x : ℚ) (C k : ℤ) (hk0 : 0 ≤ k) (hk : k ≤ 53)
    (hx : |x| < 2 ^ k) (h : x ≤ C) : round_to_binary64 x ≤ C := by
  obtain ⟨N, hN⟩ := int_representable C (ulp_exponent x)
    (by have := ulp_exponent_le x k hk0 hx; omega)
  exact round_to_binary64_le x C N hN h

theorem int_le_round_to_binary64 (x : ℚ) (C k : ℤ) (hk0 : 0 ≤ k) (hk : k ≤ 53)
    (hx : |x| < 2 ^ k) (h : (C : ℚ) ≤ x) : (C : ℚ) ≤ round_to_binary64 x := by
  obtain ⟨N, hN⟩ := int_representable C (ulp_exponent x)
    (by have := ulp_exponent_le x k hk0 hx; omega)
  exact le_round_to_binary64 x C N hN h

theorem round_to_binary64_intCast (n : ℤ) (h : |(n : ℚ)| < 2 ^ (53 : ℤ)) :
    round_to_binary64 (n : ℚ) = n :=
  le_antisymm (round_to_binary64_le_int n n 53 (by norm_num) (le_refl _) h (le_refl _))
    (int_le_round_to_binary64 n n 53 (by norm_num) (le_refl _) h (le_refl _))

theorem round_to_binary64_rel_error (x : ℚ) (h : (2 : ℚ) ^ (-1022 : ℤ) ≤ |x|) :
    |round_to_binary64 x - x| ≤ |x| * 2 ^ (-53 : ℤ) := by
  have hx : x ≠ 0 := by
    intro h0
    rw [h0, abs_zero] at h
    exact absurd h (not_le.mpr (zpow_pos (by norm_num) _))
  have h1 := (binary_exponent_spec x hx).1
  have h2 : (2 : ℚ) ≠ 0 := by norm_num
  calc |round_to_binary64 x - x| ≤ 2 ^ ulp_exponent x / 2 := round_to_binary64_error x
    _ = 2 ^ binary_exponent x * 2 ^ (-53 : ℤ) := by
      rw [ulp_exponent_normal x h, show binary_exponent x - 52 = binary_exponent x + (-52) by ring,
        zpow_add₀ h2]
      norm_num
      ring
    _ ≤ |x| * 2 ^ (-53 : ℤ) := mul_le_mul_of_nonneg_right h1 (le_of_lt (zpow_pos (by norm_num) _))

theorem floor_stable (T p : ℚ) (k M b : ℤ) (hb : 0 < b) (hb2 : b ≤ 2147483647)
    (hT : T = (M : ℚ) / (2 * (b : ℚ))) (hk : ⌊T⌋ = k) (hne : M ≠ 2 * b * k)
    (hclose : |p - T| < 1 / 4294967296) : ⌊p⌋ = k := by
  have hbq : (0 : ℚ) < 2 * (b : ℚ) := by
    have : (0 : ℚ) < (b : ℚ) := by exact_mod_cast hb
    linarith
  have hbq2 : 2 * (b : ℚ) ≤ 4294967296 := by
    have : (b : ℚ) ≤ 2147483647 := by exact_mod_cast hb2
    linarith
  have h1 : (k : ℚ) ≤ T := hk ▸ Int.floor_le T
  have h2 : T < (k : ℚ) + 1 := hk ▸ Int.lt_floor_add_one T
  have hM1 : 2 * b * k ≤ M := by
    have : (k : ℚ) * (2 * (b : ℚ)) ≤ M := by
      rw [hT, le_div_iff₀ hbq] at h1
      exact h1
    have : ((2 * b * k : ℤ) : ℚ) ≤ (M : ℚ) := by
      push_cast
      linarith
    exact_mod_cast this
  have hM2 : M < 2 * b * (k + 1) := by
    have : (M : ℚ) < ((k : ℚ) + 1) * (2 * (b : ℚ)) := by
      rw [hT, div_lt_iff₀ hbq] at h2
      exact h2
    have : (M : ℚ) < ((2 * b * (k + 1) : ℤ) : ℚ) := by
      push_cast
      linarith
    exact_mod_cast this
  have hM3 : 2 * b * k + 1 ≤ M := by omega
  have hM4 : M + 1 ≤ 2 * b * (k + 1) := by omega
  have hr : (1 : ℚ) / 4294967296 ≤ 1 / (2 * (b : ℚ)) :=
    one_div_le_one_div_of_le hbq hbq2
  have hlow : (k : ℚ) + 1 / (2 * (b : ℚ)) ≤ T := by
    rw [hT, le_div_iff₀ hbq, add_mul, one_div, inv_mul_cancel₀ (ne_of_gt hbq)]
    have : ((2 * b * k + 1 : ℤ) : ℚ) ≤ (M : ℚ) := by exact_mod_cast hM3
    push_cast at this
    linarith
  have hhigh : T ≤ (k : ℚ) + 1 - 1 / (2 * (b : ℚ)) := by
    rw [hT, div_le_iff₀ hbq, sub_mul, one_div, inv_mul_cancel₀ (ne_of_gt hbq)]
    have : ((M + 1 : ℤ) : ℚ) ≤ ((2 * b * (k + 1) : ℤ) : ℚ) := by exact_mod_cast hM4
    push_cast at this
    linarith
  rw [abs_lt] at hclose
  rw [Int.floor_eq_iff]
  constructor <;> linarith [hclose.1, hclose.2]

theorem tie_cases : ∀ k : Fin 255,
    round_half_away (round_to_binary64 (round_to_binary64 ((2 * (k.val : ℚ) + 1) / 510) * 255))
      = (k.val : ℤ) + 1 := by
  decide!

theorem round_half_away_nonneg (x : ℚ) (h : 0 ≤ x) : round_half_away x = ⌊x + 1 / 2⌋ := by
  unfold round_half_away
  rw [if_pos h]

theorem round_to_binary64_zero : round_to_binary64 0 = 0 := by
  have := round_to_binary64_intCast 0 (by norm_num)
  simpa using this

/-- The two rounded operations `(x / y) * 255.0` followed by `round` give the correctly rounded
value of the exact quotient times 255 whenever `0 ≤ a ≤ b` are `int` values. -/
theorem scaled_round_exact (a b : ℤ) (ha : 0 ≤ a) (hab : a ≤ b) (hb : 0 < b)
    (hb2 : b ≤ 2147483647) :
    round_half_away (round_to_binary64 (round_to_binary64 ((a : ℚ) / (b : ℚ)) * 255))
      = round_half_away ((a : ℚ) / (b : ℚ) * 255) := by
  have hbq : (0 : ℚ) < (b : ℚ) := by exact_mod_cast hb
  rcases eq_or_lt_of_le ha with h0 | hpos
  · rw [← h0]
    simp [round_to_binary64_zero]
  have haq : (0 : ℚ) < (a : ℚ) := by exact_mod_cast hpos
  have hx0 : (0 : ℚ) < (a : ℚ) / (b : ℚ) := div_pos haq hbq
  have hx1 : (a : ℚ) / (b : ℚ) ≤ 1 := by
    rw [div_le_one hbq]
    exact_mod_cast hab
  have hxlow : (1 : ℚ) / 2147483647 ≤ (a : ℚ) / (b : ℚ) := by
    rw [div_le_div_iff₀ (by norm_num) hbq]
    have h1 : (1 : ℚ) ≤ (a : ℚ) := by exact_mod_cast hpos
    have h2 : (b : ℚ) ≤ 2147483647 := by exact_mod_cast hb2
    nlinarith
  generalize hx : (a : ℚ) / (b : ℚ) = x at *
  have hsmall : (2 : ℚ) ^ (-1022 : ℤ) ≤ 1 / 2147483647 := by
    have h1 : (2 : ℚ) ^ (-1022 : ℤ) ≤ 2 ^ (-31 : ℤ) :=
      zpow_le_zpow_right₀ (by norm_num) (by norm_num)
    have h2 : (2 : ℚ) ^ (-31 : ℤ) ≤ 1 / 2147483647 := by norm_num
    exact h1.trans h2
  have hd : (2 : ℚ) ^ (-53 : ℤ) = 1 / 9007199254740992 := by norm_num
  have hq := round_to_binary64_rel_error x (by rw [abs_of_pos hx0]; exact hsmall.trans hxlow)
  rw [abs_of_pos hx0, hd, abs_sub_le_iff] at hq
  generalize hqq : round_to_binary64 x = q at *
  have hqpos : 0 < q := by linarith [hq.2]
  have hq255 : (1 : ℚ) / 2147483647 ≤ q * 255 := by linarith [hq.2]
  have hs := round_to_binary64_rel_error (q * 255)
    (by rw [abs_of_pos (by linarith)]; exact hsmall.trans hq255)
  rw [abs_of_pos (by linarith : 0 < q * 255), hd, abs_sub_le_iff] at hs
  generalize hpp : round_to_binary64 (q * 255) = p at *
  have hp0 : 0 ≤ p := by linarith [hs.2]
  have ht0 : 0 ≤ x * 255 := by linarith
  rw [round_half_away_nonneg p hp0, round_half_away_nonneg (x * 255) ht0]
  have hclose : |p + 1 / 2 - (x * 255 + 1 / 2)| < 1 / 4294967296 := by
    rw [abs_lt]
    constructor <;> linarith [hq.1, hq.2, hs.1, hs.2]
  have hT : x * 255 + 1 / 2 = ((510 * a + b : ℤ) : ℚ) / (2 * (b : ℚ)) := by
    rw [← hx]
    push_cast
    field_simp
    ring
  by_cases htie : 510 * a + b = 2 * b * ⌊x * 255 + 1 / 2⌋
  · have hk1 : 1 ≤ ⌊x * 255 + 1 / 2⌋ := by
      by_contra hcon
      have h0 : ⌊x * 255 + 1 / 2⌋ ≤ 0 := by omega
      have : 2 * b * ⌊x * 255 + 1 / 2⌋ ≤ 0 :=
        mul_nonpos_of_nonneg_of_nonpos (by omega) h0
      omega
    have hk2 : ⌊x * 255 + 1 / 2⌋ ≤ 255 := by
      by_contra hcon
      have h0 : 256 ≤ ⌊x * 255 + 1 / 2⌋ := by omega
      have : 2 * b * 256 ≤ 2 * b * ⌊x * 255 + 1 / 2⌋ :=
        mul_le_mul_of_nonneg_left h0 (by omega)
      omega
    generalize hkk : ⌊x * 255 + 1 / 2⌋ = k at *
    have hcast : (((k - 1).toNat : ℕ) : ℤ) = k - 1 := Int.toNat_of_nonneg (by omega)
    have hcastq : (((k - 1).toNat : ℕ) : ℚ) = (k : ℚ) - 1 := by
      have := congrArg (fun z : ℤ => (z : ℚ)) hcast
      simpa using this
    have hxe : x = (2 * (((k - 1).toNat : ℕ) : ℚ) + 1) / 510 := by
      rw [← hx, hcastq, div_eq_div_iff (ne_of_gt hbq) (by norm_num)]
      have : ((510 * a + b : ℤ) : ℚ) = ((2 * b * k : ℤ) : ℚ) := by rw [htie]
      push_cast at this
      linarith
    have hfin : (k - 1).toNat < 255 := by omega
    have htc := tie_cases ⟨(k - 1).toNat, hfin⟩
    dsimp only at htc
    rw [← hxe, hqq, hpp, round_half_away_nonneg p hp0, hcast] at htc
    rw [htc]
    ring
  · exact floor_stable (x * 255 + 1 / 2) (p + 1 / 2) _ (510 * a + b) b hb hb2 hT rfl htie hclose

/-! ## Values of type `double` in the equalization formula -/

theorem round_to_binary64_abs_le (x : ℚ) (C : ℤ) (hC : C ≤ 9007199254740991) (h : |x| ≤ C) :
    |round_to_binary64 x| ≤ C := by
  have hCq : (C : ℚ) ≤ 9007199254740991 := by exact_mod_cast hC
  have hx : |x| < 2 ^ (53 : ℤ) := by
    have : (2 : ℚ) ^ (53 : ℤ) = 9007199254740992 := by norm_num
    rw [this]
    linarith
  rw [abs_le] at h ⊢
  constructor
  · have := int_le_round_to_binary64 x (-C) 53 (by norm_num) (le_refl _) hx
      (by push_cast; exact h.1)
    push_cast at this
    exact this
  · exact round_to_binary64_le_int x C 53 (by norm_num) (le_refl _) hx h.2

theorem of_real_finite (x : ℚ) (C : ℤ) (hC : C ≤ 9007199254740991) (h : |x| ≤ C) :
    Double.of_real x = Double.finite (round_to_binary64 x) := by
  have hb := round_to_binary64_abs_le x C hC h
  have hCq : (C : ℚ) ≤ 9007199254740991 := by exact_mod_cast hC
  have hbig : (9007199254740991 : ℚ) < 2 ^ 1024 := by
    have h1 : (2 : ℚ) ^ 53 ≤ 2 ^ 1024 := pow_le_pow_right₀ (by norm_num) (by norm_num)
    have h2 : (9007199254740991 : ℚ) < 2 ^ 53 := by norm_num
    exact lt_of_lt_of_le h2 h1
  unfold Double.of_real
  rw [if_pos (lt_of_le_of_lt (hb.trans hCq) hbig)]

theorem of_int_finite (n : ℤ) (h1 : -2147483648 ≤ n) (h2 : n ≤ 2147483647) :
    Double.of_int n = Double.finite (n : ℚ) := by
  have habs : |(n : ℚ)| ≤ ((2147483648 : ℤ) : ℚ) := by
    rw [abs_le]
    constructor
    · exact_mod_cast (by omega : -(2147483648 : ℤ) ≤ n)
    · exact_mod_cast (by omega : n ≤ (2147483648 : ℤ))
  unfold Double.of_int
  rw [of_real_finite n 2147483648 (by norm_num) habs, round_to_binary64_intCast]
  have : (2 : ℚ) ^ (53 : ℤ) = 9007199254740992 := by norm_num
  rw [this]
  push_cast at habs
  linarith

theorem of_real_255 : Double.of_real 255 = Double.finite 255 := by
  have h := of_int_finite 255 (by norm_num) (by norm_num)
  unfold Double.of_int at h
  exact_mod_cast h

theorem round_half_away_bounds (p : ℚ) (lo hi : ℤ) (h1 : (lo : ℚ) ≤ p) (h2 : p ≤ (hi : ℚ)) :
    lo ≤ round_half_away p ∧ round_half_away p ≤ hi := by
  unfold round_half_away
  split_ifs with h0
  · constructor
    · rw [Int.le_floor]
      linarith
    · have : ⌊p + 1 / 2⌋ < hi + 1 := by
        rw [Int.floor_lt]
        push_cast
        linarith
      omega
  · constructor
    · have : ⌊-p + 1 / 2⌋ < -lo + 1 := by
        rw [Int.floor_lt]
        push_cast
        linarith
      omega
    · have : -hi ≤ ⌊-p + 1 / 2⌋ := by
        rw [Int.le_floor]
        push_cast
        linarith
      omega

theorem to_int_intCast (r : ℤ) (h1 : -2147483648 ≤ r) (h2 : r ≤ 2147483647) :
    Double.to_int (Double.finite (r : ℚ)) = some r := by
  unfold Double.to_int
  simp only [Int.floor_intCast, Int.ceil_intCast, ite_self]
  rw [if_pos ⟨h1, h2⟩]

theorem div_finite (a b : ℚ) (hb : b ≠ 0) :
    Double.div (Double.finite a) (Double.finite b) = Double.of_real (a / b) := by
  simp [Double.div, hb]

theorem mul_finite (a b : ℚ) :
    Double.mul (Double.finite a) (Double.finite b) = Double.of_real (a * b) := rfl

theorem round_finite (a : ℚ) :
    Double.round (Double.finite a) = Double.finite (round_half_away a : ℚ) := rfl

/-- The value stored by one iteration of `calculate_equalized_cdf` for arguments as they occur
for an image: `0 ≤ cdf[i] ≤ total_pixels ≤ INT_MAX`, `0 ≤ cdf_min < total_pixels`, and, for a
level below the floor, `cdf_min - cdf[i] ≤ 2^23 * (total_pixels - cdf_min)` (so that the
conversion to `int` is defined). It is the exact quotient times 255, rounded half away from
zero, and replaced by `0` when negative. -/
theorem equalized_value_exact (c cdf_min total : ℤ) (hc0 : 0 ≤ c) (hct : c ≤ total)
    (htmax : total ≤ 2147483647) (hm0 : 0 ≤ cdf_min) (hmt : cdf_min < total)
    (hneg : cdf_min - c ≤ 8388608 * (total - cdf_min)) :
    equalized_value c cdf_min total
      = some (max 0 (round_half_away
          (((c - cdf_min : ℤ) : ℚ) / ((total - cdf_min : ℤ) : ℚ) * 255))) := by
  unfold equalized_value
  rw [wrap32_of_range (by omega : -2147483648 ≤ c - cdf_min) (by omega),
    wrap32_of_range (by omega : -2147483648 ≤ total - cdf_min) (by omega),
    of_int_finite _ (by omega) (by omega), of_int_finite _ (by omega) (by omega), of_real_255]
  have hb : (0 : ℚ) < ((total - cdf_min : ℤ) : ℚ) := by
    exact_mod_cast (by omega : 0 < total - cdf_min)
  have hlow : -(8388608 * (total - cdf_min)) ≤ c - cdf_min := by omega
  have hupp : c - cdf_min ≤ total - cdf_min := by omega
  rw [div_finite _ _ (ne_of_gt hb)]
  generalize ha : c - cdf_min = a at *
  generalize hbb : total - cdf_min = b at *
  have hbpos : 0 < b := by exact_mod_cast hb
  rcases le_or_lt 0 a with ha0 | hneg'
  · -- levels at or above the floor
    have haq : (0 : ℚ) ≤ (a : ℚ) := by exact_mod_cast ha0
    have hx0 : (0 : ℚ) ≤ (a : ℚ) / (b : ℚ) := div_nonneg haq (le_of_lt hb)
    have hx1 : (a : ℚ) / (b : ℚ) ≤ 1 := by
      rw [div_le_one hb]
      exact_mod_cast (by omega : a ≤ b)
    have hxabs : |(a : ℚ) / (b : ℚ)| ≤ ((1 : ℤ) : ℚ) := by
      rw [abs_of_nonneg hx0]
      exact_mod_cast hx1
    have hq := round_to_binary64_abs_le _ 1 (by norm_num) hxabs
    have hq0 : (0 : ℚ) ≤ round_to_binary64 ((a : ℚ) / (b : ℚ)) := by
      have := int_le_round_to_binary64 ((a : ℚ) / (b : ℚ)) 0 53 (by norm_num) (le_refl _)
        (lt_of_le_of_lt hxabs (by norm_num)) (by exact_mod_cast hx0)
      exact_mod_cast this
    rw [of_real_finite _ 1 (by norm_num) hxabs, mul_finite]
    have hq1 : round_to_binary64 ((a : ℚ) / (b : ℚ)) ≤ 1 := by
      have := (abs_le.mp hq).2
      exact_mod_cast this
    have hsabs : |round_to_binary64 ((a : ℚ) / (b : ℚ)) * 255| ≤ ((255 : ℤ) : ℚ) := by
      rw [abs_of_nonneg (by positivity)]
      push_cast
      linarith
    have hp := round_to_binary64_abs_le _ 255 (by norm_num) hsabs
    have hp0 : (0 : ℚ) ≤ round_to_binary64 (round_to_binary64 ((a : ℚ) / (b : ℚ)) * 255) := by
      have := int_le_round_to_binary64 (round_to_binary64 ((a : ℚ) / (b : ℚ)) * 255) 0 53
        (by norm_num) (le_refl _) (lt_of_le_of_lt hsabs (by norm_num))
        (by push_cast; positivity)
      exact_mod_cast this
    rw [of_real_finite _ 255 (by norm_num) hsabs, round_finite]
    have hr := round_half_away_bounds
      (round_to_binary64 (round_to_binary64 ((a : ℚ) / (b : ℚ)) * 255)) 0 255
      (by exact_mod_cast hp0) ((abs_le.mp hp).2)
    rw [to_int_intCast _ (by omega) (by omega), Option.map_some',
      scaled_round_exact a b ha0 (by omega) hbpos (by omega)] at *
    rw [if_neg (by omega), max_eq_right hr.1]
  · -- levels below the floor
    have haq : (a : ℚ) < 0 := by exact_mod_cast hneg'
    have hx0 : (a : ℚ) / (b : ℚ) ≤ 0 := le_of_lt (div_neg_of_neg_of_pos haq hb)
    have hx1 : -8388608 ≤ (a : ℚ) / (b : ℚ) := by
      rw [le_div_iff₀ hb]
      have : ((-(8388608 * b) : ℤ) : ℚ) ≤ (a : ℚ) := by exact_mod_cast hlow
      push_cast at this
      linarith
    have hxabs : |(a : ℚ) / (b : ℚ)| ≤ ((8388608 : ℤ) : ℚ) := by
      rw [abs_le]
      push_cast
      constructor <;> linarith
    have hq := abs_le.mp (round_to_binary64_abs_le _ 8388608 (by norm_num) hxabs)
    have hq0 : round_to_binary64 ((a : ℚ) / (b : ℚ)) ≤ 0 := by
      have := round_to_binary64_le_int ((a : ℚ) / (b : ℚ)) 0 53 (by norm_num) (le_refl _)
        (lt_of_le_of_lt hxabs (by norm_num)) (by exact_mod_cast hx0)
      exact_mod_cast this
    rw [of_real_finite _ 8388608 (by norm_num) hxabs, mul_finite]
    push_cast at hq
    have hsabs : |round_to_binary64 ((a : ℚ) / (b : ℚ)) * 255| ≤ ((2139095040 : ℤ) : ℚ) := by
      rw [abs_le]
      push_cast
      constructor <;> linarith [hq.1, hq.2]
    have hp := abs_le.mp (round_to_binary64_abs_le _ 2139095040 (by norm_num) hsabs)
    have hp0 : round_to_binary64 (round_to_binary64 ((a : ℚ) / (b : ℚ)) * 255) ≤ 0 := by
      have := round_to_binary64_le_int (round_to_binary64 ((a : ℚ) / (b : ℚ)) * 255) 0 53
        (by norm_num) (le_refl _) (lt_of_le_of_lt hsabs (by norm_num))
        (by push_cast; linarith)
      exact_mod_cast this
    rw [of_real_finite _ 2139095040 (by norm_num) hsabs, round_finite]
    have hr := round_half_away_bounds
      (round_to_binary64 (round_to_binary64 ((a : ℚ) / (b : ℚ)) * 255)) (-2139095040) 0
      (by exact_mod_cast hp.1) (by exact_mod_cast hp0)
    have hexact := round_half_away_bounds ((a : ℚ) / (b : ℚ) * 255) (-2139095040) 0
      (by push_cast; linarith) (by push_cast; linarith)
    rw [to_int_intCast _ (by omega) (by omega), Option.map_some', max_eq_left hexact.2]
    split_ifs with hlt
    · rfl
    · congr 1
      omega

theorem exact_equalized_range (c cdf_min total : ℤ) (hct : c ≤ total) (hmt : cdf_min < total)
    (hneg : cdf_min - c ≤ 8388608 * (total - cdf_min)) :
    0 ≤ exact_equalized c cdf_min total ∧ exact_equalized c cdf_min total ≤ 255 := by
  unfold exact_equalized
  refine ⟨le_max_left _ _, max_le (by norm_num) ?_⟩
  have hb : (0 : ℚ) < ((total - cdf_min : ℤ) : ℚ) := by
    exact_mod_cast (by omega : 0 < total - cdf_min)
  have h1 : ((c - cdf_min : ℤ) : ℚ) / ((total - cdf_min : ℤ) : ℚ) ≤ 1 := by
    rw [div_le_one hb]
    exact_mod_cast (by omega : c - cdf_min ≤ total - cdf_min)
  have h2 : -8388608 ≤ ((c - cdf_min : ℤ) : ℚ) / ((total - cdf_min : ℤ) : ℚ) := by
    rw [le_div_iff₀ hb]
    have : ((-(8388608 * (total - cdf_min)) : ℤ) : ℚ) ≤ ((c - cdf_min : ℤ) : ℚ) := by
      exact_mod_cast (by omega : -(8388608 * (total - cdf_min)) ≤ c - cdf_min)
    push_cast at this ⊢
    linarith
  generalize ((c - cdf_min : ℤ) : ℚ) / ((total - cdf_min : ℤ) : ℚ) = x at h1 h2 ⊢
  exact (round_half_away_bounds _ (-2139095040) 255 (by push_cast; linarith)
    (by push_cast; linarith)).2

/-- The table written by `calculate_equalized_cdf` when `0 ≤ cdf_min < total_samples ≤ INT_MAX`,
every entry lies in `[0, total_samples]` and `cdf_min - CDF[i] ≤ 2^23 * (total_samples - cdf_min)`:
all conversions to `int` are defined and
`map[i] = max(0, round((CDF[i] - cdf_min) / (total_samples - cdf_min) * 255))` with the exact
quotient and rounding half away from zero, for every level and every split of the loop. -/
theorem calculate_equalized_cdf_exact (num_threads : Nat) (owner : Nat → Nat) (cdf : Table)
    (cdf_min total : Int) (eq0 : Table) (hown : ∀ i, i < 256 → owner i < num_threads)
    (htmax : total ≤ 2147483647) (hm0 : 0 ≤ cdf_min) (hmt : cdf_min < total)
    (hcdf : ∀ i : Fin 256, 0 ≤ cdf.get i ∧ cdf.get i ≤ total
      ∧ cdf_min - cdf.get i ≤ 8388608 * (total - cdf_min)) :
    ∃ map : Table,
      calculate_equalized_cdf num_threads owner cdf cdf_min total eq0 = some map ∧
      ∀ i : Fin 256, map.get i = exact_equalized (cdf.get i) cdf_min total := by
  refine ⟨Mathlib.Vector.ofFn fun i => exact_equalized (cdf.get i) cdf_min total, ?_,
    fun i => Mathlib.Vector.get_ofFn _ i⟩
  apply calculate_equalized_cdf_some num_threads owner cdf cdf_min total eq0 _ hown
  intro i
  exact equalized_value_exact (cdf.get i) cdf_min total (hcdf i).1 (hcdf i).2.1 htmax hm0 hmt
    (hcdf i).2.2

/-- Outside the CDF tables of the data model the two roundings of the double-precision
computation can show: with `CDF[i] = 769`, `cdf_min = 0` and `total_samples = 6` (an entry above
the total, and a `cdf_min` that `calculate_cdf_min` never returns) the stored value is 32682
while the exact value 32682.5 rounds to 32683. -/
theorem calculate_equalized_cdf_double_rounding :
    ∃ map : Table,
      calculate_equalized_cdf 1 (fun _ => 0) (Mathlib.Vector.replicate 256 769) 0 6 zero_table
        = some map ∧
      map.get 0 = 32682 ∧
      exact_equalized ((Mathlib.Vector.replicate 256 (769 : Int)).get 0) 0 6 = 32683 := by
  refine ⟨Mathlib.Vector.ofFn fun _ => 32682, ?_, Mathlib.Vector.get_ofFn _ 0, ?_⟩
  · apply calculate_equalized_cdf_some 1 (fun _ => 0) _ 0 6 zero_table _
      (fun _ _ => Nat.zero_lt_one)
    intro i
    rw [Mathlib.Vector.get_replicate]
    decide!
  · rw [Mathlib.Vector.get_replicate]
    decide!

/-- Under the hypotheses of `calculate_equalized_cdf_exact` each of the 256 entries of the table
written by `calculate_equalized_cdf` lies in `[0, 255]`. -/
theorem calculate_equalized_cdf_in_range (num_threads : Nat) (owner : Nat → Nat) (cdf : Table)
    (cdf_min total : Int) (eq0 : Table) (hown : ∀ i, i < 256 → owner i < num_threads)
    (htmax : total ≤ 2147483647) (hm0 : 0 ≤ cdf_min) (hmt : cdf_min < total)
    (hcdf : ∀ i : Fin 256, 0 ≤ cdf.get i ∧ cdf.get i ≤ total
      ∧ cdf_min - cdf.get i ≤ 8388608 * (total - cdf_min)) :
    ∃ map : Table,
      calculate_equalized_cdf num_threads owner cdf cdf_min total eq0 = some map ∧
      ∀ i : Fin 256, 0 ≤ map.get i ∧ map.get i ≤ 255 := by
  refine ⟨Mathlib.Vector.ofFn fun i => exact_equalized (cdf.get i) cdf_min total, ?_, ?_⟩
  · apply calculate_equalized_cdf_some num_threads owner cdf cdf_min total eq0 _ hown
    intro i
    exact equalized_value_exact (cdf.get i) cdf_min total (hcdf i).1 (hcdf i).2.1 htmax hm0 hmt
      (hcdf i).2.2
  · intro i
    rw [Mathlib.Vector.get_ofFn]
    exact exact_equalized_range (cdf.get i) cdf_min total (hcdf i).2.1 hmt (hcdf i).2.2

/-- Only negative values are replaced: outside the CDF tables of the data model, with
`CDF[i] = 2`, `cdf_min = 0` and `total_samples = 1` (an entry above the total), the stored value
is `2 / 1 * 255 = 510`. -/
theorem calculate_equalized_cdf_above_255 :
    ∃ map : Table,
      calculate_equalized_cdf 1 (fun _ => 0) (Mathlib.Vector.replicate 256 2) 0 1 zero_table
        = some map ∧
      map.get 0 = 510 := by
  refine ⟨Mathlib.Vector.ofFn fun _ => 510, ?_, Mathlib.Vector.get_ofFn _ 0⟩
  apply calculate_equalized_cdf_some 1 (fun _ => 0) _ 0 1 zero_table _
    (fun _ _ => Nat.zero_lt_one)
  intro i
  rw [Mathlib.Vector.get_replicate]
  decide!

/-! ## Constant images: the division by zero -/

/-- When `total_pixels == cdf_min` the divisor is `0.0`: the quotient is an infinity or NaN, it
stays so through the multiplication and `round`, and its conversion to `int` is undefined. -/
theorem equalized_value_zero_divisor (c cdf_min : ℤ) :
    equalized_value c cdf_min cdf_min = none := by
  unfold equalized_value
  rw [sub_self, wrap32_of_range (by norm_num : (-2147483648 : ℤ) ≤ 0) (by norm_num),
    of_int_finite 0 (by norm_num) (by norm_num), of_real_255]
  generalize Double.of_int (wrap32 (c - cdf_min)) = d
  cases d with
  | nan => rfl
  | infinite s => simp [Double.div, Double.mul, Double.round, Double.to_int]
  | finite a =>
    by_cases ha : a = 0 <;> simp [Double.div, Double.mul, Double.round, Double.to_int, ha]

theorem run_pipeline_histogram_tally (S : Schedule) (image : List UChar) (w h ch : Nat)
    (out : List UChar) (hmax : w * h * adjusted_channels ch ≤ 2147483647)
    (hlen : image.length = w * h * ch) (hS : S.valid (w * h * adjusted_channels ch)) :
    (run_pipeline S image w h ch out).histogram
      = tally (image.take (w * h * adjusted_channels ch)) := by
  have hbuf : w * h * adjusted_channels ch ≤ image.length := by
    rw [hlen]
    exact Nat.mul_le_mul_left _ (adjusted_channels_le ch)
  rw [run_pipeline_histogram]
  apply Mathlib.Vector.ext
  intro v
  rw [calculate_histogram_get _ _ image w h _ v hmax hbuf hS.1, tally_get]

theorem run_pipeline_cdf_get (S : Schedule) (image : List UChar) (w h ch : Nat)
    (out : List UChar) (hmax : w * h * adjusted_channels ch ≤ 2147483647)
    (hlen : image.length = w * h * ch) (hS : S.valid (w * h * adjusted_channels ch))
    (i : Fin 256) :
    (run_pipeline S image w h ch out).cdf.get i
      = cumulative_sum (tally (image.take (w * h * adjusted_channels ch))) i := by
  rw [run_pipeline_cdf, ← run_pipeline_histogram S image w h ch out,
    run_pipeline_histogram_tally S image w h ch out hmax hlen hS]
  apply calculate_cdf_tally
  rw [List.length_take]
  exact (min_le_left _ _).trans hmax

theorem tally_replicate (n : Nat) (v u : Fin 256) :
    (tally (List.replicate n v)).get u = if v = u then (n : ℤ) else 0 := by
  rw [tally_get, List.count_replicate]
  by_cases h : v = u
  · rw [if_pos h, if_pos (by rw [h]; exact beq_self_eq_true u)]
  · rw [if_neg h, if_neg (by simpa using h)]
    rfl

theorem cumulative_sum_replicate (n : Nat) (v i : Fin 256) :
    cumulative_sum (tally (List.replicate n v)) i = if v ≤ i then (n : ℤ) else 0 := by
  unfold cumulative_sum
  simp only [tally_replicate]
  rw [Finset.sum_ite_eq]
  simp only [Finset.mem_filter, Finset.mem_univ, true_and]

/-- For a constant-valued image of `n ≥ 1` samples the pipeline computes `cdf_min = n`, which is
also the `total_pixels` argument of `calculate_equalized_cdf`, so every iteration divides by
zero: the equalization map and the equalized buffer are undefined. -/
theorem constant_image_pipeline (S : Schedule) (v : UChar) (w h ch : Nat) (out : List UChar)
    (hpos : 0 < w * h * adjusted_channels ch)
    (hmax : w * h * adjusted_channels ch ≤ 2147483647)
    (hS : S.valid (w * h * adjusted_channels ch)) :
    (run_pipeline S (List.replicate (w * h * ch) v) w h ch out).cdf_min
        = total_pixels w h (adjusted_channels ch) ∧
      (run_pipeline S (List.replicate (w * h * ch) v) w h ch out).equalized_cdf = none ∧
      (run_pipeline S (List.replicate (w * h * ch) v) w h ch out).equalized_image = none := by
  have hlen : (List.replicate (w * h * ch) v).length = w * h * ch := List.length_replicate _ _
  have hle : w * h * adjusted_channels ch ≤ w * h * ch :=
    Nat.mul_le_mul_left _ (adjusted_channels_le ch)
  have htake : (List.replicate (w * h * ch) v).take (w * h * adjusted_channels ch)
      = List.replicate (w * h * adjusted_channels ch) v := by
    rw [List.take_replicate, min_eq_left hle]
  have hcdf : ∀ i : Fin 256,
      (run_pipeline S (List.replicate (w * h * ch) v) w h ch out).cdf.get i
        = if v ≤ i then ((w * h * adjusted_channels ch : Nat) : ℤ) else 0 := by
    intro i
    rw [run_pipeline_cdf_get S _ w h ch out hmax hlen hS i, htake, cumulative_sum_replicate]
  have hmin : (run_pipeline S (List.replicate (w * h * ch) v) w h ch out).cdf_min
      = ((w * h * adjusted_channels ch : Nat) : ℤ) := by
    rw [run_pipeline_cdf_min, ← run_pipeline_cdf S _ w h ch out]
    obtain ⟨h1, h2, h3⟩ := calculate_cdf_min_spec S.num_threads S.cdf_min_owner
      (run_pipeline S (List.replicate (w * h * ch) v) w h ch out).cdf hS.2.1
    have hv255 : v ≤ (255 : Fin 256) := by
      rw [Fin.le_def]
      have := v.isLt
      change v.val ≤ 255
      omega
    have hlast := h3 255 (by
      rw [hcdf 255, if_pos hv255]
      exact_mod_cast hpos)
    rw [hcdf 255, if_pos hv255] at hlast
    have hbound : ((w * h * adjusted_channels ch : Nat) : ℤ) ≤ 2147483647 := by
      exact_mod_cast hmax
    rcases h2 with h2 | ⟨i, hi, hipos⟩
    · have : INT_MAX = 2147483647 := rfl
      omega
    · rw [hcdf i] at hi
      by_cases hvi : v ≤ i
      · rw [if_pos hvi] at hi
        exact hi.symm
      · rw [if_neg hvi] at hi
        omega
  have htot : total_pixels w h (adjusted_channels ch)
      = ((w * h * adjusted_channels ch : Nat) : ℤ) := total_pixels_eq w h _ hmax
  have hmap : (run_pipeline S (List.replicate (w * h * ch) v) w h ch out).equalized_cdf
      = none := by
    rw [run_pipeline_cdf_min] at hmin
    rw [run_pipeline_equalized_cdf, hmin, htot]
    exact calculate_equalized_cdf_none _ _ _ _ _ _ 0 hS.2.2.1
      (equalized_value_zero_divisor _ _)
  refine ⟨hmin.trans htot.symm, hmap, ?_⟩
  rw [run_pipeline_equalized_cdf] at hmap
  rw [run_pipeline_equalized_image, hmap, Option.map_none']

/-- C10, at the failing input: for the 2x2 one-channel image whose four samples are 128 the
pipeline reaches `calculate_equalized_cdf` with `cdf_min = total_pixels = 4`; the quotient
computed for the occupied levels is `0.0 / 0.0 = NaN`; no fallback map is produced: the
conversion of the result to `int` is undefined, for the map and hence for the output buffer. -/
theorem uniform_image_division_by_zero :
    (run_pipeline sequential_schedule [128, 128, 128, 128] 2 2 1 [0, 0, 0, 0]).cdf_min = 4 ∧
      total_pixels 2 2 (adjusted_channels 1) = 4 ∧
      Double.div (Double.of_int (wrap32 (4 - 4))) (Double.of_int (wrap32 (4 - 4))) = Double.nan ∧
      (run_pipeline sequential_schedule [128, 128, 128, 128] 2 2 1 [0, 0, 0, 0]).equalized_cdf
        = none ∧
      (run_pipeline sequential_schedule [128, 128, 128, 128] 2 2 1 [0, 0, 0, 0]).equalized_image
        = none := by
  have h := constant_image_pipeline sequential_schedule 128 2 2 1 [0, 0, 0, 0] (by decide)
    (by decide) (sequential_schedule_valid _)
  have himg : List.replicate (2 * 2 * 1) (128 : UChar) = [128, 128, 128, 128] := rfl
  rw [himg] at h
  have htot : total_pixels 2 2 (adjusted_channels 1) = 4 := by decide
  refine ⟨h.1.trans htot, htot, ?_, h.2.1, h.2.2⟩
  decide!

/-! ## Zero-sample images -/

theorem calculate_cdf_min_no_positive (num_threads : Nat) (owner : Nat → Nat) (cdf : Table)
    (hown : ∀ i, i < 256 → owner i < num_threads) (h : ∀ i : Fin 256, cdf.get i ≤ 0) :
    calculate_cdf_min num_threads owner cdf = INT_MAX := by
  obtain ⟨_, h2, _⟩ := calculate_cdf_min_spec num_threads owner cdf hown
  rcases h2 with h2 | ⟨i, hi, hpos⟩
  · exact h2
  · have := h i
    omega

theorem equalized_value_no_data : equalized_value 0 INT_MAX 0 = some 255 := by decide!

/-- With an all-zero CDF, `cdf_min = INT_MAX` and `total_pixels = 0`, every iteration of
`calculate_equalized_cdf` computes `(0 - INT_MAX) / (0 - INT_MAX) * 255 = 255`. -/
theorem calculate_equalized_cdf_no_data (num_threads : Nat) (owner : Nat → Nat) (cdf eq0 : Table)
    (hown : ∀ i, i < 256 → owner i < num_threads) (h : ∀ i : Fin 256, cdf.get i = 0) :
    calculate_equalized_cdf num_threads owner cdf INT_MAX 0 eq0
      = some (Mathlib.Vector.ofFn fun _ => 255) := by
  apply calculate_equalized_cdf_some num_threads owner cdf INT_MAX 0 eq0 _ hown
  intro i
  rw [h i]
  exact equalized_value_no_data

theorem zero_sample_pipeline (S : Schedule) (w h ch : Nat) (out : List UChar)
    (hzero : w * h * ch = 0) (hS : S.valid (w * h * adjusted_channels ch)) :
    (∀ i : Fin 256, (run_pipeline S [] w h ch out).histogram.get i = 0) ∧
      (∀ i : Fin 256, (run_pipeline S [] w h ch out).cdf.get i = 0) ∧
      (run_pipeline S [] w h ch out).cdf_min = INT_MAX ∧
      total_pixels w h (adjusted_channels ch) = 0 ∧
      (run_pipeline S [] w h ch out).equalized_cdf
        = some (Mathlib.Vector.ofFn fun _ => 255) := by
  have hn : w * h * adjusted_channels ch = 0 := by
    have := Nat.mul_le_mul_left (w * h) (adjusted_channels_le ch)
    omega
  have hmax : w * h * adjusted_channels ch ≤ 2147483647 := by omega
  have hlen : ([] : List UChar).length = w * h * ch := by rw [hzero]; rfl
  have hhist : ∀ i : Fin 256, (run_pipeline S [] w h ch out).histogram.get i = 0 := by
    intro i
    rw [run_pipeline_histogram_tally S [] w h ch out hmax hlen hS, List.take_nil, tally_get]
    rfl
  have hcdf : ∀ i : Fin 256, (run_pipeline S [] w h ch out).cdf.get i = 0 := by
    intro i
    rw [run_pipeline_cdf_get S [] w h ch out hmax hlen hS i, List.take_nil]
    have := cumulative_sum_replicate 0 0 i
    rw [List.replicate_zero] at this
    rw [this]
    split_ifs <;> rfl
  have hmin : (run_pipeline S [] w h ch out).cdf_min = INT_MAX := by
    rw [run_pipeline_cdf_min, ← run_pipeline_cdf S [] w h ch out]
    exact calculate_cdf_min_no_positive _ _ _ hS.2.1 (fun i => le_of_eq (hcdf i))
  have htot : total_pixels w h (adjusted_channels ch) = 0 := by
    rw [total_pixels_eq w h _ hmax, hn]
    rfl
  refine ⟨hhist, hcdf, hmin, htot, ?_⟩
  rw [run_pipeline_cdf_min] at hmin
  rw [run_pipeline_equalized_cdf, hmin, htot, ← run_pipeline_cdf S [] w h ch out]
  exact calculate_equalized_cdf_no_data _ _ _ _ hS.2.2.1 hcdf

/-- C11, as amended: for a zero-sample image the histogram and the CDF are entirely zero,
`calculate_cdf_min` returns the sentinel `INT_MAX`, `total_pixels` is `0`, and
`calculate_equalized_cdf` does not short-circuit: it computes
`(0 - INT_MAX) / (0 - INT_MAX) * 255` for every level, so the map it produces is constant,
`map[i] = 255` for every level `i` in `0..255`. -/
theorem zero_sample_map_constant (S : Schedule) (w h ch : Nat) (out : List UChar)
    (hzero : w * h * ch = 0) (hS : S.valid (w * h * adjusted_channels ch)) :
    (∀ i : Fin 256, (run_pipeline S [] w h ch out).histogram.get i = 0) ∧
      (∀ i : Fin 256, (run_pipeline S [] w h ch out).cdf.get i = 0) ∧
      (run_pipeline S [] w h ch out).cdf_min = INT_MAX ∧
      total_pixels w h (adjusted_channels ch) = 0 ∧
      ∃ map : Table, (run_pipeline S [] w h ch out).equalized_cdf = some map ∧
        ∀ i : Fin 256, map.get i = 255 := by
  obtain ⟨h1, h2, h3, h4, h5⟩ := zero_sample_pipeline S w h ch out hzero hS
  exact ⟨h1, h2, h3, h4, _, h5, fun i => Mathlib.Vector.get_ofFn _ i⟩

theorem zero_sample_map_constant_witness :
    0 * 0 * 1 = 0 ∧ sequential_schedule.valid (0 * 0 * adjusted_channels 1) ∧
      (run_pipeline sequential_schedule [] 0 0 1 []).cdf_min = INT_MAX :=
  ⟨rfl, sequential_schedule_valid _,
    (zero_sample_map_constant sequential_schedule 0 0 1 [] rfl
      (sequential_schedule_valid _)).2.2.1⟩

/-- C11, counterexample: for the empty image (width 0) the sequential run produces a map whose
entry for level 0 is 255, not 0: the map is not the identity. -/
theorem zero_sample_map_not_identity :
    ∃ map : Table, (run_pipeline sequential_schedule [] 0 0 1 []).equalized_cdf = some map ∧
      map.get 0 = 255 ∧ map.get 0 ≠ ((0 : Fin 256).val : Int) := by
  obtain ⟨_, _, _, _, h5⟩ := zero_sample_pipeline sequential_schedule 0 0 1 [] rfl
    (sequential_schedule_valid _)
  refine ⟨_, h5, Mathlib.Vector.get_ofFn _ 0, ?_⟩
  rw [Mathlib.Vector.get_ofFn]
  decide

/-! ## Monotonicity of the floating-point operations -/

theorem round_nearest_even_mono (z z' : ℚ) (h : z ≤ z') :
    round_nearest_even z ≤ round_nearest_even z' := by
  by_contra hlt
  push_neg at hlt
  have e1 := (round_nearest_even_error z).1
  have e2 := (round_nearest_even_error z').2
  have h3 : ((round_nearest_even z' + 1 : ℤ) : ℚ) ≤ (round_nearest_even z : ℚ) := by
    exact_mod_cast hlt
  push_cast at h3
  have hzz : z = z' := le_antisymm h (by linarith)
  rw [hzz] at hlt
  exact lt_irrefl _ hlt

theorem binary_exponent_mono (x y : ℚ) (hx : x ≠ 0) (h : |x| ≤ |y|) :
    binary_exponent x ≤ binary_exponent y := by
  have hy : y ≠ 0 := by
    intro h0
    rw [h0, abs_zero] at h
    exact hx (abs_eq_zero.mp (le_antisymm h (abs_nonneg x)))
  have h1 := (binary_exponent_spec x hx).1
  have h2 := (binary_exponent_spec y hy).2
  have h3 : (2 : ℚ) ^ binary_exponent x < 2 ^ (binary_exponent y + 1) :=
    lt_of_le_of_lt (h1.trans h) h2
  have := (zpow_lt_zpow_iff_right₀ (by norm_num : (1 : ℚ) < 2)).mp h3
  omega

theorem ulp_exponent_mono (x y : ℚ) (hx : x ≠ 0) (h : |x| ≤ |y|) :
    ulp_exponent x ≤ ulp_exponent y := by
  have := binary_exponent_mono x y hx h
  unfold ulp_exponent
  omega

theorem two_zpow_representable (e u : ℤ) (h : u ≤ e) : ∃ N : ℤ, (2 : ℚ) ^ e = N * 2 ^ u := by
  refine ⟨2 ^ (e - u).toNat, ?_⟩
  have h2 : (2 : ℚ) ≠ 0 := by norm_num
  push_cast
  rw [← zpow_natCast, Int.toNat_of_nonneg (by omega), ← zpow_add₀ h2]
  simp

theorem round_to_binary64_mono_same (x y : ℚ) (h : x ≤ y) (hu : ulp_exponent x = ulp_exponent y) :
    round_to_binary64 x ≤ round_to_binary64 y := by
  unfold round_to_binary64
  rw [hu]
  apply mul_le_mul_of_nonneg_right _ (le_of_lt (ulp_pos y))
  have hz : x / 2 ^ ulp_exponent y ≤ y / 2 ^ ulp_exponent y :=
    div_le_div_of_nonneg_right h (le_of_lt (ulp_pos y))
  exact_mod_cast round_nearest_even_mono _ _ hz

theorem round_to_binary64_mono_pos (x y : ℚ) (hx : 0 < x) (h : x ≤ y) :
    round_to_binary64 x ≤ round_to_binary64 y := by
  have hy : 0 < y := lt_of_lt_of_le hx h
  have habs : |x| ≤ |y| := by
    rw [abs_of_pos hx, abs_of_pos hy]
    exact h
  have hmono := ulp_exponent_mono x y (ne_of_gt hx) habs
  rcases eq_or_lt_of_le hmono with hu | hu
  · exact round_to_binary64_mono_same x y h hu
  · have sx := (binary_exponent_spec x (ne_of_gt hx)).2
    have sy := (binary_exponent_spec y (ne_of_gt hy)).1
    rw [abs_of_pos hx] at sx
    rw [abs_of_pos hy] at sy
    have hux : ulp_exponent x = max (binary_exponent x) (-1022) - 52 := rfl
    have huy : ulp_exponent y = max (binary_exponent y) (-1022) - 52 := rfl
    have hbe : binary_exponent y = ulp_exponent y + 52 := by omega
    have hle : binary_exponent x + 1 ≤ ulp_exponent y + 52 := by omega
    have hxB : x ≤ (2 : ℚ) ^ (ulp_exponent y + 52) :=
      le_of_lt (lt_of_lt_of_le sx (zpow_le_zpow_right₀ (by norm_num) hle))
    have hBy : (2 : ℚ) ^ (ulp_exponent y + 52) ≤ y := by
      rw [← hbe]
      exact sy
    obtain ⟨Nx, hNx⟩ := two_zpow_representable (ulp_exponent y + 52) (ulp_exponent x) (by omega)
    obtain ⟨Ny, hNy⟩ := two_zpow_representable (ulp_exponent y + 52) (ulp_exponent y) (by omega)
    exact (round_to_binary64_le x _ Nx hNx hxB).trans (le_round_to_binary64 y _ Ny hNy hBy)

theorem round_to_binary64_mono_neg (x y : ℚ) (hy : y < 0) (h : x ≤ y) :
    round_to_binary64 x ≤ round_to_binary64 y := by
  have hx : x < 0 := lt_of_le_of_lt h hy
  have habs : |y| ≤ |x| := by
    rw [abs_of_neg hx, abs_of_neg hy]
    linarith
  have hmono := ulp_exponent_mono y x (ne_of_lt hy) habs
  rcases eq_or_lt_of_le hmono with hu | hu
  · exact round_to_binary64_mono_same x y h hu.symm
  · have sy := (binary_exponent_spec y (ne_of_lt hy)).2
    have sx := (binary_exponent_spec x (ne_of_lt hx)).1
    rw [abs_of_neg hx] at sx
    rw [abs_of_neg hy] at sy
    have hux : ulp_exponent x = max (binary_exponent x) (-1022) - 52 := rfl
    have huy : ulp_exponent y = max (binary_exponent y) (-1022) - 52 := rfl
    have hbe : binary_exponent x = ulp_exponent x + 52 := by omega
    have hle : binary_exponent y + 1 ≤ ulp_exponent x + 52 := by omega
    have hyB : -(2 : ℚ) ^ (ulp_exponent x + 52) ≤ y := by
      have := lt_of_lt_of_le sy (zpow_le_zpow_right₀ (by norm_num : (1 : ℚ) ≤ 2) hle)
      linarith
    have hBx : x ≤ -(2 : ℚ) ^ (ulp_exponent x + 52) := by
      rw [← hbe]
      linarith
    obtain ⟨Nx, hNx⟩ := two_zpow_representable (ulp_exponent x + 52) (ulp_exponent x) (by omega)
    obtain ⟨Ny, hNy⟩ := two_zpow_representable (ulp_exponent x + 52) (ulp_exponent y) (by omega)
    have hNx2 : -(2 : ℚ) ^ (ulp_exponent x + 52) = ((-Nx : ℤ) : ℚ) * 2 ^ ulp_exponent x := by
      rw [hNx]
      push_cast
      ring
    have hNy2 : -(2 : ℚ) ^ (ulp_exponent x + 52) = ((-Ny : ℤ) : ℚ) * 2 ^ ulp_exponent y := by
      rw [hNy]
      push_cast
      ring
    exact (round_to_binary64_le x _ (-Nx) hNx2 hBx).trans
      (le_round_to_binary64 y _ (-Ny) hNy2 hyB)

/-- Rounding to binary64 is monotone. -/
theorem round_to_binary64_mono (x y : ℚ) (h : x ≤ y) :
    round_to_binary64 x ≤ round_to_binary64 y := by
  rcases lt_trichotomy 0 x with hx | hx | hx
  · exact round_to_binary64_mono_pos x y hx h
  · rw [← hx, round_to_binary64_zero]
    have := le_round_to_binary64 y 0 0 (by simp) (by rw [hx]; exact h)
    exact this
  · rcases lt_or_le y 0 with hy | hy
    · exact round_to_binary64_mono_neg x y hy h
    · have h1 := round_to_binary64_le x 0 0 (by simp) (le_of_lt hx)
      have h2 := le_round_to_binary64 y 0 0 (by simp) hy
      exact h1.trans h2

theorem round_half_away_mono (p q : ℚ) (h : p ≤ q) : round_half_away p ≤ round_half_away q := by
  unfold round_half_away
  split_ifs with h1 h2 h2
  · exact Int.floor_le_floor (by linarith)
  · exact absurd (h1.trans h) h2
  · have a1 : 0 ≤ ⌊-p + 1 / 2⌋ := Int.floor_nonneg.mpr (by linarith)
    have a2 : 0 ≤ ⌊q + 1 / 2⌋ := Int.floor_nonneg.mpr (by linarith)
    omega
  · have := Int.floor_le_floor (show -q + 1 / 2 ≤ -p + 1 / 2 by linarith)
    omega

theorem rounded_scaled_quotient_mono (a a' b : ℤ) (hb : 0 < b) (h : a ≤ a') :
    rounded_scaled_quotient a b ≤ rounded_scaled_quotient a' b := by
  unfold rounded_scaled_quotient
  apply round_half_away_mono
  apply round_to_binary64_mono
  apply mul_le_mul_of_nonneg_right _ (by norm_num)
  apply round_to_binary64_mono
  have hbq : (0 : ℚ) < b := by exact_mod_cast hb
  have haq : (a : ℚ) ≤ a' := by exact_mod_cast h
  exact div_le_div_of_nonneg_right haq (le_of_lt hbq)

/-- For a positive divisor and no wrap-around in the two subtractions, the value stored by one
iteration of `calculate_equalized_cdf` is the double-precision `round(...)` value, replaced by
`0` when negative, provided it is representable in `int`; the iteration is undefined
otherwise. -/
theorem equalized_value_float (c cdf_min total : ℤ)
    (ha1 : -2147483648 ≤ c - cdf_min) (ha2 : c - cdf_min ≤ 2147483647)
    (hb1 : 0 < total - cdf_min) (hb2 : total - cdf_min ≤ 2147483647) :
    equalized_value c cdf_min total =
      if -2147483648 ≤ rounded_scaled_quotient (c - cdf_min) (total - cdf_min) ∧
          rounded_scaled_quotient (c - cdf_min) (total - cdf_min) ≤ 2147483647
      then some (if rounded_scaled_quotient (c - cdf_min) (total - cdf_min) < 0 then 0
        else rounded_scaled_quotient (c - cdf_min) (total - cdf_min))
      else none := by
  have hbq : (0 : ℚ) < ((total - cdf_min : ℤ) : ℚ) := by exact_mod_cast hb1
  have hb1q : (1 : ℚ) ≤ ((total - cdf_min : ℤ) : ℚ) := by exact_mod_cast hb1
  have haq1 : -(2147483648 : ℚ) ≤ ((c - cdf_min : ℤ) : ℚ) := by exact_mod_cast ha1
  have haq2 : ((c - cdf_min : ℤ) : ℚ) ≤ 2147483647 := by exact_mod_cast ha2
  have hq : |((c - cdf_min : ℤ) : ℚ) / ((total - cdf_min : ℤ) : ℚ)| ≤ ((2147483648 : ℤ) : ℚ) := by
    rw [abs_div, abs_of_pos hbq, div_le_iff₀ hbq]
    have h48 : ((2147483648 : ℤ) : ℚ) = 2147483648 := by norm_num
    rw [h48]
    have : |((c - cdf_min : ℤ) : ℚ)| ≤ 2147483648 := by
      rw [abs_le]
      constructor <;> linarith
    nlinarith
  have hq2 := round_to_binary64_abs_le _ 2147483648 (by norm_num) hq
  have hm : |round_to_binary64 (((c - cdf_min : ℤ) : ℚ) / ((total - cdf_min : ℤ) : ℚ)) * 255|
      ≤ ((547608330240 : ℤ) : ℚ) := by
    rw [abs_mul]
    have : |(255 : ℚ)| = 255 := abs_of_pos (by norm_num)
    rw [this]
    push_cast at hq2 ⊢
    linarith
  unfold equalized_value
  rw [wrap32_of_range ha1 ha2, wrap32_of_range (by omega) hb2,
    of_int_finite _ ha1 ha2, of_int_finite _ (by omega) hb2, of_real_255,
    div_finite _ _ (ne_of_gt hbq), of_real_finite _ 2147483648 (by norm_num) hq,
    mul_finite, of_real_finite _ 547608330240 (by norm_num) hm, round_finite]
  have hR : round_half_away (round_to_binary64 (round_to_binary64
      (((c - cdf_min : ℤ) : ℚ) / ((total - cdf_min : ℤ) : ℚ)) * 255))
      = rounded_scaled_quotient (c - cdf_min) (total - cdf_min) := rfl
  rw [hR]
  generalize rounded_scaled_quotient (c - cdf_min) (total - cdf_min) = R
  unfold Double.to_int
  simp only [Int.floor_intCast, Int.ceil_intCast, ite_self]
  by_cases hr : -2147483648 ≤ R ∧ R ≤ 2147483647
  · rw [if_pos hr, if_pos (show INT_MIN ≤ R ∧ R ≤ INT_MAX from hr)]
    rfl
  · rw [if_neg hr, if_neg (show ¬(INT_MIN ≤ R ∧ R ≤ INT_MAX) from hr)]
    rfl

theorem sum_count_eq_countP {α : Type} [DecidableEq α] (s : Finset α) (l : List α) :
    ∑ j ∈ s, ((l.count j : Nat) : Int) = ((l.countP (fun x => decide (x ∈ s)) : Nat) : Int) := by
  induction l with
  | nil => simp
  | cons a l ih =>
    rw [List.countP_cons]
    simp only [List.count_cons, Nat.cast_add, Finset.sum_add_distrib, ih]
    congr 1
    by_cases hai : a ∈ s
    · simp [hai, Finset.sum_ite_eq]
    · simp [hai, Finset.sum_ite_eq]

theorem cumulative_sum_tally_countP (img : List UChar) (i : Fin 256) :
    cumulative_sum (tally img) i = ((img.countP (fun x => decide (x ≤ i)) : Nat) : Int) := by
  have h := sum_count_eq_countP (Finset.univ.filter (fun j : Fin 256 => j ≤ i)) img
  have hc : img.countP (fun x => decide (x ∈ Finset.univ.filter (fun j : Fin 256 => j ≤ i)))
      = img.countP (fun x => decide (x ≤ i)) := by
    apply List.countP_congr
    intro x _
    simp only [Finset.mem_filter, Finset.mem_univ, true_and]
  rw [hc] at h
  rw [← h]
  unfold cumulative_sum
  apply Finset.sum_congr rfl
  intro j _
  exact tally_get img j

theorem cumulative_sum_tally_below (img : List UChar) (m i : Fin 256)
    (hlow : ∀ x ∈ img, m ≤ x) (hi : i < m) : cumulative_sum (tally img) i = 0 := by
  rw [cumulative_sum_tally_countP]
  have : img.countP (fun x => decide (x ≤ i)) = 0 := by
    rw [List.countP_eq_zero]
    intro x hx
    have := hlow x hx
    simp only [decide_eq_true_eq, not_le]
    exact lt_of_lt_of_le hi this
  rw [this]
  rfl

theorem cumulative_sum_tally_lowest (img : List UChar) (m : Fin 256)
    (hlow : ∀ x ∈ img, m ≤ x) : cumulative_sum (tally img) m = ((img.count m : Nat) : Int) := by
  rw [cumulative_sum_tally_countP]
  congr 1
  unfold List.count
  apply List.countP_congr
  intro x hx
  have := hlow x hx
  simp only [decide_eq_true_eq, beq_iff_eq]
  constructor
  · intro h
    exact le_antisymm h this
  · intro h
    exact le_of_eq h

theorem cumulative_sum_tally_highest (img : List UChar) (M i : Fin 256)
    (hhigh : ∀ x ∈ img, x ≤ M) (hi : M ≤ i) :
    cumulative_sum (tally img) i = ((img.length : Nat) : Int) := by
  rw [cumulative_sum_tally_countP]
  congr 1
  rw [List.countP_eq_length]
  intro x hx
  simp only [decide_eq_true_eq]
  exact (hhigh x hx).trans hi

theorem cumulative_sum_tally_le_length (img : List UChar) (i : Fin 256) :
    cumulative_sum (tally img) i ≤ ((img.length : Nat) : Int) := by
  rw [cumulative_sum_tally_countP]
  exact_mod_cast List.countP_le_length _

theorem count_lowest_pos (img : List UChar) (m : Fin 256) (hm : m ∈ img) :
    (0 : Int) < ((img.count m : Nat) : Int) := by
  exact_mod_cast List.count_pos_iff.mpr hm

theorem count_lt_length (img : List UChar) (m x : Fin 256) (hx : x ∈ img) (hne : x ≠ m) :
    ((img.count m : Nat) : Int) < ((img.length : Nat) : Int) := by
  have h1 := List.length_eq_countP_add_countP (fun y => y == m) img
  have h2 : 0 < img.countP (fun y => decide ¬(y == m) = true) := by
    rw [List.countP_pos_iff]
    exact ⟨x, hx, by simpa using hne⟩
  have h3 : img.count m = img.countP (fun y => y == m) := rfl
  omega

theorem cumulative_sum_tally_ge_lowest (img : List UChar) (m i : Fin 256)
    (hlow : ∀ x ∈ img, m ≤ x) (hi : m ≤ i) :
    ((img.count m : Nat) : Int) ≤ cumulative_sum (tally img) i := by
  rw [← cumulative_sum_tally_lowest img m hlow]
  exact cumulative_sum_mono _ (tally_nonneg img) m i hi

/-- The value `calculate_cdf_min` returns on the CDF of a buffer is the number of occurrences of
the lowest level of the buffer. -/
theorem calculate_cdf_min_lowest (num_threads : Nat) (owner : Nat → Nat) (cdf : Table)
    (img : List UChar) (m : Fin 256) (hown : ∀ i, i < 256 → owner i < num_threads)
    (hcdf : ∀ i : Fin 256, cdf.get i = cumulative_sum (tally img) i)
    (hmax : img.length ≤ 2147483647) (hm : m ∈ img) (hlow : ∀ x ∈ img, m ≤ x) :
    calculate_cdf_min num_threads owner cdf = ((img.count m : Nat) : Int) := by
  obtain ⟨h1, h2, h3⟩ := calculate_cdf_min_spec num_threads owner cdf hown
  have hpos := count_lowest_pos img m hm
  have hcm : cdf.get m = ((img.count m : Nat) : Int) := by
    rw [hcdf, cumulative_sum_tally_lowest img m hlow]
  have hle : calculate_cdf_min num_threads owner cdf ≤ ((img.count m : Nat) : Int) := by
    rw [← hcm]
    apply h3
    rw [hcm]
    exact hpos
  have hlen := cumulative_sum_tally_le_length img m
  rw [cumulative_sum_tally_lowest img m hlow] at hlen
  have hmaxz : ((img.length : Nat) : Int) ≤ 2147483647 := by exact_mod_cast hmax
  rcases h2 with h2 | ⟨i, hi, hipos⟩
  · have : INT_MAX = 2147483647 := rfl
    omega
  · apply le_antisymm hle
    rw [← hi, hcdf]
    rcases lt_or_le i m with him | him
    · rw [← hi, hcdf, cumulative_sum_tally_below img m i hlow him] at hipos
      exact absurd hipos (lt_irrefl _)
    · exact cumulative_sum_tally_ge_lowest img m i hlow him

theorem exact_equalized_floor (c total : ℤ) : exact_equalized c c total = 0 := by
  unfold exact_equalized round_half_away
  simp
  norm_num

theorem exact_equalized_top (cdf_min total : ℤ) (h : cdf_min < total) :
    exact_equalized total cdf_min total = 255 := by
  have hq : ((total - cdf_min : ℤ) : ℚ) ≠ 0 := by
    have : total - cdf_min ≠ 0 := by omega
    exact_mod_cast this
  unfold exact_equalized round_half_away
  rw [div_self hq]
  norm_num

/-- The value stored for level `i` from the CDF of a buffer with at least two levels: defined for
every level from the lowest level `m` of the buffer on, and for the levels below `m` when
`count m ≤ 2^23 * (length - count m)`. -/
theorem equalized_value_of_buffer (img : List UChar) (m x i : Fin 256)
    (hmax : img.length ≤ 2147483647) (hlow : ∀ y ∈ img, m ≤ y)
    (hx : x ∈ img) (hxm : x ≠ m)
    (hi : m ≤ i ∨ ((img.count m : Nat) : Int)
      ≤ 8388608 * (((img.length : Nat) : Int) - ((img.count m : Nat) : Int))) :
    equalized_value (cumulative_sum (tally img) i) ((img.count m : Nat) : Int)
        ((img.length : Nat) : Int)
      = some (exact_equalized (cumulative_sum (tally img) i) ((img.count m : Nat) : Int)
          ((img.length : Nat) : Int)) := by
  have h0 := cumulative_sum_nonneg _ (tally_nonneg img) i
  have hlt := count_lt_length img m x hx hxm
  apply equalized_value_exact _ _ _ h0 (cumulative_sum_tally_le_length img i)
    (by exact_mod_cast hmax) (by exact_mod_cast Nat.zero_le _) hlt
  rcases hi with hi | hi
  · have := cumulative_sum_tally_ge_lowest img m i hlow hi
    omega
  · omega

theorem range_map_getD (image : List UChar) (n : Nat) (hn : n ≤ image.length)
    (g : UChar → UChar) :
    (List.range n).map (fun i => g (image.getD i 0)) = (image.take n).map g := by
  apply List.ext_getElem
  · simp [hn]
  · intro i h1 h2
    simp only [List.length_map, List.length_range] at h1
    simp [List.getD_eq_getElem?_getD, List.getElem?_eq_getElem (lt_of_lt_of_le h1 hn)]

theorem processed_samples_length (image : List UChar) (w h ch : Nat)
    (hlen : image.length = w * h * ch) :
    (processed_samples image w h ch).length = w * h * adjusted_channels ch := by
  unfold processed_samples
  rw [List.length_take, hlen]
  exact Nat.min_eq_left (Nat.mul_le_mul_left _ (adjusted_channels_le ch))

theorem run_pipeline_cdf_samples (S : Schedule) (image : List UChar) (w h ch : Nat)
    (out : List UChar) (hmax : w * h * adjusted_channels ch ≤ 2147483647)
    (hlen : image.length = w * h * ch) (hS : S.valid (w * h * adjusted_channels ch))
    (i : Fin 256) :
    (run_pipeline S image w h ch out).cdf.get i
      = cumulative_sum (tally (processed_samples image w h ch)) i :=
  run_pipeline_cdf_get S image w h ch out hmax hlen hS i

theorem run_pipeline_cdf_min_lowest (S : Schedule) (image : List UChar) (w h ch : Nat)
    (out : List UChar) (hmax : w * h * adjusted_channels ch ≤ 2147483647)
    (hlen : image.length = w * h * ch) (hS : S.valid (w * h * adjusted_channels ch))
    (m : UChar) (hm : m ∈ processed_samples image w h ch)
    (hlow : ∀ y ∈ processed_samples image w h ch, m ≤ y) :
    (run_pipeline S image w h ch out).cdf_min
      = (((processed_samples image w h ch).count m : Nat) : Int) := by
  rw [run_pipeline_cdf_min, ← run_pipeline_cdf S image w h ch out]
  apply calculate_cdf_min_lowest _ _ _ (processed_samples image w h ch) m hS.2.1
    (run_pipeline_cdf_samples S image w h ch out hmax hlen hS) _ hm hlow
  rw [processed_samples_length image w h ch hlen]
  exact hmax

theorem run_pipeline_total (image : List UChar) (w h ch : Nat)
    (hmax : w * h * adjusted_channels ch ≤ 2147483647) (hlen : image.length = w * h * ch) :
    total_pixels w h (adjusted_channels ch)
      = (((processed_samples image w h ch).length : Nat) : Int) := by
  rw [total_pixels_eq w h _ hmax, processed_samples_length image w h ch hlen]

/-- The map of a run on a buffer with at least two levels, when every iteration of
`calculate_equalized_cdf` is defined. -/
theorem run_pipeline_map_defined (S : Schedule) (image : List UChar) (w h ch : Nat)
    (out : List UChar) (hmax : w * h * adjusted_channels ch ≤ 2147483647)
    (hlen : image.length = w * h * ch) (hS : S.valid (w * h * adjusted_channels ch))
    (m x : UChar) (hm : m ∈ processed_samples image w h ch)
    (hlow : ∀ y ∈ processed_samples image w h ch, m ≤ y)
    (hx : x ∈ processed_samples image w h ch) (hxm : x ≠ m)
    (hdef : m = 0 ∨ (((processed_samples image w h ch).count m : Nat) : Int)
      ≤ 8388608 * ((((processed_samples image w h ch).length : Nat) : Int)
          - (((processed_samples image w h ch).count m : Nat) : Int))) :
    (run_pipeline S image w h ch out).equalized_cdf
      = some (Mathlib.Vector.ofFn fun i =>
          exact_equalized (cumulative_sum (tally (processed_samples image w h ch)) i)
            (((processed_samples image w h ch).count m : Nat) : Int)
            (((processed_samples image w h ch).length : Nat) : Int)) := by
  have hmin := run_pipeline_cdf_min_lowest S image w h ch out hmax hlen hS m hm hlow
  rw [run_pipeline_cdf_min, ← run_pipeline_cdf S image w h ch out] at hmin
  rw [run_pipeline_equalized_cdf, ← run_pipeline_cdf S image w h ch out, hmin,
    run_pipeline_total image w h ch hmax hlen]
  apply calculate_equalized_cdf_some _ _ _ _ _ _ _ hS.2.2.1
  intro i
  rw [run_pipeline_cdf_samples S image w h ch out hmax hlen hS i]
  apply equalized_value_of_buffer _ m x i _ hlow hx hxm
  · rcases hdef with h0 | hdef
    · left
      rw [h0]
      exact Fin.zero_le i
    · right
      exact hdef
  · rw [processed_samples_length image w h ch hlen]
    exact hmax

theorem calculate_equalized_cdf_entry (num_threads : Nat) (owner : Nat → Nat) (cdf : Table)
    (cdf_min total : Int) (eq0 map : Table) (hown : ∀ i, i < 256 → owner i < num_threads)
    (h : calculate_equalized_cdf num_threads owner cdf cdf_min total eq0 = some map)
    (i : Fin 256) : equalized_value (cdf.get i) cdf_min total = some (map.get i) := by
  by_cases hall : ∀ k : Fin 256, ∃ v, equalized_value (cdf.get k) cdf_min total = some v
  · choose f hf using hall
    rw [calculate_equalized_cdf_some num_threads owner cdf cdf_min total eq0 f hown hf] at h
    have hmap : Mathlib.Vector.ofFn f = map := Option.some.inj h
    rw [← hmap, Mathlib.Vector.get_ofFn]
    exact hf i
  · push_neg at hall
    obtain ⟨k, hk⟩ := hall
    have hnone : equalized_value (cdf.get k) cdf_min total = none := by
      cases hv : equalized_value (cdf.get k) cdf_min total with
      | none => rfl
      | some v => exact absurd hv (hk v)
    rw [calculate_equalized_cdf_none num_threads owner cdf cdf_min total eq0 k hown hnone] at h
    exact absurd h (by simp)

theorem rounded_scaled_quotient_zero (b : ℤ) : rounded_scaled_quotient 0 b = 0 := by
  unfold rounded_scaled_quotient
  simp only [Int.cast_zero, zero_div, round_to_binary64_zero, zero_mul]
  unfold round_half_away
  norm_num

/-- An iteration of `calculate_equalized_cdf` on an entry not above `cdf_min` stores `0` when it
is defined. -/
theorem equalized_value_below (c cdf_min total v : ℤ) (hc : c ≤ cdf_min)
    (ha1 : -2147483648 ≤ c - cdf_min)
    (hb1 : 0 < total - cdf_min) (hb2 : total - cdf_min ≤ 2147483647)
    (hv : equalized_value c cdf_min total = some v) : v = 0 := by
  rw [equalized_value_float c cdf_min total ha1 (by omega) hb1 hb2] at hv
  have hm := rounded_scaled_quotient_mono (c - cdf_min) 0 (total - cdf_min) hb1 (by omega)
  rw [rounded_scaled_quotient_zero] at hm
  split_ifs at hv <;> simp only [Option.some.injEq] at hv <;> omega

/-- An iteration of `calculate_equalized_cdf` is defined when the difference `c - cdf_min` is at
most `2^23` times the divisor in absolute value. -/
theorem equalized_value_defined (c cdf_min total : ℤ)
    (ha1 : -2147483648 ≤ c - cdf_min) (ha2 : c - cdf_min ≤ 2147483647)
    (hb1 : 0 < total - cdf_min) (hb2 : total - cdf_min ≤ 2147483647)
    (h1 : -(8388608 * (total - cdf_min)) ≤ c - cdf_min)
    (h2 : c - cdf_min ≤ 8388608 * (total - cdf_min)) :
    ∃ v, equalized_value c cdf_min total = some v := by
  have hbq : (0 : ℚ) < ((total - cdf_min : ℤ) : ℚ) := by exact_mod_cast hb1
  have hb1q : (1 : ℚ) ≤ ((total - cdf_min : ℤ) : ℚ) := by exact_mod_cast hb1
  have hb2q : ((total - cdf_min : ℤ) : ℚ) ≤ 2147483647 := by exact_mod_cast hb2
  have h1q : -(8388608 * ((total - cdf_min : ℤ) : ℚ)) ≤ ((c - cdf_min : ℤ) : ℚ) := by
    exact_mod_cast h1
  have h2q : ((c - cdf_min : ℤ) : ℚ) ≤ 8388608 * ((total - cdf_min : ℤ) : ℚ) := by
    exact_mod_cast h2
  have hq : |((c - cdf_min : ℤ) : ℚ) / ((total - cdf_min : ℤ) : ℚ)| ≤ ((8388608 : ℤ) : ℚ) := by
    rw [abs_div, abs_of_pos hbq, div_le_iff₀ hbq]
    have h48 : ((8388608 : ℤ) : ℚ) = 8388608 := by norm_num
    rw [h48, abs_le]
    constructor <;> linarith
  have hq2 := round_to_binary64_abs_le _ 8388608 (by norm_num) hq
  have hm : |round_to_binary64 (((c - cdf_min : ℤ) : ℚ) / ((total - cdf_min : ℤ) : ℚ)) * 255|
      ≤ ((2139095040 : ℤ) : ℚ) := by
    rw [abs_mul]
    have : |(255 : ℚ)| = 255 := abs_of_pos (by norm_num)
    rw [this]
    push_cast at hq2 ⊢
    linarith
  have hm2 := round_to_binary64_abs_le _ 2139095040 (by norm_num) hm
  rw [abs_le] at hm2
  have e1 : ((-2139095040 : ℤ) : ℚ) = -((2139095040 : ℤ) : ℚ) := by norm_num
  have hR2 : -2139095040 ≤ rounded_scaled_quotient (c - cdf_min) (total - cdf_min) ∧
      rounded_scaled_quotient (c - cdf_min) (total - cdf_min) ≤ 2139095040 :=
    round_half_away_bounds
      (round_to_binary64 (round_to_binary64
        (((c - cdf_min : ℤ) : ℚ) / ((total - cdf_min : ℤ) : ℚ)) * 255))
      (-2139095040) 2139095040 (by rw [e1]; exact hm2.1) hm2.2
  rw [equalized_value_float c cdf_min total ha1 ha2 hb1 hb2,
    if_pos ⟨by omega, by omega⟩]
  exact ⟨_, rfl⟩

theorem run_pipeline_image_of_map (S : Schedule) (image : List UChar) (w h ch : Nat)
    (out : List UChar) (hmax : w * h * adjusted_channels ch ≤ 2147483647)
    (hlen : image.length = w * h * ch) (hout : out.length = w * h * adjusted_channels ch)
    (hS : S.valid (w * h * adjusted_channels ch)) (map : Table)
    (hmap : (run_pipeline S image w h ch out).equalized_cdf = some map) :
    (run_pipeline S image w h ch out).equalized_image
      = some ((processed_samples image w h ch).map fun v => to_uchar (map.get v)) := by
  rw [run_pipeline_equalized_cdf] at hmap
  rw [run_pipeline_equalized_image, hmap, Option.map_some']
  apply congrArg some
  rw [(apply_equalization_spec S.num_threads S.apply_owner
    { input_image := image, output_image := out, equalized_cdf := map } w h
    (adjusted_channels ch) hmax hout hS.2.2.2).2.2]
  apply range_map_getD image _ _ (fun v => to_uchar (map.get v))
  rw [hlen]
  exact Nat.mul_le_mul_left _ (adjusted_channels_le ch)

theorem run_pipeline_entry (S : Schedule) (image : List UChar) (w h ch : Nat)
    (out : List UChar) (hS : S.valid (w * h * adjusted_channels ch)) (map : Table)
    (hmap : (run_pipeline S image w h ch out).equalized_cdf = some map) (i : Fin 256) :
    equalized_value ((run_pipeline S image w h ch out).cdf.get i)
      (run_pipeline S image w h ch out).cdf_min (total_pixels w h (adjusted_channels ch))
      = some (map.get i) := by
  rw [run_pipeline_equalized_cdf] at hmap
  have := calculate_equalized_cdf_entry _ _ _ _ _ _ map hS.2.2.1 hmap i
  rw [run_pipeline_cdf, run_pipeline_cdf_min]
  exact this

theorem run_pipeline_value_lowest (S : Schedule) (image : List UChar) (w h ch : Nat)
    (out : List UChar) (hmax : w * h * adjusted_channels ch ≤ 2147483647)
    (hlen : image.length = w * h * ch) (hS : S.valid (w * h * adjusted_channels ch))
    (m x : UChar) (hm : m ∈ processed_samples image w h ch)
    (hlow : ∀ y ∈ processed_samples image w h ch, m ≤ y)
    (hx : x ∈ processed_samples image w h ch) (hxm : x ≠ m) :
    equalized_value ((run_pipeline S image w h ch out).cdf.get m)
      (run_pipeline S image w h ch out).cdf_min (total_pixels w h (adjusted_channels ch))
      = some 0 := by
  have hPmax : (processed_samples image w h ch).length ≤ 2147483647 := by
    rw [processed_samples_length image w h ch hlen]
    exact hmax
  rw [run_pipeline_cdf_samples S image w h ch out hmax hlen hS,
    run_pipeline_cdf_min_lowest S image w h ch out hmax hlen hS m hm hlow,
    run_pipeline_total image w h ch hmax hlen,
    equalized_value_of_buffer _ m x m hPmax hlow hx hxm (Or.inl (le_refl m)),
    cumulative_sum_tally_lowest _ m hlow, exact_equalized_floor]

theorem run_pipeline_value_highest (S : Schedule) (image : List UChar) (w h ch : Nat)
    (out : List UChar) (hmax : w * h * adjusted_channels ch ≤ 2147483647)
    (hlen : image.length = w * h * ch) (hS : S.valid (w * h * adjusted_channels ch))
    (m M : UChar) (hm : m ∈ processed_samples image w h ch)
    (hlow : ∀ y ∈ processed_samples image w h ch, m ≤ y)
    (hM : M ∈ processed_samples image w h ch)
    (hhigh : ∀ y ∈ processed_samples image w h ch, y ≤ M) (hne : m ≠ M) :
    equalized_value ((run_pipeline S image w h ch out).cdf.get M)
      (run_pipeline S image w h ch out).cdf_min (total_pixels w h (adjusted_channels ch))
      = some 255 := by
  have hPmax : (processed_samples image w h ch).length ≤ 2147483647 := by
    rw [processed_samples_length image w h ch hlen]
    exact hmax
  rw [run_pipeline_cdf_samples S image w h ch out hmax hlen hS,
    run_pipeline_cdf_min_lowest S image w h ch out hmax hlen hS m hm hlow,
    run_pipeline_total image w h ch hmax hlen,
    equalized_value_of_buffer _ m M M hPmax hlow hM (Ne.symm hne) (Or.inl (hlow M hM)),
    cumulative_sum_tally_highest _ M M hhigh (le_refl M),
    exact_equalized_top _ _ (count_lt_length _ m M hM (Ne.symm hne))]

theorem map_getD_take (image : List UChar) (n i : Nat) (hn : n ≤ image.length) (hi : i < n)
    (g : UChar → UChar) : ((image.take n).map g).getD i 0 = g (image.getD i 0) := by
  have h1 : i < image.length := lt_of_lt_of_le hi hn
  simp [List.getD_eq_getElem?_getD, List.getElem?_eq_getElem h1, List.getElem?_take, hi]

/-- C12: for a buffer with at least two distinct sample values, with lowest level `m` and
highest level `M`, the iterations of `calculate_equalized_cdf` for `m` and for `M` store 0 and
255, so every map the run produces has `map[m] = 0` and `map[M] = 255`; the map is produced when
`m = 0` or `count m ≤ 2^23 * (n - count m)`; and a buffer whose only sample values are 0 and 255
is returned unchanged. -/
theorem lowest_to_0_highest_to_255 (S : Schedule) (image : List UChar) (w h ch : Nat)
    (out : List UChar) (hmax : w * h * adjusted_channels ch ≤ 2147483647)
    (hlen : image.length = w * h * ch) (hout : out.length = w * h * adjusted_channels ch)
    (hS : S.valid (w * h * adjusted_channels ch))
    (m M : UChar) (hm : m ∈ processed_samples image w h ch)
    (hlow : ∀ y ∈ processed_samples image w h ch, m ≤ y)
    (hM : M ∈ processed_samples image w h ch)
    (hhigh : ∀ y ∈ processed_samples image w h ch, y ≤ M) (hne : m ≠ M) :
    equalized_value ((run_pipeline S image w h ch out).cdf.get m)
        (run_pipeline S image w h ch out).cdf_min (total_pixels w h (adjusted_channels ch))
        = some 0 ∧
      equalized_value ((run_pipeline S image w h ch out).cdf.get M)
        (run_pipeline S image w h ch out).cdf_min (total_pixels w h (adjusted_channels ch))
        = some 255 ∧
      (∀ map : Table, (run_pipeline S image w h ch out).equalized_cdf = some map →
        map.get m = 0 ∧ map.get M = 255) ∧
      ((m = 0 ∨ (((processed_samples image w h ch).count m : Nat) : Int)
          ≤ 8388608 * ((((processed_samples image w h ch).length : Nat) : Int)
              - (((processed_samples image w h ch).count m : Nat) : Int))) →
        ∃ map : Table, (run_pipeline S image w h ch out).equalized_cdf = some map) ∧
      ((∀ y ∈ processed_samples image w h ch, y = 0 ∨ y = 255) →
        (run_pipeline S image w h ch out).equalized_image
          = some (processed_samples image w h ch)) := by
  have h1 := run_pipeline_value_lowest S image w h ch out hmax hlen hS m M hm hlow hM
    (Ne.symm hne)
  have h2 := run_pipeline_value_highest S image w h ch out hmax hlen hS m M hm hlow hM hhigh hne
  have h3 : ∀ map : Table, (run_pipeline S image w h ch out).equalized_cdf = some map →
      map.get m = 0 ∧ map.get M = 255 := by
    intro map hmap
    have e1 := run_pipeline_entry S image w h ch out hS map hmap m
    have e2 := run_pipeline_entry S image w h ch out hS map hmap M
    rw [h1] at e1
    rw [h2] at e2
    exact ⟨(Option.some.inj e1).symm, (Option.some.inj e2).symm⟩
  have h4 : (m = 0 ∨ (((processed_samples image w h ch).count m : Nat) : Int)
        ≤ 8388608 * ((((processed_samples image w h ch).length : Nat) : Int)
            - (((processed_samples image w h ch).count m : Nat) : Int))) →
      ∃ map : Table, (run_pipeline S image w h ch out).equalized_cdf = some map :=
    fun hdef => ⟨_, run_pipeline_map_defined S image w h ch out hmax hlen hS m M hm hlow hM
      (Ne.symm hne) hdef⟩
  refine ⟨h1, h2, h3, h4, ?_⟩
  intro honly
  have hmM : m ≤ M := hlow M hM
  have hm0 : m = 0 := by
    rcases honly m hm with h | h
    · exact h
    · rcases honly M hM with h' | h'
      · rw [h, h'] at hmM
        exact absurd hmM (by decide)
      · rw [h, h'] at hne
        exact absurd rfl hne
  have hM255 : M = 255 := by
    rcases honly M hM with h' | h'
    · rw [hm0, h'] at hne
      exact absurd rfl hne
    · exact h'
  obtain ⟨map, hmap⟩ := h4 (Or.inl hm0)
  obtain ⟨e1, e2⟩ := h3 map hmap
  rw [run_pipeline_image_of_map S image w h ch out hmax hlen hout hS map hmap]
  apply congrArg some
  have hid : ∀ y ∈ processed_samples image w h ch, to_uchar (map.get y) = y := by
    intro y hy
    rcases honly y hy with h | h
    · rw [h, ← hm0, e1, hm0]
      rfl
    · rw [h, ← hM255, e2, hM255]
      rfl
  rw [List.map_congr_left hid, List.map_id']

theorem uchar_le_255 (y : UChar) : y ≤ 255 := by
  have h := y.isLt
  have h3 : ((255 : Fin 256) : Nat) = 255 := rfl
  exact Fin.le_def.mpr (by omega)

theorem scenario_samples :
    processed_samples [0, 0, 0, 255] 2 2 1 = [0, 0, 0, 255] := rfl

theorem scenario_cdf (i : Fin 256) :
    (run_pipeline sequential_schedule [0, 0, 0, 255] 2 2 1 [0, 0, 0, 0]).cdf.get i
      = if i = 255 then 4 else 3 := by
  rw [run_pipeline_cdf_samples sequential_schedule [0, 0, 0, 255] 2 2 1 [0, 0, 0, 0]
    (by decide) rfl (sequential_schedule_valid _) i, scenario_samples,
    cumulative_sum_tally_countP]
  have h0 : (0 : Fin 256) ≤ i := Fin.zero_le i
  by_cases h : i = 255
  · rw [h]
    rfl
  · have h255 : ¬((255 : Fin 256) ≤ i) := by
      intro hle
      apply h
      apply Fin.ext
      have h1 := Fin.le_def.mp hle
      have h2 := i.isLt
      have h3 : ((255 : Fin 256) : Nat) = 255 := rfl
      omega
    rw [if_neg h]
    simp [List.countP_cons, h0, h255]

theorem lowest_to_0_highest_to_255_witness :
    2 * 2 * adjusted_channels 1 ≤ 2147483647 ∧
      ([0, 0, 0, 255] : List UChar).length = 2 * 2 * 1 ∧
      ([0, 0, 0, 0] : List UChar).length = 2 * 2 * adjusted_channels 1 ∧
      sequential_schedule.valid (2 * 2 * adjusted_channels 1) ∧
      (0 : UChar) ∈ processed_samples [0, 0, 0, 255] 2 2 1 ∧
      (∀ y ∈ processed_samples [0, 0, 0, 255] 2 2 1, (0 : UChar) ≤ y) ∧
      (255 : UChar) ∈ processed_samples [0, 0, 0, 255] 2 2 1 ∧
      (∀ y ∈ processed_samples [0, 0, 0, 255] 2 2 1, y ≤ (255 : UChar)) ∧
      (0 : UChar) ≠ 255 ∧
      (∀ y ∈ processed_samples [0, 0, 0, 255] 2 2 1, y = 0 ∨ y = 255) ∧
      (run_pipeline sequential_schedule [0, 0, 0, 255] 2 2 1 [0, 0, 0, 0]).histogram.get 0 = 3 ∧
      (run_pipeline sequential_schedule [0, 0, 0, 255] 2 2 1 [0, 0, 0, 0]).histogram.get 255
        = 1 ∧
      (∀ i : Fin 256,
        (run_pipeline sequential_schedule [0, 0, 0, 255] 2 2 1 [0, 0, 0, 0]).cdf.get i
          = if i = 255 then 4 else 3) ∧
      (run_pipeline sequential_schedule [0, 0, 0, 255] 2 2 1 [0, 0, 0, 0]).cdf_min = 3 ∧
      total_pixels 2 2 (adjusted_channels 1) = 4 ∧
      (∃ map : Table,
        (run_pipeline sequential_schedule [0, 0, 0, 255] 2 2 1 [0, 0, 0, 0]).equalized_cdf
          = some map ∧ map.get 0 = 0 ∧ map.get 255 = 255) ∧
      (run_pipeline sequential_schedule [0, 0, 0, 255] 2 2 1 [0, 0, 0, 0]).equalized_image
        = some [0, 0, 0, 255] := by
  have hall : ∀ y ∈ processed_samples [0, 0, 0, 255] 2 2 1, y = 0 ∨ y = 255 := by
    intro y hy
    rw [scenario_samples] at hy
    simp only [List.mem_cons, List.mem_singleton, List.not_mem_nil, or_false] at hy
    tauto
  have key := lowest_to_0_highest_to_255 sequential_schedule [0, 0, 0, 255] 2 2 1 [0, 0, 0, 0]
    (by decide) rfl rfl (sequential_schedule_valid _) 0 255 (by decide)
    (fun y _ => Fin.zero_le y) (by decide) (fun y _ => uchar_le_255 y) (by decide)
  obtain ⟨map, hmap⟩ := key.2.2.2.1 (Or.inl rfl)
  refine ⟨by decide, rfl, rfl, sequential_schedule_valid _, by decide,
    fun y _ => Fin.zero_le y, by decide, fun y _ => uchar_le_255 y, by decide, hall, ?_, ?_,
    scenario_cdf, ?_, rfl,
    ⟨map, hmap, key.2.2.1 map hmap⟩, key.2.2.2.2 hall⟩
  · rw [run_pipeline_histogram_tally sequential_schedule [0, 0, 0, 255] 2 2 1 [0, 0, 0, 0]
      (by decide) rfl (sequential_schedule_valid _), tally_get]
    rfl
  · rw [run_pipeline_histogram_tally sequential_schedule [0, 0, 0, 255] 2 2 1 [0, 0, 0, 0]
      (by decide) rfl (sequential_schedule_valid _), tally_get]
    rfl
  · rw [run_pipeline_cdf_min_lowest sequential_schedule [0, 0, 0, 255] 2 2 1 [0, 0, 0, 0]
      (by decide) rfl (sequential_schedule_valid _) 0 (by decide) (fun y _ => Fin.zero_le y)]
    rfl

/-- C19: for a non-empty buffer with lowest level `m`, `calculate_cdf_min` on the CDF of the
buffer's histogram returns `Histogram[m]`, the number of occurrences of `m` in the buffer, and
`CDF[i] = 0` for every level `i < m`. -/
theorem calculate_cdf_min_lowest_count (num_threads : Nat) (owner cdf_owner : Nat → Nat)
    (image : List UChar) (w h c : Nat) (cdf0 : Table) (m : UChar)
    (hmax : w * h * c ≤ 2147483647) (hlen : image.length = w * h * c)
    (hown : ∀ i, i < w * h * c → owner i < num_threads)
    (hcdf_own : ∀ i, i < 256 → cdf_owner i < num_threads)
    (hm : m ∈ image) (hlow : ∀ y ∈ image, m ≤ y) :
    calculate_cdf_min num_threads cdf_owner
        (calculate_cdf
          { histogram := calculate_histogram num_threads owner image w h c zero_table,
            cdf := cdf0 }).cdf
        = (calculate_histogram num_threads owner image w h c zero_table).get m ∧
      (calculate_histogram num_threads owner image w h c zero_table).get m
        = ((image.count m : Nat) : Int) ∧
      ∀ i : Fin 256, i < m →
        (calculate_cdf
          { histogram := calculate_histogram num_threads owner image w h c zero_table,
            cdf := cdf0 }).cdf.get i = 0 := by
  have hmax2 : image.length ≤ 2147483647 := by
    rw [hlen]
    exact hmax
  rw [calculate_histogram_eq_tally num_threads owner image w h c hmax hlen hown, tally_get]
  refine ⟨?_, rfl, ?_⟩
  · exact calculate_cdf_min_lowest _ _ _ image m hcdf_own
      (calculate_cdf_tally image cdf0 hmax2) hmax2 hm hlow
  · intro i hi
    rw [calculate_cdf_tally image cdf0 hmax2 i]
    exact cumulative_sum_tally_below image m i hlow hi

theorem calculate_cdf_min_lowest_count_witness :
    2 * 1 * 1 ≤ 2147483647 ∧ ([5, 9] : List UChar).length = 2 * 1 * 1 ∧
      (5 : UChar) ∈ ([5, 9] : List UChar) ∧ (∀ y ∈ ([5, 9] : List UChar), (5 : UChar) ≤ y) ∧
      calculate_cdf_min 1 (fun _ => 0)
        (calculate_cdf
          { histogram := calculate_histogram 1 (fun _ => 0) [5, 9] 2 1 1 zero_table,
            cdf := zero_table }).cdf = 1 := by
  have hlow : ∀ y ∈ ([5, 9] : List UChar), (5 : UChar) ≤ y := by
    intro y hy
    simp only [List.mem_cons, List.mem_singleton, List.not_mem_nil, or_false] at hy
    rcases hy with rfl | rfl <;> decide
  have key := calculate_cdf_min_lowest_count 1 (fun _ => 0) (fun _ => 0) [5, 9] 2 1 1
    zero_table 5 (by decide) rfl (fun _ _ => Nat.zero_lt_one) (fun _ _ => Nat.zero_lt_one)
    (by decide) hlow
  refine ⟨by decide, rfl, by decide, hlow, ?_⟩
  rw [key.1, key.2.1]
  rfl

/-! ## Order preservation -/

theorem calculate_equalized_cdf_defined (num_threads : Nat) (owner : Nat → Nat) (cdf : Table)
    (cdf_min total : Int) (eq0 : Table) (hown : ∀ i, i < 256 → owner i < num_threads)
    (hlt : cdf_min < total)
    (hsub : ∀ i : Fin 256, -2147483648 ≤ cdf.get i - cdf_min
      ∧ cdf.get i - cdf_min ≤ 2147483647)
    (htot : total - cdf_min ≤ 2147483647)
    (hdef : ∀ i : Fin 256, -(8388608 * (total - cdf_min)) ≤ cdf.get i - cdf_min
      ∧ cdf.get i - cdf_min ≤ 8388608 * (total - cdf_min)) :
    ∃ map : Table,
      calculate_equalized_cdf num_threads owner cdf cdf_min total eq0 = some map := by
  have hall : ∀ i : Fin 256, ∃ v, equalized_value (cdf.get i) cdf_min total = some v :=
    fun i => equalized_value_defined (cdf.get i) cdf_min total (hsub i).1 (hsub i).2
      (by omega) htot (hdef i).1 (hdef i).2
  choose f hf using hall
  exact ⟨_, calculate_equalized_cdf_some num_threads owner cdf cdf_min total eq0 f hown hf⟩

theorem cumulative_sum_flat (k : Int) (n : Nat) (hn : n < 256) :
    cumulative_sum (Mathlib.Vector.replicate 256 k) ⟨n, hn⟩ = ((n : Int) + 1) * k := by
  induction n with
  | zero =>
    have : (⟨0, hn⟩ : Fin 256) = 0 := rfl
    rw [this, cumulative_sum_zero, Mathlib.Vector.get_replicate]
    simp
  | succ a ih =>
    rw [cumulative_sum_succ _ ⟨a, by omega⟩ ⟨a + 1, hn⟩ rfl, ih (by omega),
      Mathlib.Vector.get_replicate]
    push_cast
    ring

theorem round_half_away_natCast (n : Nat) : round_half_away (n : ℚ) = n := by
  have h0 : (0 : ℚ) ≤ n := Nat.cast_nonneg n
  rw [round_half_away_nonneg _ h0, Int.floor_eq_iff]
  push_cast
  constructor <;> linarith

theorem exact_equalized_flat (k : Int) (hk : 1 ≤ k) (i : Nat) :
    exact_equalized (((i : Int) + 1) * k) k (256 * k) = i := by
  have hkq : (k : ℚ) ≠ 0 := by
    have : k ≠ 0 := by omega
    exact_mod_cast this
  have hq : ((((i : Int) + 1) * k - k : Int) : ℚ) / ((256 * k - k : Int) : ℚ) * 255
      = ((i : Nat) : ℚ) := by
    have e1 : ((((i : Int) + 1) * k - k : Int) : ℚ) = (i : ℚ) * k := by
      push_cast
      ring
    have e2 : ((256 * k - k : Int) : ℚ) = 255 * k := by
      push_cast
      ring
    rw [e1, e2]
    field_simp
    ring
  unfold exact_equalized
  rw [hq, round_half_away_natCast]
  exact max_eq_right (by exact_mod_cast Nat.zero_le i)

theorem to_uchar_val (v : UChar) : to_uchar ((v.val : Nat) : Int) = v := by
  apply Fin.ext
  have h := to_uchar_of_range ((v.val : Nat) : Int) (by exact_mod_cast Nat.zero_le _)
    (by have := v.isLt; omega)
  exact_mod_cast h

/-- C13: for every `k ≥ 1` (with `256 * k` representable as `int`), `calculate_cdf`,
`calculate_cdf_min` and `calculate_equalized_cdf` on the flat histogram `Histogram[i] = k`,
with `total_samples = 256 * k`, give `CDF[i] = (i + 1) * k`, `cdf_min = k` and the identity map
`map[i] = i`; so `apply_equalization` with that map returns every buffer unchanged. -/
theorem flat_histogram_identity_map (num_threads : Nat) (min_owner eq_owner : Nat → Nat)
    (k : Int) (cdf0 eq0 : Table) (hk : 1 ≤ k) (hmax : 256 * k ≤ 2147483647)
    (hmin_own : ∀ i, i < 256 → min_owner i < num_threads)
    (heq_own : ∀ i, i < 256 → eq_owner i < num_threads) :
    (∀ i : Fin 256,
        (calculate_cdf { histogram := Mathlib.Vector.replicate 256 k, cdf := cdf0 }).cdf.get i
          = ((i.val : Int) + 1) * k) ∧
      calculate_cdf_min num_threads min_owner
        (calculate_cdf { histogram := Mathlib.Vector.replicate 256 k, cdf := cdf0 }).cdf = k ∧
      ∃ map : Table,
        calculate_equalized_cdf num_threads eq_owner
          (calculate_cdf { histogram := Mathlib.Vector.replicate 256 k, cdf := cdf0 }).cdf
          (calculate_cdf_min num_threads min_owner
            (calculate_cdf { histogram := Mathlib.Vector.replicate 256 k, cdf := cdf0 }).cdf)
          (256 * k) eq0 = some map ∧
        (∀ i : Fin 256, map.get i = (i.val : Int)) ∧
        ∀ (owner : Nat → Nat) (image out : List UChar) (w h c : Nat),
          w * h * c ≤ 2147483647 → image.length = w * h * c → out.length = w * h * c →
          (∀ i, i < w * h * c → owner i < num_threads) →
          (apply_equalization num_threads owner
            { input_image := image, output_image := out, equalized_cdf := map }
            w h c).output_image = image := by
  have hsum : ∀ i : Fin 256, cumulative_sum (Mathlib.Vector.replicate 256 k) i
      = ((i.val : Int) + 1) * k := fun i => cumulative_sum_flat k i.val i.isLt
  have hbound : ∀ i : Fin 256, k ≤ ((i.val : Int) + 1) * k ∧ ((i.val : Int) + 1) * k ≤ 256 * k := by
    intro i
    have h1 : (0 : Int) ≤ (i.val : Int) := by exact_mod_cast Nat.zero_le _
    have h2 : (i.val : Int) + 1 ≤ 256 := by exact_mod_cast i.isLt
    constructor
    · nlinarith
    · exact mul_le_mul_of_nonneg_right h2 (by omega)
  have hcdf : ∀ i : Fin 256,
      (calculate_cdf { histogram := Mathlib.Vector.replicate 256 k, cdf := cdf0 }).cdf.get i
        = ((i.val : Int) + 1) * k := by
    intro i
    rw [(calculate_cdf_fields (Mathlib.Vector.replicate 256 k) cdf0 (fun j => by
      rw [hsum j]
      have := hbound j
      omega)).2 i, hsum i]
  have hmin : calculate_cdf_min num_threads min_owner
      (calculate_cdf { histogram := Mathlib.Vector.replicate 256 k, cdf := cdf0 }).cdf = k := by
    obtain ⟨_, h2, h3⟩ := calculate_cdf_min_spec num_threads min_owner
      (calculate_cdf { histogram := Mathlib.Vector.replicate 256 k, cdf := cdf0 }).cdf hmin_own
    have h01 : (((0 : Fin 256).val : Int) + 1) * k = k := by
      have : ((0 : Fin 256).val : Int) = 0 := rfl
      rw [this]
      ring
    have hle2 := h3 0 (by rw [hcdf 0, h01]; omega)
    rw [hcdf 0, h01] at hle2
    rcases h2 with h2 | ⟨i, hi, _⟩
    · have : INT_MAX = 2147483647 := rfl
      omega
    · apply le_antisymm hle2
      rw [← hi, hcdf i]
      exact (hbound i).1
  refine ⟨hcdf, hmin, Mathlib.Vector.ofFn (fun i : Fin 256 => (i.val : Int)), ?_, ?_, ?_⟩
  · rw [hmin]
    apply calculate_equalized_cdf_some _ _ _ _ _ _ _ heq_own
    intro i
    rw [hcdf i, equalized_value_exact _ k (256 * k) (by have := hbound i; omega) (hbound i).2
      hmax (by omega) (by omega) (by have := hbound i; omega)]
    exact congrArg some (exact_equalized_flat k hk i.val)
  · intro i
    rw [Mathlib.Vector.get_ofFn]
  · intro owner image out w h c hm hl ho hown
    rw [(apply_equalization_spec num_threads owner
      { input_image := image, output_image := out,
        equalized_cdf := Mathlib.Vector.ofFn (fun i : Fin 256 => (i.val : Int)) }
      w h c hm ho hown).2.2]
    have hmapid : (fun i => to_uchar ((Mathlib.Vector.ofFn
        (fun i : Fin 256 => (i.val : Int))).get (image.getD i 0)))
        = fun i => (fun v : UChar => v) (image.getD i 0) := by
      funext i
      rw [Mathlib.Vector.get_ofFn]
      exact to_uchar_val _
    rw [hmapid, range_map_getD image _ (le_of_eq hl.symm) (fun v => v), List.map_id',
      ← hl, List.take_length]

theorem flat_histogram_identity_map_witness :
    (1 : Int) ≤ 3 ∧ (256 : Int) * 3 ≤ 2147483647 ∧
      (∀ i, i < 256 → (fun _ : Nat => 0) i < 1) ∧
      calculate_cdf_min 1 (fun _ => 0)
        (calculate_cdf { histogram := Mathlib.Vector.replicate 256 3, cdf := zero_table }).cdf
        = 3 :=
  ⟨by decide, by decide, fun _ _ => Nat.zero_lt_one,
    (flat_histogram_identity_map 1 (fun _ => 0) (fun _ => 0) 3 zero_table zero_table
      (by decide) (by decide) (fun _ _ => Nat.zero_lt_one) (fun _ _ => Nat.zero_lt_one)).2.1⟩

/-! ## The histogram of the equalized buffer -/

theorem count_map_eq_sum (l : List UChar) (f : UChar → UChar) (v : UChar) :
    (((l.map f).count v : Nat) : Int)
      = ∑ u ∈ Finset.univ.filter (fun u : Fin 256 => f u = v), ((l.count u : Nat) : Int) := by
  have h := sum_count_eq_countP (Finset.univ.filter (fun u : Fin 256 => f u = v)) l
  rw [h]
  apply congrArg Nat.cast
  unfold List.count
  rw [List.countP_map]
  apply List.countP_congr
  intro x _
  simp only [Function.comp_apply, beq_iff_eq, Finset.mem_filter, Finset.mem_univ, true_and,
    decide_eq_true_eq]

theorem to_uchar_eq_iff (x : Int) (v : UChar) (h0 : 0 ≤ x) (h1 : x ≤ 255) :
    to_uchar x = v ↔ x = ((v.val : Nat) : Int) := by
  constructor
  · intro h
    rw [← h]
    exact (to_uchar_of_range x h0 h1).symm
  · intro h
    rw [h]
    exact to_uchar_val v

theorem apply_equalization_map (num_threads : Nat) (owner : Nat → Nat)
    (image out : List UChar) (map : Table) (w h c : Nat) (hmax : w * h * c ≤ 2147483647)
    (hlen : image.length = w * h * c) (hout : out.length = w * h * c)
    (hown : ∀ i, i < w * h * c → owner i < num_threads) :
    (apply_equalization num_threads owner
      { input_image := image, output_image := out, equalized_cdf := map } w h c).output_image
      = image.map fun v => to_uchar (map.get v) := by
  rw [(apply_equalization_spec num_threads owner
    { input_image := image, output_image := out, equalized_cdf := map }
    w h c hmax hout hown).2.2]
  rw [range_map_getD image _ (le_of_eq hlen.symm) (fun v => to_uchar (map.get v)), ← hlen,
    List.take_length]

/-- C20: for every input buffer and every map with all entries in `[0, 255]`, the histogram of
the buffer that `apply_equalization` produces is the push-forward of the input histogram:
`equalized_histogram[v]` is the sum of `original_histogram[u]` over the levels `u` with
`map[u] = v`, and both histograms have the same total. -/
theorem equalized_histogram_push_forward (num_threads : Nat)
    (apply_owner hist_owner eq_hist_owner : Nat → Nat) (image out : List UChar) (map : Table)
    (w h c : Nat) (hmax : w * h * c ≤ 2147483647)
    (hlen : image.length = w * h * c) (hout : out.length = w * h * c)
    (happly : ∀ i, i < w * h * c → apply_owner i < num_threads)
    (hhist : ∀ i, i < w * h * c → hist_owner i < num_threads)
    (heq_hist : ∀ i, i < w * h * c → eq_hist_owner i < num_threads)
    (hmap : ∀ i : Fin 256, 0 ≤ map.get i ∧ map.get i ≤ 255) :
    (∀ v : Fin 256,
        (calculate_histogram num_threads eq_hist_owner
          (apply_equalization num_threads apply_owner
            { input_image := image, output_image := out, equalized_cdf := map }
            w h c).output_image w h c zero_table).get v
          = ∑ u ∈ Finset.univ.filter (fun u : Fin 256 => map.get u = ((v.val : Nat) : Int)),
              (calculate_histogram num_threads hist_owner image w h c zero_table).get u) ∧
      ∑ v : Fin 256,
          (calculate_histogram num_threads eq_hist_owner
            (apply_equalization num_threads apply_owner
              { input_image := image, output_image := out, equalized_cdf := map }
              w h c).output_image w h c zero_table).get v
        = ∑ u : Fin 256,
            (calculate_histogram num_threads hist_owner image w h c zero_table).get u := by
  have hlen2 : (image.map fun v => to_uchar (map.get v)).length = w * h * c := by
    rw [List.length_map]
    exact hlen
  rw [apply_equalization_map num_threads apply_owner image out map w h c hmax hlen hout happly,
    calculate_histogram_eq_tally num_threads eq_hist_owner _ w h c hmax hlen2 heq_hist,
    calculate_histogram_eq_tally num_threads hist_owner image w h c hmax hlen hhist]
  constructor
  · intro v
    rw [tally_get, count_map_eq_sum]
    have hfilter : Finset.univ.filter (fun u : Fin 256 => to_uchar (map.get u) = v)
        = Finset.univ.filter (fun u : Fin 256 => map.get u = ((v.val : Nat) : Int)) := by
      apply Finset.filter_congr
      intro u _
      exact to_uchar_eq_iff (map.get u) v (hmap u).1 (hmap u).2
    rw [hfilter]
    apply Finset.sum_congr rfl
    intro u _
    rw [tally_get]
  · have e1 : ∀ l : List UChar, ∑ v : Fin 256, (tally l).get v = ((l.length : Nat) : Int) := by
      intro l
      rw [← sum_count_eq_length l]
      apply Finset.sum_congr rfl
      intro u _
      rw [tally_get]
    rw [e1, e1, List.length_map]

theorem equalized_histogram_push_forward_witness :
    2 * 1 * 1 ≤ 2147483647 ∧ ([5, 9] : List UChar).length = 2 * 1 * 1 ∧
      ([0, 0] : List UChar).length = 2 * 1 * 1 ∧
      (∀ i : Fin 256, 0 ≤ (Mathlib.Vector.replicate 256 (7 : Int)).get i
        ∧ (Mathlib.Vector.replicate 256 (7 : Int)).get i ≤ 255) ∧
      ∑ v : Fin 256,
          (calculate_histogram 1 (fun _ => 0)
            (apply_equalization 1 (fun _ => 0)
              { input_image := [5, 9], output_image := [0, 0],
                equalized_cdf := Mathlib.Vector.replicate 256 7 }
              2 1 1).output_image 2 1 1 zero_table).get v
        = ∑ u : Fin 256, (calculate_histogram 1 (fun _ => 0) [5, 9] 2 1 1 zero_table).get u :=
  ⟨by decide, rfl, rfl, fun i => by rw [Mathlib.Vector.get_replicate]; decide,
    (equalized_histogram_push_forward 1 (fun _ => 0) (fun _ => 0) (fun _ => 0) [5, 9] [0, 0]
      (Mathlib.Vector.replicate 256 7) 2 1 1 (by decide) rfl rfl (fun _ _ => Nat.zero_lt_one)
      (fun _ _ => Nat.zero_lt_one) (fun _ _ => Nat.zero_lt_one)
      (fun i => by rw [Mathlib.Vector.get_replicate]; decide)).2⟩

/-! ## Four-channel images -/

theorem rgba_processed :
    processed_samples [10, 20, 30, 255, 40, 50, 60, 255] 2 1 4 = [10, 20, 30, 255, 40, 50] :=
  rfl

/-- C14, the run of the code on a 2x1 RGBA image with pixels `(10, 20, 30, 255)` and
`(40, 50, 60, 255)`: the pipeline reads the first `2 * 1 * 3 = 6` samples of the interleaved
buffer, so the alpha sample 255 of the first pixel is counted and transformed and the blue
sample 60 of the second pixel is not, whereas the colour samples of the image contain 60 once
and 255 never. -/
theorem rgba_alpha_sample_counted :
    (run_pipeline sequential_schedule [10, 20, 30, 255, 40, 50, 60, 255] 2 1 4
        [0, 0, 0, 0, 0, 0]).histogram.get 255 = 1 ∧
      (tally (rgb_samples [10, 20, 30, 255, 40, 50, 60, 255])).get 255 = 0 ∧
      (run_pipeline sequential_schedule [10, 20, 30, 255, 40, 50, 60, 255] 2 1 4
        [0, 0, 0, 0, 0, 0]).histogram.get 60 = 0 ∧
      (tally (rgb_samples [10, 20, 30, 255, 40, 50, 60, 255])).get 60 = 1 ∧
      (run_pipeline sequential_schedule [10, 20, 30, 255, 40, 50, 60, 255] 2 1 4
        [0, 0, 0, 0, 0, 0]).equalized_image = some [0, 51, 102, 255, 153, 204] := by
  have hh := run_pipeline_histogram_tally sequential_schedule
    [10, 20, 30, 255, 40, 50, 60, 255] 2 1 4 [0, 0, 0, 0, 0, 0] (by decide) rfl
    (sequential_schedule_valid _)
  have hlow : ∀ y ∈ processed_samples [10, 20, 30, 255, 40, 50, 60, 255] 2 1 4,
      (10 : UChar) ≤ y := by
    intro y hy
    rw [rgba_processed] at hy
    simp only [List.mem_cons, List.mem_singleton, List.not_mem_nil, or_false] at hy
    rcases hy with rfl | rfl | rfl | rfl | rfl | rfl <;> decide
  have hmap := run_pipeline_map_defined sequential_schedule
    [10, 20, 30, 255, 40, 50, 60, 255] 2 1 4 [0, 0, 0, 0, 0, 0] (by decide) rfl
    (sequential_schedule_valid _) 10 20 (by decide) hlow (by decide) (by decide)
    (Or.inr (by decide))
  refine ⟨?_, ?_, ?_, ?_, ?_⟩
  · rw [hh, tally_get]
    rfl
  · rw [tally_get]
    rfl
  · rw [hh, tally_get]
    rfl
  · rw [tally_get]
    rfl
  · rw [run_pipeline_image_of_map sequential_schedule [10, 20, 30, 255, 40, 50, 60, 255] 2 1 4
      [0, 0, 0, 0, 0, 0] (by decide) rfl rfl (sequential_schedule_valid _) _ hmap,
      rgba_processed]
    apply congrArg some
    simp only [List.map_cons, List.map_nil, Mathlib.Vector.get_ofFn,
      cumulative_sum_tally_countP]
    decide!

/-! ## The histogram image -/

theorem fin_ofNat_val (i : Fin 256) : (Fin.ofNat i.val : Fin 256) = i :=
  Fin.ext (Nat.mod_eq_of_lt i.isLt)

theorem max_value_fold (histogram : Table) (init : Int) (n : Nat) :
    init ≤ (List.range n).foldl (max_value_step histogram) init ∧
      (∀ i, i < n → histogram.get (Fin.ofNat i)
        ≤ (List.range n).foldl (max_value_step histogram) init) ∧
      ((List.range n).foldl (max_value_step histogram) init = init ∨
        ∃ i, i < n ∧ (List.range n).foldl (max_value_step histogram) init
          = histogram.get (Fin.ofNat i)) := by
  induction n with
  | zero =>
    refine ⟨le_refl _, ?_, Or.inl rfl⟩
    intro i hi
    exact absurd hi (Nat.not_lt_zero i)
  | succ a ih =>
    obtain ⟨h1, h2, h3⟩ := ih
    rw [List.range_succ, List.foldl_append, List.foldl_cons, List.foldl_nil]
    generalize (List.range a).foldl (max_value_step histogram) init = r at h1 h2 h3
    unfold max_value_step
    by_cases hgt : histogram.get (Fin.ofNat a) > r
    · rw [if_pos hgt]
      refine ⟨by omega, ?_, Or.inr ⟨a, Nat.lt_succ_self a, rfl⟩⟩
      intro i hi
      rcases Nat.lt_succ_iff_lt_or_eq.mp hi with hlt | heq
      · have := h2 i hlt
        omega
      · rw [heq]
    · rw [if_neg hgt]
      refine ⟨h1, ?_, ?_⟩
      · intro i hi
        rcases Nat.lt_succ_iff_lt_or_eq.mp hi with hlt | heq
        · exact h2 i hlt
        · rw [heq]
          omega
      · rcases h3 with h3 | ⟨i, hi, h3⟩
        · exact Or.inl h3
        · exact Or.inr ⟨i, Nat.lt_succ_of_lt hi, h3⟩

/-- The variable `max_value` is at least 1 and at least every entry; it is an entry of the
histogram when some entry is positive, and `1` otherwise. -/
theorem max_value_spec (histogram : Table) :
    1 ≤ max_value histogram ∧ (∀ i : Fin 256, histogram.get i ≤ max_value histogram) ∧
      ((∃ i : Fin 256, 0 < histogram.get i) →
        ∃ i : Fin 256, histogram.get i = max_value histogram) ∧
      ((∀ i : Fin 256, histogram.get i ≤ 0) → max_value histogram = 1) := by
  obtain ⟨h1, h2, h3⟩ := max_value_fold histogram 0 256
  unfold max_value
  generalize (List.range 256).foldl (max_value_step histogram) 0 = r at h1 h2 h3
  have hle : ∀ i : Fin 256, histogram.get i ≤ r := by
    intro i
    have := h2 i.val i.isLt
    rw [fin_ofNat_val] at this
    exact this
  by_cases hr : r = 0
  · rw [if_pos hr]
    refine ⟨le_refl _, ?_, ?_, fun _ => rfl⟩
    · intro i
      have := hle i
      omega
    · rintro ⟨i, hi⟩
      have := hle i
      omega
  · rw [if_neg hr]
    refine ⟨by omega, hle, ?_, ?_⟩
    · intro _
      rcases h3 with h3 | ⟨i, _, h3⟩
      · exact absurd h3 hr
      · exact ⟨Fin.ofNat i, h3.symm⟩
    · intro hall
      rcases h3 with h3 | ⟨i, _, h3⟩
      · exact absurd h3 hr
      · have := hall (Fin.ofNat i)
        omega

/-- The variable `bar_height` for a count `0 ≤ value ≤ max_value`: the double-precision quotient
times 199, truncated; it lies in `0 .. 199`. -/
theorem bar_height_spec (value max : Int) (hv0 : 0 ≤ value) (hvm : value ≤ max)
    (hm1 : 1 ≤ max) (hmax : max ≤ 2147483647) :
    bar_height value max
        = some ⌊round_to_binary64 (round_to_binary64 ((value : ℚ) / (max : ℚ)) * 199)⌋ ∧
      0 ≤ ⌊round_to_binary64 (round_to_binary64 ((value : ℚ) / (max : ℚ)) * 199)⌋ ∧
      ⌊round_to_binary64 (round_to_binary64 ((value : ℚ) / (max : ℚ)) * 199)⌋ ≤ 199 := by
  have hmq : (0 : ℚ) < (max : ℚ) := by exact_mod_cast (by omega : 0 < max)
  have hvq : (0 : ℚ) ≤ (value : ℚ) := by exact_mod_cast hv0
  have hvmq : (value : ℚ) ≤ (max : ℚ) := by exact_mod_cast hvm
  have hx0 : (0 : ℚ) ≤ (value : ℚ) / (max : ℚ) := div_nonneg hvq (le_of_lt hmq)
  have hx1 : (value : ℚ) / (max : ℚ) ≤ 1 := (div_le_one hmq).mpr hvmq
  have habs : |(value : ℚ) / (max : ℚ)| < 2 ^ (1 : ℤ) := by
    rw [abs_of_nonneg hx0]
    norm_num
    linarith
  have hq0 : (0 : ℚ) ≤ round_to_binary64 ((value : ℚ) / (max : ℚ)) := by
    have := int_le_round_to_binary64 _ 0 1 (by norm_num) (by norm_num) habs
      (by push_cast; exact hx0)
    exact_mod_cast this
  have hq1 : round_to_binary64 ((value : ℚ) / (max : ℚ)) ≤ 1 := by
    have := round_to_binary64_le_int _ 1 1 (by norm_num) (by norm_num) habs
      (by push_cast; exact hx1)
    exact_mod_cast this
  have habs2 : |round_to_binary64 ((value : ℚ) / (max : ℚ)) * 199| < 2 ^ (8 : ℤ) := by
    rw [abs_of_nonneg (by positivity)]
    norm_num
    linarith
  have hp0 : (0 : ℚ) ≤ round_to_binary64 (round_to_binary64 ((value : ℚ) / (max : ℚ)) * 199) := by
    have := int_le_round_to_binary64 _ 0 8 (by norm_num) (by norm_num) habs2
      (by push_cast; positivity)
    exact_mod_cast this
  have hp1 : round_to_binary64 (round_to_binary64 ((value : ℚ) / (max : ℚ)) * 199) ≤ 199 := by
    have := round_to_binary64_le_int _ 199 8 (by norm_num) (by norm_num) habs2
      (by push_cast; linarith)
    exact_mod_cast this
  have hf0 : 0 ≤ ⌊round_to_binary64 (round_to_binary64 ((value : ℚ) / (max : ℚ)) * 199)⌋ :=
    Int.floor_nonneg.mpr hp0
  have hf1 : ⌊round_to_binary64 (round_to_binary64 ((value : ℚ) / (max : ℚ)) * 199)⌋ ≤ 199 := by
    have := Int.floor_le_floor hp1
    rw [show ⌊(199 : ℚ)⌋ = 199 from Int.floor_eq_iff.mpr ⟨by norm_num, by norm_num⟩] at this
    exact this
  refine ⟨?_, hf0, hf1⟩
  have h199 : Double.of_int (200 - 1) = Double.finite 199 := by
    have := of_int_finite (200 - 1) (by norm_num) (by norm_num)
    rw [this]
    norm_num
  unfold bar_height
  rw [of_int_finite value (by omega) (by omega), of_int_finite max (by omega) hmax, h199,
    div_finite _ _ (ne_of_gt hmq),
    of_real_finite _ 1 (by norm_num) (by
      rw [abs_of_nonneg hx0]
      push_cast
      exact hx1),
    mul_finite,
    of_real_finite _ 199 (by norm_num) (by
      rw [abs_of_nonneg (by positivity)]
      push_cast
      linarith)]
  simp only [Double.to_int, if_pos hp0]
  have : INT_MIN ≤ ⌊round_to_binary64 (round_to_binary64 ((value : ℚ) / (max : ℚ)) * 199)⌋ ∧
      ⌊round_to_binary64 (round_to_binary64 ((value : ℚ) / (max : ℚ)) * 199)⌋ ≤ INT_MAX := by
    have e1 : INT_MIN = -2147483648 := rfl
    have e2 : INT_MAX = 2147483647 := rfl
    constructor <;> omega
  rw [if_pos this]

theorem getD_set (l : List UChar) (i j : Nat) (a : UChar) (hi : i < l.length) :
    (l.set i a).getD j 0 = if j = i then a else l.getD j 0 := by
  rw [List.getD_eq_getElem?_getD, List.getD_eq_getElem?_getD, List.getElem?_set]
  by_cases hji : j = i
  · rw [if_pos hji.symm, if_pos hji, if_pos hi]
    rfl
  · rw [if_neg (Ne.symm hji), if_neg hji]

theorem draw_pixels_spec (x : Nat) (hx : x < 256) (image : List UChar)
    (hlen : image.length = 51200) (k : Nat) (hk : k ≤ 200) :
    ((List.range k).foldl (draw_pixel x) image).length = 51200 ∧
      ∀ row col, row < 200 → col < 256 →
        ((List.range k).foldl (draw_pixel x) image).getD (row * 256 + col) 0
          = if col = x ∧ 199 - row < k then 255 else image.getD (row * 256 + col) 0 := by
  induction k with
  | zero =>
    refine ⟨hlen, ?_⟩
    intro row col _ _
    rw [if_neg (by omega)]
    rfl
  | succ a ih =>
    obtain ⟨h1, h2⟩ := ih (by omega)
    rw [List.range_succ, List.foldl_append, List.foldl_cons, List.foldl_nil]
    generalize (List.range a).foldl (draw_pixel x) image = r at h1 h2
    unfold draw_pixel
    refine ⟨by rw [List.length_set]; exact h1, ?_⟩
    intro row col hrow hcol
    rw [getD_set r _ _ 255 (by omega), h2 row col hrow hcol]
    by_cases hidx : row * 256 + col = (200 - a - 1) * 256 + x
    · rw [if_pos hidx, if_pos (by omega)]
    · rw [if_neg hidx]
      by_cases hc : col = x ∧ 199 - row < a
      · rw [if_pos hc, if_pos (by omega)]
      · rw [if_neg hc, if_neg (by omega)]

theorem draw_bars_spec (histogram : Table) (M : Int) (b : Nat → Int)
    (hb : ∀ x, x < 256 → bar_height (histogram.get (Fin.ofNat x)) M = some (b x) ∧ b x < 200)
    (X : Nat) (hX : X ≤ 256) :
    ∃ img : List UChar,
      (List.range X).foldl (draw_bar histogram M) (some (List.replicate (256 * 200) 0))
        = some img ∧
      img.length = 51200 ∧
      ∀ row col, row < 200 → col < 256 →
        img.getD (row * 256 + col) 0
          = if col < X ∧ ((199 - row : Nat) : Int) ≤ b col then 255 else 0 := by
  induction X with
  | zero =>
    refine ⟨_, rfl, List.length_replicate _ _, ?_⟩
    intro row col hrow hcol
    rw [if_neg (by omega), List.getD_eq_getElem?_getD, List.getElem?_replicate]
    split_ifs <;> rfl
  | succ a ih =>
    obtain ⟨img, h1, h2, h3⟩ := ih (by omega)
    obtain ⟨hba, hba2⟩ := hb a (by omega)
    obtain ⟨p1, p2⟩ := draw_pixels_spec a (by omega) img h2 (b a + 1).toNat (by omega)
    refine ⟨(List.range (b a + 1).toNat).foldl (draw_pixel a) img, ?_, p1, ?_⟩
    · rw [List.range_succ, List.foldl_append, List.foldl_cons, List.foldl_nil, h1]
      unfold draw_bar
      rw [Option.some_bind, hba, Option.some_bind, if_neg (by omega)]
    · intro row col hrow hcol
      rw [p2 row col hrow hcol, h3 row col hrow hcol]
      by_cases hc : col = a
      · rw [hc]
        by_cases hr : ((199 - row : Nat) : Int) ≤ b a
        · rw [if_pos ⟨rfl, by omega⟩, if_pos ⟨by omega, hr⟩]
        · rw [if_neg (by omega), if_neg (by omega), if_neg (by omega)]
      · rw [if_neg (by omega)]
        by_cases hr : col < a ∧ ((199 - row : Nat) : Int) ≤ b col
        · rw [if_pos hr, if_pos ⟨by omega, hr.2⟩]
        · rw [if_neg hr, if_neg (by omega)]

theorem replicate_channels_spec (image rgb : List UChar) (N : Nat) (hlen : rgb.length = 3 * N)
    (n : Nat) (hn : n ≤ N) :
    ((List.range n).foldl (replicate_channels image) rgb).length = 3 * N ∧
      ∀ j, j < 3 * N →
        ((List.range n).foldl (replicate_channels image) rgb).getD j 0
          = if j < 3 * n then image.getD (j / 3) 0 else rgb.getD j 0 := by
  induction n with
  | zero =>
    refine ⟨hlen, ?_⟩
    intro j _
    rw [if_neg (by omega)]
    rfl
  | succ a ih =>
    obtain ⟨h1, h2⟩ := ih (by omega)
    rw [List.range_succ, List.foldl_append, List.foldl_cons, List.foldl_nil]
    generalize (List.range a).foldl (replicate_channels image) rgb = r at h1 h2
    unfold replicate_channels
    refine ⟨by rw [List.length_set, List.length_set, List.length_set]; exact h1, ?_⟩
    intro j hj
    rw [getD_set _ _ _ _ (by rw [List.length_set, List.length_set]; omega),
      getD_set _ _ _ _ (by rw [List.length_set]; omega), getD_set _ _ _ _ (by omega), h2 j hj]
    by_cases c2 : j = a * 3 + 2
    · rw [if_pos c2, if_pos (by omega)]
      congr 1
      omega
    · rw [if_neg c2]
      by_cases c1 : j = a * 3 + 1
      · rw [if_pos c1, if_pos (by omega)]
        congr 1
        omega
      · rw [if_neg c1]
        by_cases c0 : j = a * 3
        · rw [if_pos c0, if_pos (by omega)]
          congr 1
          omega
        · rw [if_neg c0]
          by_cases hlt : j < 3 * a
          · rw [if_pos hlt, if_pos (by omega)]
          · rw [if_neg hlt, if_neg (by omega)]

/-- The double-precision bar height is the floor of the exact value `value * 199 / max` or one
less. -/
theorem bar_height_near_floor (value max : Int) (hv0 : 0 ≤ value) (hvm : value ≤ max)
    (hm1 : 1 ≤ max) (hmax : max ≤ 2147483647) :
    ⌊(value : ℚ) * 199 / (max : ℚ)⌋ - 1
        ≤ ⌊round_to_binary64 (round_to_binary64 ((value : ℚ) / (max : ℚ)) * 199)⌋ ∧
      ⌊round_to_binary64 (round_to_binary64 ((value : ℚ) / (max : ℚ)) * 199)⌋
        ≤ ⌊(value : ℚ) * 199 / (max : ℚ)⌋ := by
  have hmq : (0 : ℚ) < (max : ℚ) := by exact_mod_cast (by omega : 0 < max)
  have hmq2 : (max : ℚ) ≤ 2147483647 := by exact_mod_cast hmax
  have hvq : (0 : ℚ) ≤ (value : ℚ) := by exact_mod_cast hv0
  have hvmq : (value : ℚ) ≤ (max : ℚ) := by exact_mod_cast hvm
  have hx0 : (0 : ℚ) ≤ (value : ℚ) / (max : ℚ) := div_nonneg hvq (le_of_lt hmq)
  have hx1 : (value : ℚ) / (max : ℚ) ≤ 1 := (div_le_one hmq).mpr hvmq
  have habs : |(value : ℚ) / (max : ℚ)| < 2 ^ (1 : ℤ) := by
    rw [abs_of_nonneg hx0]
    norm_num
    linarith
  have hq0 : (0 : ℚ) ≤ round_to_binary64 ((value : ℚ) / (max : ℚ)) := by
    have := int_le_round_to_binary64 _ 0 1 (by norm_num) (by norm_num) habs
      (by push_cast; exact hx0)
    exact_mod_cast this
  have hq1 : round_to_binary64 ((value : ℚ) / (max : ℚ)) ≤ 1 := by
    have := round_to_binary64_le_int _ 1 1 (by norm_num) (by norm_num) habs
      (by push_cast; exact hx1)
    exact_mod_cast this
  have habs2 : |round_to_binary64 ((value : ℚ) / (max : ℚ)) * 199| < 2 ^ (8 : ℤ) := by
    rw [abs_of_nonneg (by positivity)]
    norm_num
    linarith
  have e1 := round_to_binary64_error ((value : ℚ) / (max : ℚ))
  have u1 := ulp_exponent_le _ 1 (by norm_num) habs
  have e2 := round_to_binary64_error (round_to_binary64 ((value : ℚ) / (max : ℚ)) * 199)
  have u2 := ulp_exponent_le _ 8 (by norm_num) habs2
  have p1 : (2 : ℚ) ^ ulp_exponent ((value : ℚ) / (max : ℚ)) ≤ 2 ^ (-52 : ℤ) :=
    zpow_le_zpow_right₀ (by norm_num) (by omega)
  have p2 : (2 : ℚ) ^ ulp_exponent (round_to_binary64 ((value : ℚ) / (max : ℚ)) * 199)
      ≤ 2 ^ (-45 : ℤ) := zpow_le_zpow_right₀ (by norm_num) (by omega)
  have n1 : (2 : ℚ) ^ (-52 : ℤ) = 1 / 4503599627370496 := by norm_num
  have n2 : (2 : ℚ) ^ (-45 : ℤ) = 1 / 35184372088832 := by norm_num
  rw [n1] at p1
  rw [n2] at p2
  rw [abs_le] at e1 e2
  generalize round_to_binary64 (round_to_binary64 ((value : ℚ) / (max : ℚ)) * 199) = p
    at e2 ⊢
  generalize round_to_binary64 ((value : ℚ) / (max : ℚ)) = q at e1 e2 p2
  have hexact : (value : ℚ) * 199 / (max : ℚ) = (value : ℚ) / (max : ℚ) * 199 := by ring
  have hclose1 : p - (value : ℚ) * 199 / (max : ℚ) ≤ 1 / 8589934592 := by
    rw [hexact]
    linarith [e1.1, e1.2, e2.1, e2.2]
  have hclose2 : (value : ℚ) * 199 / (max : ℚ) - p ≤ 1 / 8589934592 := by
    rw [hexact]
    linarith [e1.1, e1.2, e2.1, e2.2]
  have hfl := Int.floor_le ((value : ℚ) * 199 / (max : ℚ))
  have hfl2 := Int.lt_floor_add_one ((value : ℚ) * 199 / (max : ℚ))
  constructor
  · rw [Int.le_floor]
    push_cast
    linarith
  · have hgap : (value : ℚ) * 199 / (max : ℚ)
        ≤ ((⌊(value : ℚ) * 199 / (max : ℚ)⌋ + 1 : ℤ) : ℚ) - 1 / (max : ℚ) := by
      have h3 : (value : ℚ) * 199 < ((⌊(value : ℚ) * 199 / (max : ℚ)⌋ + 1 : ℤ) : ℚ) * max := by
        rw [← div_lt_iff₀ hmq]
        push_cast
        exact hfl2
      have h4 : value * 199 < (⌊(value : ℚ) * 199 / (max : ℚ)⌋ + 1) * max := by
        exact_mod_cast h3
      have h5 : value * 199 + 1 ≤ (⌊(value : ℚ) * 199 / (max : ℚ)⌋ + 1) * max := h4
      have h6 : (value : ℚ) * 199 + 1
          ≤ ((⌊(value : ℚ) * 199 / (max : ℚ)⌋ + 1 : ℤ) : ℚ) * max := by
        exact_mod_cast h5
      rw [div_le_iff₀ hmq, sub_mul, one_div, inv_mul_cancel₀ (ne_of_gt hmq)]
      linarith
    have hinv : (1 : ℚ) / 2147483647 ≤ 1 / (max : ℚ) :=
      one_div_le_one_div_of_le hmq hmq2
    have hlt : p < ((⌊(value : ℚ) * 199 / (max : ℚ)⌋ + 1 : ℤ) : ℚ) := by
      have : (1 : ℚ) / 8589934592 < 1 / 2147483647 := by norm_num
      linarith
    have := Int.floor_lt.mpr hlt
    omega

theorem bar_height_below_floor : bar_height 15 199 = some 14 := by decide!

theorem bar_height_zero : bar_height 0 1 = some 0 := by decide!

theorem bar_height_full : bar_height 1 1 = some 199 := by decide!

/-- The rasters of `generate_histogram_image` for a histogram of counts: in column `x` the
pixels of the rows `199 - bar_height .. 199` are 255 and the others 0, and the three channels
of `rgb_image` repeat the gray sample. -/
theorem generate_histogram_image_spec (histogram : Table) (rgb : List UChar)
    (hrange : ∀ i : Fin 256, 0 ≤ histogram.get i ∧ histogram.get i ≤ 2147483647)
    (hrgb : rgb.length = 256 * 200 * 3) :
    ∃ r : HistogramImage, generate_histogram_image histogram rgb = some r ∧
      r.image.length = 256 * 200 ∧ r.rgb_image.length = 256 * 200 * 3 ∧
      ∀ x : Fin 256, ∃ b : Int,
        bar_height (histogram.get x) (max_value histogram) = some b ∧
        b = ⌊round_to_binary64 (round_to_binary64
              ((histogram.get x : ℚ) / (max_value histogram : ℚ)) * 199)⌋ ∧
        0 ≤ b ∧ b ≤ 199 ∧
        ∀ row, row < 200 →
          r.image.getD (row * 256 + x.val) 0
              = (if ((199 - row : Nat) : Int) ≤ b then 255 else 0) ∧
            ∀ k, k < 3 → r.rgb_image.getD ((row * 256 + x.val) * 3 + k) 0
              = r.image.getD (row * 256 + x.val) 0 := by
  obtain ⟨m1, m2, m3, m4⟩ := max_value_spec histogram
  have hM : max_value histogram ≤ 2147483647 := by
    by_cases hpos : ∃ i : Fin 256, 0 < histogram.get i
    · obtain ⟨i, hi⟩ := m3 hpos
      rw [← hi]
      exact (hrange i).2
    · push_neg at hpos
      rw [m4 hpos]
      decide
  have hb : ∀ x, x < 256 →
      bar_height (histogram.get (Fin.ofNat x)) (max_value histogram)
          = some ⌊round_to_binary64 (round_to_binary64
              ((histogram.get (Fin.ofNat x) : ℚ) / (max_value histogram : ℚ)) * 199)⌋ ∧
        ⌊round_to_binary64 (round_to_binary64
            ((histogram.get (Fin.ofNat x) : ℚ) / (max_value histogram : ℚ)) * 199)⌋ < 200 := by
    intro x _
    obtain ⟨b1, _, b3⟩ := bar_height_spec (histogram.get (Fin.ofNat x)) (max_value histogram)
      (hrange _).1 (m2 _) m1 hM
    exact ⟨b1, by omega⟩
  obtain ⟨img, g1, g2, g3⟩ := draw_bars_spec histogram (max_value histogram)
    (fun x => ⌊round_to_binary64 (round_to_binary64
      ((histogram.get (Fin.ofNat x) : ℚ) / (max_value histogram : ℚ)) * 199)⌋) hb 256
    (le_refl _)
  obtain ⟨c1, c2⟩ := replicate_channels_spec img rgb (256 * 200) (by rw [hrgb])
    (256 * 200) (le_refl _)
  refine ⟨{ image := img,
            rgb_image := (List.range (256 * 200)).foldl (replicate_channels img) rgb },
    ?_, g2, by rw [c1], ?_⟩
  · unfold generate_histogram_image
    rw [g1, Option.map_some']
  · intro x
    obtain ⟨b1, b2, b3⟩ := bar_height_spec (histogram.get x) (max_value histogram)
      (hrange _).1 (m2 _) m1 hM
    refine ⟨_, b1, rfl, b2, b3, ?_⟩
    intro row hrow
    have hpix := g3 row x.val hrow x.isLt
    rw [fin_ofNat_val, if_congr (and_iff_right x.isLt) rfl rfl] at hpix
    refine ⟨hpix, ?_⟩
    intro k hk
    have := c2 ((row * 256 + x.val) * 3 + k) (by have := x.isLt; omega)
    rw [if_pos (by have := x.isLt; omega)] at this
    rw [this, show ((row * 256 + x.val) * 3 + k) / 3 = row * 256 + x.val by omega]

/-- C15, as amended: for every histogram of counts with a positive maximum entry, `max_value` is
that maximum and the 256x200 gray raster built by `generate_histogram_image` has, in each
column `x`, `bar_height = (int)(((double)Histogram[x] / max) * 199)`: the quotient and the
product are rounded to double precision and the result is truncated, not rounded, which gives
the floor of `Histogram[x] * 199 / max` or one less, a value in `0 .. 199`; the drawing loop
runs for `y = 0 .. bar_height` inclusive, so the `bar_height + 1` pixels counted upward from
the bottom row are 255 and every pixel above them in that column is 0. -/
theorem histogram_image_bars (histogram : Table) (rgb : List UChar)
    (hrange : ∀ i : Fin 256, 0 ≤ histogram.get i ∧ histogram.get i ≤ 2147483647)
    (hpos : ∃ i : Fin 256, 0 < histogram.get i) (hrgb : rgb.length = 256 * 200 * 3) :
    (∀ i : Fin 256, histogram.get i ≤ max_value histogram) ∧
      (∃ i : Fin 256, histogram.get i = max_value histogram) ∧
      ∃ r : HistogramImage, generate_histogram_image histogram rgb = some r ∧
        r.image.length = 256 * 200 ∧
        ∀ x : Fin 256, ∃ b : Int,
          bar_height (histogram.get x) (max_value histogram) = some b ∧
          b = ⌊round_to_binary64 (round_to_binary64
                ((histogram.get x : ℚ) / (max_value histogram : ℚ)) * 199)⌋ ∧
          ⌊(histogram.get x : ℚ) * 199 / (max_value histogram : ℚ)⌋ - 1 ≤ b ∧
          b ≤ ⌊(histogram.get x : ℚ) * 199 / (max_value histogram : ℚ)⌋ ∧
          0 ≤ b ∧ b ≤ 199 ∧
          ∀ row, row < 200 →
            r.image.getD (row * 256 + x.val) 0
              = if ((199 - row : Nat) : Int) ≤ b then 255 else 0 := by
  obtain ⟨m1, m2, m3, _⟩ := max_value_spec histogram
  obtain ⟨i, hi⟩ := m3 hpos
  have hM : max_value histogram ≤ 2147483647 := by
    rw [← hi]
    exact (hrange i).2
  obtain ⟨r, g1, g2, _, g4⟩ := generate_histogram_image_spec histogram rgb hrange hrgb
  refine ⟨m2, ⟨i, hi⟩, r, g1, g2, ?_⟩
  intro x
  obtain ⟨b, b1, b2, b3, b4, b5⟩ := g4 x
  obtain ⟨f1, f2⟩ := bar_height_near_floor (histogram.get x) (max_value histogram)
    (hrange x).1 (m2 x) m1 hM
  rw [← b2] at f1 f2
  exact ⟨b, b1, b2, f1, f2, b3, b4, fun row hrow => (b5 row hrow).1⟩

theorem histogram_image_bars_witness :
    (∀ i : Fin 256, 0 ≤ (Mathlib.Vector.replicate 256 (4 : Int)).get i
        ∧ (Mathlib.Vector.replicate 256 (4 : Int)).get i ≤ 2147483647) ∧
      (∃ i : Fin 256, 0 < (Mathlib.Vector.replicate 256 (4 : Int)).get i) ∧
      (List.replicate (256 * 200 * 3) (0 : UChar)).length = 256 * 200 * 3 ∧
      ∃ i : Fin 256, (Mathlib.Vector.replicate 256 (4 : Int)).get i
        = max_value (Mathlib.Vector.replicate 256 4) :=
  ⟨fun i => by rw [Mathlib.Vector.get_replicate]; decide,
    ⟨0, by rw [Mathlib.Vector.get_replicate]; decide⟩, List.length_replicate _ _,
    (histogram_image_bars (Mathlib.Vector.replicate 256 4)
      (List.replicate (256 * 200 * 3) 0)
      (fun i => by rw [Mathlib.Vector.get_replicate]; decide)
      ⟨0, by rw [Mathlib.Vector.get_replicate]; decide⟩ (List.length_replicate _ _)).2.1⟩

theorem single_level_histogram_get (i : Fin 256) :
    (Mathlib.Vector.ofFn fun j : Fin 256 => if j = 0 then (1 : Int) else 0).get i
      = if i = 0 then 1 else 0 := Mathlib.Vector.get_ofFn _ i

theorem single_level_histogram_max :
    max_value (Mathlib.Vector.ofFn fun j : Fin 256 => if j = 0 then (1 : Int) else 0) = 1 := by
  obtain ⟨m1, _, m3, _⟩ := max_value_spec
    (Mathlib.Vector.ofFn fun j : Fin 256 => if j = 0 then (1 : Int) else 0)
  obtain ⟨i, hi⟩ := m3 ⟨0, by rw [single_level_histogram_get]; decide⟩
  rw [single_level_histogram_get] at hi
  by_cases h0 : i = 0
  · rw [if_pos h0] at hi
    exact hi.symm
  · rw [if_neg h0] at hi
    omega

/-- C15, counterexample: for the histogram with `Histogram[0] = 1` and every other entry 0, the
specified bar of column 1 has height `round(0 / 1 * 199) = 0`, so its bottom pixel is specified
as 0, but the raster has 255 there; and the specified bar of column 0 has height 199, so the
pixel of the top row is specified as 0, but the raster has 255 there. -/
theorem histogram_image_bar_one_pixel_higher :
    ∃ r : HistogramImage,
      generate_histogram_image
        (Mathlib.Vector.ofFn fun j : Fin 256 => if j = 0 then (1 : Int) else 0)
        (List.replicate (256 * 200 * 3) 0) = some r ∧
      specified_pixel (specified_bar_height
        ((Mathlib.Vector.ofFn fun j : Fin 256 => if j = 0 then (1 : Int) else 0).get 1)
        (max_value (Mathlib.Vector.ofFn fun j : Fin 256 => if j = 0 then (1 : Int) else 0)))
        199 = 0 ∧
      r.image.getD (199 * 256 + 1) 0 = 255 ∧
      specified_pixel (specified_bar_height
        ((Mathlib.Vector.ofFn fun j : Fin 256 => if j = 0 then (1 : Int) else 0).get 0)
        (max_value (Mathlib.Vector.ofFn fun j : Fin 256 => if j = 0 then (1 : Int) else 0)))
        0 = 0 ∧
      r.image.getD (0 * 256 + 0) 0 = 255 := by
  have hrange : ∀ i : Fin 256,
      0 ≤ (Mathlib.Vector.ofFn fun j : Fin 256 => if j = 0 then (1 : Int) else 0).get i ∧
      (Mathlib.Vector.ofFn fun j : Fin 256 => if j = 0 then (1 : Int) else 0).get i
        ≤ 2147483647 := by
    intro i
    rw [single_level_histogram_get]
    split_ifs <;> decide
  obtain ⟨r, g1, _, _, g4⟩ := generate_histogram_image_spec _ _ hrange
    (List.length_replicate (256 * 200 * 3) (0 : UChar))
  refine ⟨r, g1, ?_, ?_, ?_, ?_⟩
  · rw [single_level_histogram_get, single_level_histogram_max, if_neg (by decide)]
    decide!
  · obtain ⟨b, b1, _, _, _, b5⟩ := g4 1
    rw [single_level_histogram_get, single_level_histogram_max, if_neg (by decide),
      bar_height_zero] at b1
    rw [← Option.some.inj b1] at b5
    exact (b5 199 (by decide)).1
  · rw [single_level_histogram_get, single_level_histogram_max, if_pos rfl]
    decide!
  · obtain ⟨b, b1, _, _, _, b5⟩ := g4 0
    rw [single_level_histogram_get, single_level_histogram_max, if_pos rfl,
      bar_height_full] at b1
    rw [← Option.some.inj b1] at b5
    exact (b5 0 (by decide)).1

/-- C16, as amended: for the entirely-zero histogram, `generate_histogram_image` substitutes 1
for the maximum and every column has `bar_height = 0`; the drawing loop runs for
`y = 0 .. bar_height` inclusive, so the bottom row (row 199) of the gray raster is 255 in all
256 columns and every other pixel is 0, and the replicated 3-channel raster has the same
values. -/
theorem zero_histogram_image (rgb : List UChar) (hrgb : rgb.length = 256 * 200 * 3) :
    max_value zero_table = 1 ∧
      (∀ x : Fin 256, bar_height (zero_table.get x) (max_value zero_table) = some 0) ∧
      ∃ r : HistogramImage, generate_histogram_image zero_table rgb = some r ∧
        r.image.length = 256 * 200 ∧ r.rgb_image.length = 256 * 200 * 3 ∧
        ∀ row col, row < 200 → col < 256 →
          r.image.getD (row * 256 + col) 0 = (if row = 199 then 255 else 0) ∧
          ∀ k, k < 3 → r.rgb_image.getD ((row * 256 + col) * 3 + k) 0
            = if row = 199 then 255 else 0 := by
  have hmax : max_value zero_table = 1 :=
    (max_value_spec zero_table).2.2.2 (fun i => le_of_eq (zero_table_get i))
  have hbar : ∀ x : Fin 256, bar_height (zero_table.get x) (max_value zero_table) = some 0 := by
    intro x
    rw [zero_table_get, hmax]
    exact bar_height_zero
  obtain ⟨r, g1, g2, g3, g4⟩ := generate_histogram_image_spec zero_table rgb
    (fun i => by rw [zero_table_get]; decide) hrgb
  refine ⟨hmax, hbar, r, g1, g2, g3, ?_⟩
  intro row col hrow hcol
  obtain ⟨b, b1, _, _, _, b5⟩ := g4 ⟨col, hcol⟩
  rw [hbar] at b1
  rw [← Option.some.inj b1] at b5
  obtain ⟨p1, p2⟩ := b5 row hrow
  have hpix : r.image.getD (row * 256 + col) 0 = if row = 199 then 255 else 0 := by
    rw [p1]
    by_cases h : row = 199
    · rw [if_pos h, if_pos (by omega)]
    · rw [if_neg h, if_neg (by omega)]
  refine ⟨hpix, ?_⟩
  intro k hk
  rw [← hpix]
  exact p2 k hk

theorem zero_histogram_image_witness :
    (List.replicate (256 * 200 * 3) (0 : UChar)).length = 256 * 200 * 3 ∧
      max_value zero_table = 1 :=
  ⟨List.length_replicate _ _,
    (zero_histogram_image (List.replicate (256 * 200 * 3) 0) (List.length_replicate _ _)).1⟩

/-- C16, counterexample: for the entirely-zero histogram the pixel of the bottom row in column 0
of the gray raster is 255, not 0, and so is its first channel in the 3-channel raster. -/
theorem zero_histogram_bottom_row_drawn :
    ∃ r : HistogramImage,
      generate_histogram_image zero_table (List.replicate (256 * 200 * 3) 0) = some r ∧
      r.image.getD (199 * 256 + 0) 0 = 255 ∧
      r.rgb_image.getD ((199 * 256 + 0) * 3 + 0) 0 = 255 := by
  obtain ⟨r, g1, _, _, g4⟩ := generate_histogram_image_spec zero_table
    (List.replicate (256 * 200 * 3) 0) (fun i => by rw [zero_table_get]; decide)
    (List.length_replicate _ _)
  obtain ⟨b, b1, _, _, _, b5⟩ := g4 0
  rw [zero_table_get, (max_value_spec zero_table).2.2.2 (fun i => le_of_eq (zero_table_get i)),
    bar_height_zero] at b1
  rw [← Option.some.inj b1] at b5
  obtain ⟨p1, p2⟩ := b5 199 (by decide)
  exact ⟨r, g1, p1, (p2 0 (by decide)).trans p1⟩

/-! ## The x86-64 conversion -/

theorem to_int_x86_eq (d : Double) : Double.to_int_x86 d = (Double.to_int d).getD INT_MIN := by
  cases d with
  | finite a =>
    simp only [Double.to_int_x86, Double.to_int]
    split_ifs <;> rfl
  | infinite b => rfl
  | nan => rfl

theorem equalized_value_x86_eq (c cdf_min total : Int) :
    equalized_value_x86 c cdf_min total = (equalized_value c cdf_min total).getD 0 := by
  unfold equalized_value_x86 equalized_value
  rw [to_int_x86_eq]
  cases Double.to_int (Double.round (Double.mul
      (Double.div (Double.of_int (wrap32 (c - cdf_min)))
        (Double.of_int (wrap32 (total - cdf_min))))
      (Double.of_real 255))) with
  | none => rfl
  | some v => rfl

theorem equalized_value_x86_of_some (c cdf_min total v : Int)
    (h : equalized_value c cdf_min total = some v) : equalized_value_x86 c cdf_min total = v := by
  rw [equalized_value_x86_eq, h]
  rfl

theorem equalized_value_x86_of_none (c cdf_min total : Int)
    (h : equalized_value c cdf_min total = none) : equalized_value_x86 c cdf_min total = 0 := by
  rw [equalized_value_x86_eq, h]
  rfl

theorem equalize_step_x86_comm (cdf : Table) (cdf_min total : Int) (eq : Table) (i j : Nat) :
    equalize_step_x86 cdf cdf_min total (equalize_step_x86 cdf cdf_min total eq i) j
      = equalize_step_x86 cdf cdf_min total (equalize_step_x86 cdf cdf_min total eq j) i := by
  unfold equalize_step_x86
  by_cases hij : (Fin.ofNat i : Fin 256) = Fin.ofNat j
  · rw [hij]
  · exact vector_set_comm eq _ _ _ _ hij

theorem foldl_equalize_step_x86 (cdf : Table) (cdf_min total : Int) (L : List Nat) :
    (∀ a ∈ L, a < 256) → ∀ (eq : Table) (j : Fin 256),
      (L.foldl (equalize_step_x86 cdf cdf_min total) eq).get j
        = if j.val ∈ L then equalized_value_x86 (cdf.get j) cdf_min total else eq.get j := by
  induction L with
  | nil =>
    intro _ eq j
    simp
  | cons a L ih =>
    intro hL eq j
    have ha : a < 256 := hL a (List.mem_cons_self _ _)
    have hval : ((Fin.ofNat a : Fin 256)).val = a := Nat.mod_eq_of_lt ha
    rw [List.foldl_cons, ih (fun b hb => hL b (List.mem_cons_of_mem _ hb))]
    by_cases hjL : j.val ∈ L
    · rw [if_pos hjL, if_pos (List.mem_cons_of_mem _ hjL)]
    · rw [if_neg hjL]
      unfold equalize_step_x86
      rw [Mathlib.Vector.get_set_eq_if]
      by_cases haj : (Fin.ofNat a : Fin 256) = j
      · have hmem : j.val ∈ a :: L := by
          rw [← haj, hval]
          exact List.mem_cons_self _ _
        rw [if_pos haj, if_pos hmem, haj]
      · have hmem : ¬ j.val ∈ a :: L := by
          intro hh
          rcases List.mem_cons.mp hh with h | h
          · exact haj (Fin.ext (hval.trans h.symm))
          · exact hjL h
        rw [if_neg haj, if_neg hmem]

/-- The table written by `calculate_equalized_cdf` on x86-64, whatever the number of threads
and the split. -/
theorem calculate_equalized_cdf_x86_get (num_threads : Nat) (owner : Nat → Nat) (cdf : Table)
    (cdf_min total : Int) (eq0 : Table) (hown : ∀ i, i < 256 → owner i < num_threads)
    (i : Fin 256) :
    (calculate_equalized_cdf_x86 num_threads owner cdf cdf_min total eq0).get i
      = equalized_value_x86 (cdf.get i) cdf_min total := by
  unfold calculate_equalized_cdf_x86
  rw [omp_for_eq_foldl num_threads owner 256 _ (equalize_step_x86_comm cdf cdf_min total) hown,
    foldl_equalize_step_x86 cdf cdf_min total (List.range 256)
      (fun a ha => List.mem_range.mp ha), if_pos (List.mem_range.mpr i.isLt)]

/-- Where the conversions of `calculate_equalized_cdf` are all defined, the table is the one
written on x86-64. -/
theorem calculate_equalized_cdf_x86_agrees (num_threads : Nat) (owner : Nat → Nat) (cdf : Table)
    (cdf_min total : Int) (eq0 map : Table) (hown : ∀ i, i < 256 → owner i < num_threads)
    (h : calculate_equalized_cdf num_threads owner cdf cdf_min total eq0 = some map) :
    map = calculate_equalized_cdf_x86 num_threads owner cdf cdf_min total eq0 := by
  apply Mathlib.Vector.ext
  intro i
  rw [calculate_equalized_cdf_x86_get num_threads owner cdf cdf_min total eq0 hown i,
    equalized_value_x86_of_some _ _ _ _
      (calculate_equalized_cdf_entry num_threads owner cdf cdf_min total eq0 map hown h i)]

/-! ## The map of a CDF table -/

theorem round_half_away_zero : round_half_away 0 = 0 := by
  unfold round_half_away
  norm_num

theorem exact_equalized_below (c cdf_min total : ℤ) (hc : c ≤ cdf_min) (hmt : cdf_min < total) :
    exact_equalized c cdf_min total = 0 := by
  have hb : (0 : ℚ) < ((total - cdf_min : ℤ) : ℚ) := by exact_mod_cast (by omega : 0 < total - cdf_min)
  have ha : ((c - cdf_min : ℤ) : ℚ) ≤ 0 := by exact_mod_cast (by omega : c - cdf_min ≤ 0)
  have hx : ((c - cdf_min : ℤ) : ℚ) / ((total - cdf_min : ℤ) : ℚ) * 255 ≤ 0 :=
    mul_nonpos_of_nonpos_of_nonneg (div_nonpos_of_nonpos_of_nonneg ha (le_of_lt hb))
      (by norm_num)
  have := round_half_away_mono _ _ hx
  rw [round_half_away_zero] at this
  unfold exact_equalized
  exact max_eq_left this

theorem exact_equalized_no_data : exact_equalized 0 INT_MAX 0 = 255 := by decide!

theorem equalized_value_x86_below (c cdf_min total : ℤ) (hc : c ≤ cdf_min)
    (ha1 : -2147483648 ≤ c - cdf_min) (hb1 : 0 < total - cdf_min)
    (hb2 : total - cdf_min ≤ 2147483647) : equalized_value_x86 c cdf_min total = 0 := by
  cases h : equalized_value c cdf_min total with
  | none => exact equalized_value_x86_of_none c cdf_min total h
  | some v =>
    rw [equalized_value_x86_of_some c cdf_min total v h]
    exact equalized_value_below c cdf_min total v hc ha1 hb1 hb2 h

/-- The value stored on x86-64 for an entry of a CDF table (non-negative, non-decreasing, last
entry `total_samples`) with `cdf_min` as `calculate_cdf_min` returns it: `0` when
`total_samples = cdf_min`, and the exact formula otherwise; in both cases within `[0, 255]`. -/
theorem equalized_value_x86_of_cdf (num_threads : Nat) (min_owner : Nat → Nat) (cdf : Table)
    (hmin_own : ∀ i, i < 256 → min_owner i < num_threads)
    (h0 : ∀ i : Fin 256, 0 ≤ cdf.get i)
    (hmono : ∀ i j : Fin 256, i ≤ j → cdf.get i ≤ cdf.get j)
    (htmax : cdf.get 255 ≤ 2147483647) (i : Fin 256) :
    (cdf.get 255 ≠ calculate_cdf_min num_threads min_owner cdf →
        equalized_value_x86 (cdf.get i) (calculate_cdf_min num_threads min_owner cdf)
            (cdf.get 255)
          = exact_equalized (cdf.get i) (calculate_cdf_min num_threads min_owner cdf)
              (cdf.get 255)) ∧
      (cdf.get 255 ≠ calculate_cdf_min num_threads min_owner cdf →
        calculate_cdf_min num_threads min_owner cdf ≤ cdf.get i →
        equalized_value (cdf.get i) (calculate_cdf_min num_threads min_owner cdf) (cdf.get 255)
          = some (exact_equalized (cdf.get i) (calculate_cdf_min num_threads min_owner cdf)
              (cdf.get 255))) ∧
      0 ≤ equalized_value_x86 (cdf.get i) (calculate_cdf_min num_threads min_owner cdf)
          (cdf.get 255) ∧
      equalized_value_x86 (cdf.get i) (calculate_cdf_min num_threads min_owner cdf)
          (cdf.get 255) ≤ 255 := by
  obtain ⟨s1, s2, s3⟩ := calculate_cdf_min_spec num_threads min_owner cdf hmin_own
  have hmaxdef : INT_MAX = 2147483647 := rfl
  have hi255 : cdf.get i ≤ cdf.get 255 := hmono i 255 (uchar_le_255 i)
  have hi0 := h0 i
  by_cases hpos : ∃ k : Fin 256, 0 < cdf.get k
  · obtain ⟨k, hk⟩ := hpos
    have hk255 : cdf.get k ≤ cdf.get 255 := hmono k 255 (uchar_le_255 k)
    have hmin_le : calculate_cdf_min num_threads min_owner cdf ≤ cdf.get 255 :=
      s3 255 (by omega)
    have hmin_pos : 0 < calculate_cdf_min num_threads min_owner cdf := by
      rcases s2 with e | ⟨_, _, e⟩
      · rw [e]
        decide
      · exact e
    generalize calculate_cdf_min num_threads min_owner cdf = cm at s1 s2 s3 hmin_le hmin_pos ⊢
    by_cases heq : cdf.get 255 = cm
    · refine ⟨fun hne => absurd heq hne, fun hne => absurd heq hne, ?_⟩
      rw [heq, equalized_value_x86_of_none _ _ _ (equalized_value_zero_divisor _ _)]
      decide
    · have hlt : cm < cdf.get 255 := by omega
      by_cases hci : cm ≤ cdf.get i
      · have hv := equalized_value_exact (cdf.get i) cm (cdf.get 255) hi0 hi255 htmax
          (by omega) hlt (by omega)
        have hr := exact_equalized_range (cdf.get i) cm (cdf.get 255) hi255 hlt (by omega)
        have hx := equalized_value_x86_of_some _ _ _ _ hv
        refine ⟨fun _ => hx, fun _ _ => hv, ?_⟩
        rw [hx]
        exact hr
      · have hx := equalized_value_x86_below (cdf.get i) cm (cdf.get 255) (by omega) (by omega)
          (by omega) (by omega)
        refine ⟨fun _ => ?_, fun _ h => absurd h hci, ?_⟩
        · rw [hx, exact_equalized_below _ _ _ (by omega) hlt]
        · rw [hx]
          decide
  · push_neg at hpos
    have hzero : ∀ k : Fin 256, cdf.get k = 0 := fun k => le_antisymm (hpos k) (h0 k)
    have hmin := calculate_cdf_min_no_positive num_threads min_owner cdf hmin_own hpos
    rw [hmin, hzero i, hzero 255,
      equalized_value_x86_of_some _ _ _ _ equalized_value_no_data, exact_equalized_no_data]
    refine ⟨fun _ => rfl, fun _ h => ?_, by decide, by decide⟩
    exact absurd h (by decide)

/-- C7: for every CDF table (non-negative, non-decreasing entries, the last one being
`total_samples`, an `int`) with `cdf_min` as `calculate_cdf_min` returns it and
`total_samples ≠ cdf_min`, and every level `i`, `calculate_equalized_cdf` sets
`map[i] = max(0, round((CDF[i] - cdf_min) / (total_samples - cdf_min) * 255))` with the exact
quotient and rounding half away from zero, for every split of the loop: this is the table
written on x86-64, it is every table the function produces where all conversions to `int` are
defined, and the iteration of every level with `CDF[i] ≥ cdf_min` is defined. -/
theorem equalization_map_exact_formula (num_threads : Nat) (owner min_owner : Nat → Nat)
    (cdf : Table) (cdf_min total : Int) (eq0 : Table)
    (hown : ∀ i, i < 256 → owner i < num_threads)
    (hmin_own : ∀ i, i < 256 → min_owner i < num_threads)
    (h0 : ∀ i : Fin 256, 0 ≤ cdf.get i)
    (hmono : ∀ i j : Fin 256, i ≤ j → cdf.get i ≤ cdf.get j)
    (htotal : total = cdf.get 255) (htmax : total ≤ 2147483647)
    (hmin : cdf_min = calculate_cdf_min num_threads min_owner cdf)
    (hne : total ≠ cdf_min) :
    (∀ i : Fin 256,
        (calculate_equalized_cdf_x86 num_threads owner cdf cdf_min total eq0).get i
          = exact_equalized (cdf.get i) cdf_min total) ∧
      (∀ map : Table,
        calculate_equalized_cdf num_threads owner cdf cdf_min total eq0 = some map →
        ∀ i : Fin 256, map.get i = exact_equalized (cdf.get i) cdf_min total) ∧
      (∀ i : Fin 256, cdf_min ≤ cdf.get i →
        equalized_value (cdf.get i) cdf_min total
          = some (exact_equalized (cdf.get i) cdf_min total)) := by
  subst htotal hmin
  have hx : ∀ i : Fin 256,
      (calculate_equalized_cdf_x86 num_threads owner cdf
          (calculate_cdf_min num_threads min_owner cdf) (cdf.get 255) eq0).get i
        = exact_equalized (cdf.get i) (calculate_cdf_min num_threads min_owner cdf)
            (cdf.get 255) := by
    intro i
    rw [calculate_equalized_cdf_x86_get _ _ _ _ _ _ hown i]
    exact (equalized_value_x86_of_cdf num_threads min_owner cdf hmin_own h0 hmono htmax i).1 hne
  refine ⟨hx, ?_, ?_⟩
  · intro map hmap i
    rw [calculate_equalized_cdf_x86_agrees _ _ _ _ _ _ map hown hmap]
    exact hx i
  · intro i hi
    exact (equalized_value_x86_of_cdf num_threads min_owner cdf hmin_own h0 hmono htmax
      i).2.1 hne hi

/-- C8: for every CDF table (non-negative, non-decreasing entries, the last one being
`total_samples`, an `int`) and `cdf_min` as `calculate_cdf_min` returns it, each of the 256
entries of the map of `calculate_equalized_cdf` lies in `[0, 255]`, for every split of the
loop: for the table written on x86-64, also when `total_samples = cdf_min`, and for every table
the function produces where all conversions to `int` are defined. -/
theorem equalization_map_in_range (num_threads : Nat) (owner min_owner : Nat → Nat)
    (cdf : Table) (cdf_min total : Int) (eq0 : Table)
    (hown : ∀ i, i < 256 → owner i < num_threads)
    (hmin_own : ∀ i, i < 256 → min_owner i < num_threads)
    (h0 : ∀ i : Fin 256, 0 ≤ cdf.get i)
    (hmono : ∀ i j : Fin 256, i ≤ j → cdf.get i ≤ cdf.get j)
    (htotal : total = cdf.get 255) (htmax : total ≤ 2147483647)
    (hmin : cdf_min = calculate_cdf_min num_threads min_owner cdf) :
    (∀ i : Fin 256,
        0 ≤ (calculate_equalized_cdf_x86 num_threads owner cdf cdf_min total eq0).get i ∧
        (calculate_equalized_cdf_x86 num_threads owner cdf cdf_min total eq0).get i ≤ 255) ∧
      (∀ map : Table,
        calculate_equalized_cdf num_threads owner cdf cdf_min total eq0 = some map →
        ∀ i : Fin 256, 0 ≤ map.get i ∧ map.get i ≤ 255) := by
  subst htotal hmin
  have hx : ∀ i : Fin 256,
      0 ≤ (calculate_equalized_cdf_x86 num_threads owner cdf
          (calculate_cdf_min num_threads min_owner cdf) (cdf.get 255) eq0).get i ∧
      (calculate_equalized_cdf_x86 num_threads owner cdf
          (calculate_cdf_min num_threads min_owner cdf) (cdf.get 255) eq0).get i ≤ 255 := by
    intro i
    rw [calculate_equalized_cdf_x86_get _ _ _ _ _ _ hown i]
    exact (equalized_value_x86_of_cdf num_threads min_owner cdf hmin_own h0 hmono htmax i).2.2
  refine ⟨hx, ?_⟩
  intro map hmap i
  rw [calculate_equalized_cdf_x86_agrees _ _ _ _ _ _ map hown hmap]
  exact hx i

theorem calculate_cdf_min_of_least (num_threads : Nat) (owner : Nat → Nat) (cdf : Table)
    (hown : ∀ i, i < 256 → owner i < num_threads) (k : Fin 256) (hk : 0 < cdf.get k)
    (hk2 : cdf.get k ≤ 2147483647) (hleast : ∀ i : Fin 256, 0 < cdf.get i → cdf.get k ≤ cdf.get i) :
    calculate_cdf_min num_threads owner cdf = cdf.get k := by
  obtain ⟨_, s2, s3⟩ := calculate_cdf_min_spec num_threads owner cdf hown
  have hle := s3 k hk
  rcases s2 with e | ⟨i, hi, hpos⟩
  · have : INT_MAX = 2147483647 := rfl
    omega
  · apply le_antisymm hle
    rw [← hi]
    exact hleast i (by rw [hi]; exact hpos)

theorem example_cdf_get (i : Fin 256) :
    example_cdf.get i
      = if i.val < 10 then 0 else if i.val < 100 then 3 else if i.val < 200 then 5 else 9 :=
  Mathlib.Vector.get_ofFn _ i

theorem example_cdf_nonneg (i : Fin 256) : 0 ≤ example_cdf.get i := by
  rw [example_cdf_get]
  split_ifs <;> decide

theorem example_cdf_mono (i j : Fin 256) (h : i ≤ j) : example_cdf.get i ≤ example_cdf.get j := by
  have := Fin.le_def.mp h
  rw [example_cdf_get, example_cdf_get]
  split_ifs <;> first | decide | omega

theorem example_cdf_last : example_cdf.get 255 = 9 := by
  rw [example_cdf_get]
  rfl

theorem example_cdf_min (num_threads : Nat) (owner : Nat → Nat)
    (hown : ∀ i, i < 256 → owner i < num_threads) :
    calculate_cdf_min num_threads owner example_cdf = 3 := by
  have h10 : example_cdf.get 10 = 3 := by
    rw [example_cdf_get]
    rfl
  rw [calculate_cdf_min_of_least num_threads owner example_cdf hown 10 (by rw [h10]; decide)
    (by rw [h10]; decide) (fun i hi => by
      rw [h10]
      rw [example_cdf_get] at hi ⊢
      split_ifs at hi ⊢ <;> first | decide | omega), h10]

theorem equalization_map_exact_formula_witness :
    (∀ i, i < 256 → (fun i : Nat => i % 4) i < 4) ∧
      (∀ i : Fin 256, 0 ≤ example_cdf.get i) ∧
      (∀ i j : Fin 256, i ≤ j → example_cdf.get i ≤ example_cdf.get j) ∧
      (9 : Int) = example_cdf.get 255 ∧ (9 : Int) ≤ 2147483647 ∧
      (3 : Int) = calculate_cdf_min 4 (fun i => i % 4) example_cdf ∧ (9 : Int) ≠ 3 ∧
      (calculate_equalized_cdf_x86 4 (fun i => i % 4) example_cdf 3 9 zero_table).get 0 = 0 ∧
      (calculate_equalized_cdf_x86 4 (fun i => i % 4) example_cdf 3 9 zero_table).get 150 = 85 ∧
      (calculate_equalized_cdf_x86 4 (fun i => i % 4) example_cdf 3 9 zero_table).get 255
        = 255 := by
  have hown : ∀ i, i < 256 → (fun i : Nat => i % 4) i < 4 := fun i _ => Nat.mod_lt i (by decide)
  have key := (equalization_map_exact_formula 4 (fun i => i % 4) (fun i => i % 4) example_cdf 3 9
    zero_table hown hown example_cdf_nonneg example_cdf_mono example_cdf_last.symm (by decide)
    (example_cdf_min 4 _ hown).symm (by decide)).1
  refine ⟨hown, example_cdf_nonneg, example_cdf_mono, example_cdf_last.symm, by decide,
    (example_cdf_min 4 _ hown).symm, by decide, ?_, ?_, ?_⟩
  · rw [key 0, example_cdf_get]
    decide!
  · rw [key 150, example_cdf_get]
    decide!
  · rw [key 255, example_cdf_get]
    decide!

theorem equalization_map_in_range_witness :
    (∀ i, i < 256 → (fun i : Nat => i % 4) i < 4) ∧
      (∀ i : Fin 256, 0 ≤ example_cdf.get i) ∧
      (∀ i j : Fin 256, i ≤ j → example_cdf.get i ≤ example_cdf.get j) ∧
      (9 : Int) = example_cdf.get 255 ∧ (9 : Int) ≤ 2147483647 ∧
      (3 : Int) = calculate_cdf_min 4 (fun i => i % 4) example_cdf ∧
      ∀ i : Fin 256,
        0 ≤ (calculate_equalized_cdf_x86 4 (fun i => i % 4) example_cdf 3 9 zero_table).get i ∧
        (calculate_equalized_cdf_x86 4 (fun i => i % 4) example_cdf 3 9 zero_table).get i
          ≤ 255 :=
  ⟨fun i _ => Nat.mod_lt i (by decide), example_cdf_nonneg, example_cdf_mono,
    example_cdf_last.symm, by decide,
    (example_cdf_min 4 _ (fun i _ => Nat.mod_lt i (by decide))).symm,
    (equalization_map_in_range 4 (fun i => i % 4) (fun i => i % 4) example_cdf 3 9 zero_table
      (fun i _ => Nat.mod_lt i (by decide)) (fun i _ => Nat.mod_lt i (by decide))
      example_cdf_nonneg example_cdf_mono example_cdf_last.symm (by decide)
      (example_cdf_min 4 _ (fun i _ => Nat.mod_lt i (by decide))).symm).1⟩

/-! ## The run of the pipeline on x86-64 -/

theorem run_pipeline_x86_equalized_cdf (S : Schedule) (image : List UChar) (w h ch : Nat)
    (out : List UChar) :
    (run_pipeline_x86 S image w h ch out).equalized_cdf
      = calculate_equalized_cdf_x86 S.num_threads S.equalized_owner
          (run_pipeline S image w h ch out).cdf (run_pipeline S image w h ch out).cdf_min
          (total_pixels w h (adjusted_channels ch)) zero_table := by
  rw [run_pipeline_cdf_min, run_pipeline_cdf]
  unfold run_pipeline_x86
  dsimp only

theorem run_pipeline_x86_equalized_image (S : Schedule) (image : List UChar) (w h ch : Nat)
    (out : List UChar) :
    (run_pipeline_x86 S image w h ch out).equalized_image
      = (apply_equalization S.num_threads S.apply_owner
          { input_image := image, output_image := out,
            equalized_cdf := (run_pipeline_x86 S image w h ch out).equalized_cdf }
          w h (adjusted_channels ch)).output_image := by
  unfold run_pipeline_x86
  dsimp only

theorem run_pipeline_cdf_nonneg (S : Schedule) (image : List UChar) (w h ch : Nat)
    (out : List UChar) (hmax : w * h * adjusted_channels ch ≤ 2147483647)
    (hlen : image.length = w * h * ch) (hS : S.valid (w * h * adjusted_channels ch))
    (i : Fin 256) : 0 ≤ (run_pipeline S image w h ch out).cdf.get i := by
  rw [run_pipeline_cdf_samples S image w h ch out hmax hlen hS]
  exact cumulative_sum_nonneg _ (tally_nonneg _) i

theorem run_pipeline_cdf_mono (S : Schedule) (image : List UChar) (w h ch : Nat)
    (out : List UChar) (hmax : w * h * adjusted_channels ch ≤ 2147483647)
    (hlen : image.length = w * h * ch) (hS : S.valid (w * h * adjusted_channels ch))
    (i j : Fin 256) (hij : i ≤ j) :
    (run_pipeline S image w h ch out).cdf.get i ≤ (run_pipeline S image w h ch out).cdf.get j := by
  rw [run_pipeline_cdf_samples S image w h ch out hmax hlen hS,
    run_pipeline_cdf_samples S image w h ch out hmax hlen hS]
  exact cumulative_sum_mono _ (tally_nonneg _) i j hij

theorem run_pipeline_cdf_last (S : Schedule) (image : List UChar) (w h ch : Nat)
    (out : List UChar) (hmax : w * h * adjusted_channels ch ≤ 2147483647)
    (hlen : image.length = w * h * ch) (hS : S.valid (w * h * adjusted_channels ch)) :
    (run_pipeline S image w h ch out).cdf.get 255 = total_pixels w h (adjusted_channels ch) := by
  rw [run_pipeline_cdf_samples S image w h ch out hmax hlen hS, cumulative_sum_tally_last,
    run_pipeline_total image w h ch hmax hlen]

theorem run_pipeline_cdf_min_eq (S : Schedule) (image : List UChar) (w h ch : Nat)
    (out : List UChar) :
    (run_pipeline S image w h ch out).cdf_min
      = calculate_cdf_min S.num_threads S.cdf_min_owner (run_pipeline S image w h ch out).cdf := by
  rw [run_pipeline_cdf_min, ← run_pipeline_cdf S image w h ch out]

/-- Every entry of the map of a run on x86-64 lies in `[0, 255]`. -/
theorem run_pipeline_x86_map_range (S : Schedule) (image : List UChar) (w h ch : Nat)
    (out : List UChar) (hmax : w * h * adjusted_channels ch ≤ 2147483647)
    (hlen : image.length = w * h * ch) (hS : S.valid (w * h * adjusted_channels ch))
    (i : Fin 256) :
    0 ≤ (run_pipeline_x86 S image w h ch out).equalized_cdf.get i ∧
      (run_pipeline_x86 S image w h ch out).equalized_cdf.get i ≤ 255 := by
  have hlast := run_pipeline_cdf_last S image w h ch out hmax hlen hS
  have htot := total_pixels_eq w h (adjusted_channels ch) hmax
  rw [run_pipeline_x86_equalized_cdf,
    calculate_equalized_cdf_x86_get _ _ _ _ _ _ hS.2.2.1 i, ← hlast,
    run_pipeline_cdf_min_eq]
  exact (equalized_value_x86_of_cdf S.num_threads S.cdf_min_owner
    (run_pipeline S image w h ch out).cdf hS.2.1
    (run_pipeline_cdf_nonneg S image w h ch out hmax hlen hS)
    (run_pipeline_cdf_mono S image w h ch out hmax hlen hS)
    (by rw [hlast, htot]; exact_mod_cast hmax) i).2.2

theorem run_pipeline_x86_image (S : Schedule) (image : List UChar) (w h ch : Nat)
    (out : List UChar) (hmax : w * h * adjusted_channels ch ≤ 2147483647)
    (hlen : image.length = w * h * ch) (hout : out.length = w * h * adjusted_channels ch)
    (hS : S.valid (w * h * adjusted_channels ch)) :
    (run_pipeline_x86 S image w h ch out).equalized_image
      = (processed_samples image w h ch).map
          fun v => to_uchar ((run_pipeline_x86 S image w h ch out).equalized_cdf.get v) := by
  rw [run_pipeline_x86_equalized_image,
    (apply_equalization_spec S.num_threads S.apply_owner
      { input_image := image, output_image := out,
        equalized_cdf := (run_pipeline_x86 S image w h ch out).equalized_cdf } w h
      (adjusted_channels ch) hmax hout hS.2.2.2).2.2]
  apply range_map_getD image _ _
    (fun v => to_uchar ((run_pipeline_x86 S image w h ch out).equalized_cdf.get v))
  rw [hlen]
  exact Nat.mul_le_mul_left _ (adjusted_channels_le ch)

/-- Where the conversions of a run are all defined, its map and its output buffer are those of
the run on x86-64. -/
theorem run_pipeline_x86_agrees (S : Schedule) (image : List UChar) (w h ch : Nat)
    (out : List UChar) (hmax : w * h * adjusted_channels ch ≤ 2147483647)
    (hlen : image.length = w * h * ch) (hout : out.length = w * h * adjusted_channels ch)
    (hS : S.valid (w * h * adjusted_channels ch)) (map : Table)
    (hmap : (run_pipeline S image w h ch out).equalized_cdf = some map) :
    map = (run_pipeline_x86 S image w h ch out).equalized_cdf ∧
      (run_pipeline S image w h ch out).equalized_image
        = some (run_pipeline_x86 S image w h ch out).equalized_image := by
  have h1 : map = (run_pipeline_x86 S image w h ch out).equalized_cdf := by
    have hmap2 := hmap
    rw [run_pipeline_equalized_cdf, ← run_pipeline_cdf S image w h ch out] at hmap2
    have hmin := run_pipeline_cdf_min_eq S image w h ch out
    rw [← hmin] at hmap2
    rw [run_pipeline_x86_equalized_cdf]
    exact calculate_equalized_cdf_x86_agrees _ _ _ _ _ _ map hS.2.2.1 hmap2
  refine ⟨h1, ?_⟩
  rw [run_pipeline_image_of_map S image w h ch out hmax hlen hout hS map hmap,
    run_pipeline_x86_image S image w h ch out hmax hlen hout hS, ← h1]

/-- C17: for every pixel buffer, in particular for every buffer with at least two distinct
sample values, the total passed to `calculate_equalized_cdf` is `CDF[255]`, every entry of the
map the run writes on x86-64 lies in `[0, 255]`, and the output buffer has `n` samples, sample
`i` being `map[input[i]]` as an integer; where all conversions to `int` of the run are defined,
its map and its output buffer are these ones. -/
theorem pipeline_map_in_byte_range (S : Schedule) (image : List UChar) (w h ch : Nat)
    (out : List UChar) (hmax : w * h * adjusted_channels ch ≤ 2147483647)
    (hlen : image.length = w * h * ch) (hout : out.length = w * h * adjusted_channels ch)
    (hS : S.valid (w * h * adjusted_channels ch)) :
    (run_pipeline S image w h ch out).cdf.get 255 = total_pixels w h (adjusted_channels ch) ∧
      (∀ i : Fin 256, 0 ≤ (run_pipeline_x86 S image w h ch out).equalized_cdf.get i ∧
        (run_pipeline_x86 S image w h ch out).equalized_cdf.get i ≤ 255) ∧
      (run_pipeline_x86 S image w h ch out).equalized_image.length
        = w * h * adjusted_channels ch ∧
      (∀ i, i < w * h * adjusted_channels ch →
        ((((run_pipeline_x86 S image w h ch out).equalized_image.getD i 0).val : Nat) : Int)
          = (run_pipeline_x86 S image w h ch out).equalized_cdf.get (image.getD i 0)) ∧
      (∀ map : Table, (run_pipeline S image w h ch out).equalized_cdf = some map →
        map = (run_pipeline_x86 S image w h ch out).equalized_cdf ∧
        (run_pipeline S image w h ch out).equalized_image
          = some (run_pipeline_x86 S image w h ch out).equalized_image) := by
  have hrange := run_pipeline_x86_map_range S image w h ch out hmax hlen hS
  have himg := run_pipeline_x86_image S image w h ch out hmax hlen hout hS
  have hn : w * h * adjusted_channels ch ≤ image.length := by
    rw [hlen]
    exact Nat.mul_le_mul_left _ (adjusted_channels_le ch)
  refine ⟨run_pipeline_cdf_last S image w h ch out hmax hlen hS, hrange, ?_, ?_,
    fun map hmap => run_pipeline_x86_agrees S image w h ch out hmax hlen hout hS map hmap⟩
  · rw [himg, List.length_map]
    exact processed_samples_length image w h ch hlen
  · intro i hi
    have hget : (run_pipeline_x86 S image w h ch out).equalized_image.getD i 0
        = to_uchar ((run_pipeline_x86 S image w h ch out).equalized_cdf.get
            (image.getD i 0)) := by
      rw [himg]
      exact map_getD_take image _ i hn hi
        (fun v => to_uchar ((run_pipeline_x86 S image w h ch out).equalized_cdf.get v))
    rw [hget]
    exact to_uchar_of_range _ (hrange _).1 (hrange _).2

/-! ## An image whose lowest level has almost all the samples -/

theorem lopsided_length :
    (List.replicate 8421505 (5 : UChar) ++ [200]).length = 8421506 * 1 * 1 := by
  rw [List.length_append, List.length_replicate]
  rfl

theorem lopsided_samples :
    processed_samples (List.replicate 8421505 (5 : UChar) ++ [200]) 8421506 1 1
      = List.replicate 8421505 (5 : UChar) ++ [200] := by
  unfold processed_samples
  apply List.take_of_length_le
  rw [lopsided_length]
  decide

theorem lopsided_lowest (y : UChar) (hy : y ∈ List.replicate 8421505 (5 : UChar) ++ [200]) :
    (5 : UChar) ≤ y := by
  rcases List.mem_append.mp hy with h | h
  · rw [(List.mem_replicate.mp h).2]
  · rw [List.mem_singleton.mp h]
    decide

theorem lopsided_count :
    (List.replicate 8421505 (5 : UChar) ++ [200]).count 5 = 8421505 := by
  rw [List.count_append, List.count_replicate_self]
  rfl

/-- For the image with 8421505 samples of level 5 and one sample of level 200 the iteration of
`calculate_equalized_cdf` for level 0 computes `-8421505 / 1 * 255 = -2147483775`, below
`INT_MIN`: on x86-64 the conversion gives `INT_MIN` and `0` is stored, and the conversion is
undefined in C. -/
theorem lopsided_image_run (S : Schedule) (out : List UChar)
    (hS : S.valid (8421506 * 1 * adjusted_channels 1)) :
    (run_pipeline S (List.replicate 8421505 (5 : UChar) ++ [200]) 8421506 1 1 out).equalized_cdf
        = none ∧
      (run_pipeline_x86 S (List.replicate 8421505 (5 : UChar) ++ [200]) 8421506 1 1
        out).equalized_cdf.get 0 = 0 := by
  have hmax : 8421506 * 1 * adjusted_channels 1 ≤ 2147483647 := by decide
  have hm : (5 : UChar) ∈ processed_samples (List.replicate 8421505 (5 : UChar) ++ [200])
      8421506 1 1 := by
    rw [lopsided_samples]
    exact List.mem_append.mpr (Or.inl (List.mem_replicate.mpr ⟨by decide, rfl⟩))
  have hlow : ∀ y ∈ processed_samples (List.replicate 8421505 (5 : UChar) ++ [200])
      8421506 1 1, (5 : UChar) ≤ y := by
    rw [lopsided_samples]
    exact lopsided_lowest
  have hmin := run_pipeline_cdf_min_lowest S _ 8421506 1 1 out hmax lopsided_length hS 5 hm hlow
  have hcdf := run_pipeline_cdf_samples S _ 8421506 1 1 out hmax lopsided_length hS 0
  rw [cumulative_sum_tally_below _ 5 0 hlow (by decide)] at hcdf
  have htot := run_pipeline_total (List.replicate 8421505 (5 : UChar) ++ [200]) 8421506 1 1 hmax
    lopsided_length
  rw [lopsided_samples, lopsided_count] at hmin
  rw [lopsided_samples, lopsided_length] at htot
  have hval : equalized_value
      ((run_pipeline S (List.replicate 8421505 (5 : UChar) ++ [200]) 8421506 1 1 out).cdf.get 0)
      (run_pipeline S (List.replicate 8421505 (5 : UChar) ++ [200]) 8421506 1 1 out).cdf_min
      (total_pixels 8421506 1 (adjusted_channels 1)) = none := by
    rw [hcdf, hmin, htot]
    decide!
  constructor
  · have hval2 := hval
    rw [run_pipeline_cdf_min_eq] at hval2
    rw [run_pipeline_equalized_cdf, ← run_pipeline_cdf S _ 8421506 1 1 out]
    exact calculate_equalized_cdf_none _ _ _ _ _ _ 0 hS.2.2.1 hval2
  · rw [run_pipeline_x86_equalized_cdf, calculate_equalized_cdf_x86_get _ _ _ _ _ _ hS.2.2.1 0]
    exact equalized_value_x86_of_none _ _ _ hval

theorem pipeline_map_in_byte_range_witness :
    8421506 * 1 * adjusted_channels 1 ≤ 2147483647 ∧
      (List.replicate 8421505 (5 : UChar) ++ [200]).length = 8421506 * 1 * 1 ∧
      (List.replicate 8421506 (0 : UChar)).length = 8421506 * 1 * adjusted_channels 1 ∧
      sequential_schedule.valid (8421506 * 1 * adjusted_channels 1) ∧
      (run_pipeline sequential_schedule (List.replicate 8421505 (5 : UChar) ++ [200])
        8421506 1 1 (List.replicate 8421506 0)).equalized_cdf = none ∧
      (run_pipeline_x86 sequential_schedule (List.replicate 8421505 (5 : UChar) ++ [200])
        8421506 1 1 (List.replicate 8421506 0)).equalized_cdf.get 0 = 0 ∧
      ∀ i : Fin 256,
        0 ≤ (run_pipeline_x86 sequential_schedule (List.replicate 8421505 (5 : UChar) ++ [200])
          8421506 1 1 (List.replicate 8421506 0)).equalized_cdf.get i ∧
        (run_pipeline_x86 sequential_schedule (List.replicate 8421505 (5 : UChar) ++ [200])
          8421506 1 1 (List.replicate 8421506 0)).equalized_cdf.get i ≤ 255 :=
  ⟨by decide, lopsided_length, List.length_replicate _ _, sequential_schedule_valid _,
    (lopsided_image_run sequential_schedule _ (sequential_schedule_valid _)).1,
    (lopsided_image_run sequential_schedule _ (sequential_schedule_valid _)).2,
    (pipeline_map_in_byte_range sequential_schedule
      (List.replicate 8421505 (5 : UChar) ++ [200]) 8421506 1 1 (List.replicate 8421506 0)
      (by decide) lopsided_length (List.length_replicate _ _)
      (sequential_schedule_valid _)).2.1⟩

/-! ## Order preservation on x86-64 -/

end HistEq
